import Mathlib

/-!
# A verification development for the `nwcpp` dataflow library

The library (`cpp/dataflow.h`, `cpp/dataflow.cpp`) implements a toy dataflow
graph: named integer variables and binary operator nodes owned by a `Dataflow`
object.  Nodes refer to one another, and to their owning graph, through raw
pointers.

The embedding below keeps that shape:

* a pointer is a natural number (an address); the node store `Heap` maps
  addresses to live nodes, and a fresh node always receives the next unused
  address;
* `Variable`, `BinaryOp` and `Dataflow` are records with the private members
  of the C++ classes;
* a method that mutates returns the new store / graph together with its
  result; a thrown `std::runtime_error` is an `Except.error`, and its message
  is the C string that `what()` returns;
* dereferencing an address that holds no live node has no defined behaviour in
  C++, and neither has the division of `INT_MIN` by `-1`; such a step yields
  `none`;
* `int` arithmetic is carried out on `Int` and reduced to 32 bits
  two's-complement by `wrapInt`;
* `Session` follows the calls made on one graph, `World` the steps of a
  program that constructs and uses any number of graphs in one store;
* the text written by `DumpToGraphviz` is a `String`; how the C++ library
  prints a pointer is an argument of the export.
-/

set_option linter.dupNamespace false

namespace nwcpp

/-! ## Pointers and errors -/

/-- Address of a `Dataflow` object (what `Node::dag()` returns). -/
abbrev DagPtr := Nat

/-- Address of a `Node` object. -/
abbrev NodePtr := Nat

/-- The `std::runtime_error`s raised by the library, one constructor for each
`throw` statement of `dataflow.cpp`. -/
inductive Error
  | InvalidName
  | DuplicateName (name : String)
  | CrossGraphOperand
  | UnassignedVariable (name : String)
  | DivisionByZero
  | UnknownOperator (op : Char)
  | UnexpectedNodeType
  deriving DecidableEq, Repr

instance instDecidableEqExcept {ε α : Type} [DecidableEq ε] [DecidableEq α] :
    DecidableEq (Except ε α) := fun a b =>
  match a, b with
  | .ok x, .ok y => if h : x = y then isTrue (by rw [h]) else isFalse (fun e => h (by cases e; rfl))
  | .error x, .error y =>
    if h : x = y then isTrue (by rw [h]) else isFalse (fun e => h (by cases e; rfl))
  | .ok _, .error _ => isFalse (fun e => by cases e)
  | .error _, .ok _ => isFalse (fun e => by cases e)

/-- The text that a `const char*` designates: the characters that come before
the first NUL character. -/
def cString (s : String) : String :=
  String.mk (s.toList.takeWhile (fun c => c != Char.ofNat 0))

/-- The `std::string` from which each `std::runtime_error` is constructed. -/
def Error.message : Error → String
  | .InvalidName => "Invalid variable name (empty)"
  | .DuplicateName name => "Duplicate variable name ('" ++ name ++ "')"
  | .CrossGraphOperand => "Can't mix operands from different dataflows"
  | .UnassignedVariable name => "Attempting to use unasigned variable '" ++ name ++ "'"
  | .DivisionByZero => "Division by zero"
  | .UnknownOperator op => "Unknown op '" ++ String.singleton op ++ "'"
  | .UnexpectedNodeType => "Unexpected node type"

/-- The message of each error as `std::runtime_error::what()` returns it: a C
string, which ends at the first NUL character of the text. -/
def Error.what (e : Error) : String := cString e.message

/-! ## Machine integers -/

/-- Smallest value of a 32-bit `int`. -/
def INT_MIN : Int := -2147483648

/-- Largest value of a 32-bit `int`. -/
def INT_MAX : Int := 2147483647

/-- The value is representable as a 32-bit `int`. -/
def InIntRange (x : Int) : Prop := INT_MIN ≤ x ∧ x ≤ INT_MAX

instance (x : Int) : Decidable (InIntRange x) := by
  unfold InIntRange; exact inferInstance

/-- Reduction of a mathematical result to a 32-bit two's-complement `int`. -/
def wrapInt (x : Int) : Int := (x + 2147483648) % 4294967296 - 2147483648

/-! ## Nodes -/

/-- Members of `class Variable` (with the `dag_` member inherited from `Node`). -/
structure Variable where
  dag_ : DagPtr
  name_ : String
  value_ : Option Int
  deriving DecidableEq, Repr

/-- Members of `class BinaryOp` (with the `dag_` member inherited from `Node`). -/
structure BinaryOp where
  dag_ : DagPtr
  op_ : Char
  lhs_ : NodePtr
  rhs_ : NodePtr
  deriving DecidableEq, Repr

/-- A node object: the two classes derived from `Node`. -/
inductive Node
  | ofVariable (v : Variable)
  | ofBinaryOp (b : BinaryOp)
  deriving DecidableEq, Repr

/-- Method `Node::dag()`: the owning graph. -/
def Node.dag : Node → DagPtr
  | .ofVariable v => v.dag_
  | .ofBinaryOp b => b.dag_

/-- The node store: cell `p` holds the live node at address `p`, or `none` once
that node has been destroyed. -/
abbrev Heap := List (Option Node)

/-- The live node at an address, if any. -/
def Heap.deref (heap : Heap) (p : NodePtr) : Option Node :=
  match heap[p]? with
  | some cell => cell
  | none => none

/-- Destroys the node at an address. -/
def Heap.free (heap : Heap) (p : NodePtr) : Heap := heap.set p none

/-! ## `Variable` -/

/-- Constructor `Variable::Variable(passkey, name)`: throws on an empty name; the value
starts absent. -/
def Variable.Variable (passkey : DagPtr) (name : String) : Except Error nwcpp.Variable :=
  if name.isEmpty then .error .InvalidName
  else .ok { dag_ := passkey, name_ := name, value_ := none }

/-- Method `Variable::name()`. -/
def Variable.name (v : nwcpp.Variable) : String := v.name_

/-- Method `Variable::HasValue()`. -/
def Variable.HasValue (v : nwcpp.Variable) : Bool := v.value_.isSome

/-- Method `Variable::Assign(value)`. -/
def Variable.Assign (v : nwcpp.Variable) (value : Int) : nwcpp.Variable :=
  { v with value_ := some value }

/-- Method `Variable::Reset()`. -/
def Variable.Reset (v : nwcpp.Variable) : nwcpp.Variable :=
  { v with value_ := none }

/-- Method `Variable::Eval()`. -/
def Variable.Eval (v : nwcpp.Variable) : Except Error Int :=
  match v.value_ with
  | none => .error (.UnassignedVariable v.name_)
  | some value => .ok value

/-- The call `var->Assign(value)` through a pointer into the store. -/
def Heap.Assign (heap : Heap) (var : NodePtr) (value : Int) : Option Heap :=
  match heap.deref var with
  | some (.ofVariable v) => some (heap.set var (some (.ofVariable (v.Assign value))))
  | _ => none

/-- The call `var->Reset()` through a pointer into the store. -/
def Heap.Reset (heap : Heap) (var : NodePtr) : Option Heap :=
  match heap.deref var with
  | some (.ofVariable v) => some (heap.set var (some (.ofVariable v.Reset)))
  | _ => none

/-! ## `BinaryOp` -/

/-- Constructor `BinaryOp::BinaryOp(passkey, op, lhs, rhs)`: reads `lhs->dag()` and, only
when that one matches, `rhs->dag()`; throws when an operand belongs to another
graph.  The operator symbol is stored unchecked. -/
def BinaryOp.BinaryOp (heap : Heap) (passkey : DagPtr) (op : Char) (lhs rhs : NodePtr) :
    Option (Except Error nwcpp.BinaryOp) :=
  match heap.deref lhs with
  | none => none
  | some l =>
    if l.dag ≠ passkey then some (.error .CrossGraphOperand)
    else
      match heap.deref rhs with
      | none => none
      | some r =>
        if r.dag ≠ passkey then some (.error .CrossGraphOperand)
        else some (.ok { dag_ := passkey, op_ := op, lhs_ := lhs, rhs_ := rhs })

/-- The `switch (op_)` of `BinaryOp::Eval()`, applied to the two operand values.
The division `lhs_value / rhs_value` of `INT_MIN` by `-1` has no `int` quotient:
it produces neither a value nor an exception, which is the result `none`. -/
def BinaryOp.apply (op : Char) (lhs_value rhs_value : Int) : Option (Except Error Int) :=
  if op = '+' then some (.ok (wrapInt (lhs_value + rhs_value)))
  else if op = '-' then some (.ok (wrapInt (lhs_value - rhs_value)))
  else if op = '/' then
    if rhs_value = 0 then some (.error .DivisionByZero)
    else if lhs_value = INT_MIN ∧ rhs_value = -1 then none
    else some (.ok (wrapInt (Int.tdiv lhs_value rhs_value)))
  else if op = '*' then some (.ok (wrapInt (lhs_value * rhs_value)))
  else some (.error (.UnknownOperator op))

/-- The virtual call `node->Eval()`.  The recursion through operand pointers is
bounded by `fuel`; `none` means that no result was produced (the bound was
reached, an address without a live node was dereferenced, or `INT_MIN` was
divided by `-1`). -/
def Node.Eval (heap : Heap) : Nat → NodePtr → Option (Except Error Int)
  | 0, _ => none
  | fuel + 1, node =>
    match heap.deref node with
    | none => none
    | some (.ofVariable v) => some v.Eval
    | some (.ofBinaryOp b) =>
      match Node.Eval heap fuel b.lhs_ with
      | none => none
      | some (.error e) => some (.error e)
      | some (.ok lhs_value) =>
        match Node.Eval heap fuel b.rhs_ with
        | none => none
        | some (.error e) => some (.error e)
        | some (.ok rhs_value) => BinaryOp.apply b.op_ lhs_value rhs_value

/-! ## `std::map<std::string, Variable*>` -/

/-- The contents of a `std::map<std::string, Variable*>` in iteration order. -/
abbrev VarMap := List (String × NodePtr)

/-- Comparison `std::less<std::string>`: lexicographic comparison of the character
sequences. -/
def strLess (a b : String) : Bool := decide (a.toList < b.toList)

/-- Method `std::map::find`: the entry whose key equals `name`. -/
def VarMap.find : VarMap → String → Option NodePtr
  | [], _ => none
  | (key, var) :: rest, name => if key = name then some var else VarMap.find rest name

/-- Places a new entry in front of the first entry that has a greater key. -/
def VarMap.place : VarMap → String → NodePtr → VarMap
  | [], name, var => [(name, var)]
  | (key, v) :: rest, name, var =>
    if strLess name key then (name, var) :: (key, v) :: rest
    else (key, v) :: VarMap.place rest name var

/-- Method `std::map::insert`: when the key is present the map is left as it is and
the flag is `false`; otherwise the entry is added at its place in key order and
the flag is `true`. -/
def VarMap.insert (m : VarMap) (name : String) (var : NodePtr) : VarMap × Bool :=
  match m.find name with
  | some _ => (m, false)
  | none => (m.place name var, true)

/-! ## `Dataflow` -/

/-- Members of `class Dataflow`. -/
structure Dataflow where
  variables_ : VarMap
  nodes_ : List NodePtr
  deriving DecidableEq, Repr

/-- Constructor `Dataflow::Dataflow()`: both containers start empty. -/
def Dataflow.Dataflow : nwcpp.Dataflow := { variables_ := [], nodes_ := [] }

/-- Method `Dataflow::DeclareVariable(name)` on the graph at address `this`.  The new
`Variable` is built first; a failed `insert` destroys it again, so the store is
as before. -/
def Dataflow.DeclareVariable (this : DagPtr) (heap : Heap) (g : nwcpp.Dataflow)
    (name : String) : Heap × nwcpp.Dataflow × Except Error NodePtr :=
  match Variable.Variable this name with
  | .error e => (heap, g, .error e)
  | .ok var =>
    let ptr : NodePtr := heap.length
    match g.variables_.insert var.name ptr with
    | (vars, false) =>
      (heap, { g with variables_ := vars }, .error (.DuplicateName var.name))
    | (vars, true) =>
      (heap ++ [some (.ofVariable var)],
        { variables_ := vars, nodes_ := g.nodes_ ++ [ptr] }, .ok ptr)

/-- Method `Dataflow::CreateBinaryOp(op, lhs, rhs)` on the graph at address `this`. -/
def Dataflow.CreateBinaryOp (this : DagPtr) (heap : Heap) (g : nwcpp.Dataflow)
    (op : Char) (lhs rhs : NodePtr) : Option (Heap × nwcpp.Dataflow × Except Error NodePtr) :=
  match BinaryOp.BinaryOp heap this op lhs rhs with
  | none => none
  | some (.error e) => some (heap, g, .error e)
  | some (.ok operation) =>
    let ptr : NodePtr := heap.length
    some (heap ++ [some (.ofBinaryOp operation)], { g with nodes_ := g.nodes_ ++ [ptr] }, .ok ptr)

/-- Method `Dataflow::LookupVariable(name)`; `none` is the null pointer. -/
def Dataflow.LookupVariable (g : nwcpp.Dataflow) (name : String) : Option NodePtr :=
  g.variables_.find name

/-- Method `Dataflow::Variables()`: the mapped pointers in the map's iteration order. -/
def Dataflow.Variables (g : nwcpp.Dataflow) : List NodePtr :=
  g.variables_.map Prod.snd

/-- Method `Dataflow::clear()`: empties both containers; emptying `nodes_` destroys
every node the graph owns. -/
def Dataflow.clear (heap : Heap) (g : nwcpp.Dataflow) : Heap × nwcpp.Dataflow :=
  (g.nodes_.foldl Heap.free heap, { variables_ := [], nodes_ := [] })

/-! ## Expressions

The value of a node is specified against the expression tree obtained by
unfolding its operand pointers, evaluated over the current variable values. -/

/-- An arithmetic expression over variables, each leaf naming the variable's
address and name. -/
inductive Expr
  | var (p : NodePtr) (name : String)
  | op (symbol : Char) (lhs rhs : Expr)
  deriving DecidableEq, Repr

/-- The expression a node stands for; it depends on names, operator symbols and
operand pointers only, never on a variable's value. -/
def Node.expr (heap : Heap) : Nat → NodePtr → Option Expr
  | 0, _ => none
  | fuel + 1, node =>
    match heap.deref node with
    | none => none
    | some (.ofVariable v) => some (.var node v.name_)
    | some (.ofBinaryOp b) =>
      match Node.expr heap fuel b.lhs_, Node.expr heap fuel b.rhs_ with
      | some l, some r => some (.op b.op_ l r)
      | _, _ => none

/-- The current value of the variable at each address (`none`: unassigned, or
not a variable). -/
def Heap.values (heap : Heap) (p : NodePtr) : Option Int :=
  match heap.deref p with
  | some (.ofVariable v) => v.value_
  | _ => none

/-- Evaluation of an expression from scratch over given variable values: left
operand first, then the right one, then the operator.  The result `none` is the
division of `INT_MIN` by `-1`, met before any error. -/
def Expr.eval (env : NodePtr → Option Int) : Expr → Option (Except Error Int)
  | .var p name =>
    match env p with
    | none => some (.error (.UnassignedVariable name))
    | some value => some (.ok value)
  | .op symbol lhs rhs =>
    match lhs.eval env with
    | none => none
    | some (.error e) => some (.error e)
    | some (.ok lhs_value) =>
      match rhs.eval env with
      | none => none
      | some (.error e) => some (.error e)
      | some (.ok rhs_value) => BinaryOp.apply symbol lhs_value rhs_value

/-! ## Sequences of calls on one graph -/

/-- A call made by a client on the graph at address `this`, or on one of the
variables in the store. -/
inductive Call
  | DeclareVariable (name : String)
  | CreateBinaryOp (op : Char) (lhs rhs : NodePtr)
  | Assign (var : NodePtr) (value : Int)
  | Reset (var : NodePtr)
  | clear
  deriving DecidableEq, Repr

/-- The node store and one graph, with a record (kept for specification only)
of the successful declarations made since the graph was constructed or last
cleared: the name passed and the pointer returned, in call order. -/
structure Session where
  heap : Heap
  graph : Dataflow
  declared : List (String × NodePtr)
  deriving DecidableEq, Repr

/-- A newly constructed graph in a given store. -/
def Session.start (heap : Heap) : Session :=
  { heap := heap, graph := Dataflow.Dataflow, declared := [] }

/-- One call.  A thrown error leaves the session running; `none` is a call with
no defined behaviour. -/
def Session.step (this : DagPtr) (s : Session) : Call → Option Session
  | .DeclareVariable name =>
    match Dataflow.DeclareVariable this s.heap s.graph name with
    | (heap, g, .ok ptr) => some { heap := heap, graph := g, declared := s.declared ++ [(name, ptr)] }
    | (heap, g, .error _) => some { heap := heap, graph := g, declared := s.declared }
  | .CreateBinaryOp op lhs rhs =>
    match Dataflow.CreateBinaryOp this s.heap s.graph op lhs rhs with
    | none => none
    | some (heap, g, _) => some { heap := heap, graph := g, declared := s.declared }
  | .Assign var value =>
    match Heap.Assign s.heap var value with
    | none => none
    | some heap => some { s with heap := heap }
  | .Reset var =>
    match Heap.Reset s.heap var with
    | none => none
    | some heap => some { s with heap := heap }
  | .clear =>
    match Dataflow.clear s.heap s.graph with
    | (heap, g) => some { heap := heap, graph := g, declared := [] }

/-- A sequence of calls, in order. -/
def Session.run (this : DagPtr) : Session → List Call → Option Session
  | s, [] => some s
  | s, c :: cs =>
    match s.step this c with
    | none => none
    | some s' => Session.run this s' cs

/-- The names of the variables returned by `Variables()`, read through the
returned pointers (`none` for a pointer that is not a live variable). -/
def Session.variableNames (s : Session) : List (Option String) :=
  s.graph.Variables.map fun p =>
    match s.heap.deref p with
    | some (.ofVariable v) => some v.name
    | _ => none

/-- What links the record of declarations to the graph and the store: the name
index holds exactly the recorded declarations, in strictly ascending key order,
every recorded pointer designates a live variable of this graph carrying the
recorded name, and the recorded pointers are pairwise distinct. -/
structure Session.Consistent (this : DagPtr) (s : Session) : Prop where
  index : s.graph.variables_.Perm s.declared
  ascending : (s.graph.variables_.map Prod.fst).Sorted (· < ·)
  live : ∀ name ptr, (name, ptr) ∈ s.declared →
    ∃ v : Variable, s.heap.deref ptr = some (.ofVariable v) ∧ v.name = name ∧ v.dag_ = this
  distinct : (s.declared.map Prod.snd).Nodup

/-- The entry of the name index that a node of the sequence accounts for: a
variable accounts for its name and address, an operator node for none. -/
def varEntry (heap : Heap) (p : NodePtr) : Option (String × NodePtr) :=
  match heap.deref p with
  | some (.ofVariable v) => some (v.name, p)
  | _ => none

/-- What links the node sequence to the record of declarations: every node of
the sequence is live and owned by the graph, the variables of the sequence are,
in order, the recorded declarations, and no recorded name is empty. -/
structure Session.Indexed (this : DagPtr) (s : Session) : Prop where
  nodesLive : ∀ p ∈ s.graph.nodes_, ∃ n : Node, s.heap.deref p = some n ∧ n.dag = this
  entries : s.graph.nodes_.filterMap (varEntry s.heap) = s.declared
  named : ∀ (name : String) (ptr : NodePtr), (name, ptr) ∈ s.declared → name ≠ ""

/-- The calls of `TEST(Dataflow, BinaryOperations)` that build its graph; in an
empty store `a` is at address 0, `b` at 1, `sum` at 2, `product` at 3, `diff`
at 4, `div` at 5 and `test = sum - diff` at 6. -/
def binaryOperationsTest : List Call :=
  [.DeclareVariable "a", .DeclareVariable "b",
    .CreateBinaryOp '+' 0 1, .CreateBinaryOp '*' 0 1, .CreateBinaryOp '-' 0 1,
    .CreateBinaryOp '/' 0 1, .CreateBinaryOp '-' 2 4]

/-- The results of `Eval()` on the listed nodes after a sequence of calls on a
new graph in an empty store. -/
def evalAfter (calls : List Call) (fuel : Nat) (nodes : List NodePtr) :
    Option (List (Option (Except Error Int))) :=
  (Session.run 0 (Session.start []) calls).map fun s => nodes.map (Node.Eval s.heap fuel)

/-! ## Operand references -/

/-- Node `q` is reached from node `p` by following operand pointers, zero or
more times. -/
inductive Reaches (heap : Heap) : NodePtr → NodePtr → Prop
  | refl (p : NodePtr) : Reaches heap p p
  | lhs (p q : NodePtr) (b : BinaryOp) :
    heap.deref p = some (.ofBinaryOp b) → Reaches heap b.lhs_ q → Reaches heap p q
  | rhs (p q : NodePtr) (b : BinaryOp) :
    heap.deref p = some (.ofBinaryOp b) → Reaches heap b.rhs_ q → Reaches heap p q

/-- The operator symbols listed as supported in `dataflow.h`. -/
def supportedOp (op : Char) : Prop := op = '+' ∨ op = '-' ∨ op = '/' ∨ op = '*'

instance (op : Char) : Decidable (supportedOp op) := by
  unfold supportedOp; exact inferInstance

/-- Some `/` node reached from `p` has a left operand that evaluates to
`INT_MIN` and a right operand that evaluates to `-1`: the division whose
quotient is no `int`. -/
def DivOverflow (heap : Heap) (p : NodePtr) : Prop :=
  ∃ (q : NodePtr) (b : BinaryOp) (f1 f2 : Nat), Reaches heap p q ∧
    heap.deref q = some (.ofBinaryOp b) ∧ b.op_ = '/' ∧
    Node.Eval heap f1 b.lhs_ = some (.ok INT_MIN) ∧ Node.Eval heap f2 b.rhs_ = some (.ok (-1))

/-- The calls that declare a and b, build the node a/b and assign `INT_MIN` to a
and `-1` to b. -/
def overflowCalls : List Call :=
  [.DeclareVariable "a", .DeclareVariable "b", .CreateBinaryOp '/' 0 1,
    .Assign 0 INT_MIN, .Assign 1 (-1)]

/-- The store that `overflowCalls` produce from the empty store: a = `INT_MIN`
at address 0, b = `-1` at address 1 and the node a/b at address 2. -/
def overflowTest : Heap :=
  [some (.ofVariable ⟨0, "a", some INT_MIN⟩), some (.ofVariable ⟨0, "b", some (-1)⟩),
    some (.ofBinaryOp ⟨0, '/', 0, 1⟩)]

/-- A store with the variables a = 1, b = 5 and c (with the given value) of one
graph and the node a+b, at addresses 0 to 3. -/
def frameTest (c : Option Int) : Heap :=
  [some (.ofVariable ⟨0, "a", some 1⟩), some (.ofVariable ⟨0, "b", some 5⟩),
    some (.ofVariable ⟨0, "c", c⟩), some (.ofBinaryOp ⟨0, '+', 0, 1⟩)]

/-! ## Graphviz export -/

/-- The cast `dynamic_cast<const Variable*>(node)`. -/
def Node.asVariable : Node → Option Variable
  | .ofVariable v => some v
  | .ofBinaryOp _ => none

/-- The cast `dynamic_cast<const BinaryOp*>(node)`. -/
def Node.asBinaryOp : Node → Option BinaryOp
  | .ofVariable _ => none
  | .ofBinaryOp b => some b

/-- Function `DotNodeId(node)`: the text `Node_` followed by the address as the
stream prints it.  How a pointer is printed is left to the C++ library; it is
the argument `showPtr`. -/
def DotNodeId (showPtr : NodePtr → String) (node : NodePtr) : String :=
  "Node_" ++ showPtr node

/-- The label of a variable's box: its name, followed by `=` and the value read
with `Eval()` when `HasValue()` holds. -/
def variableLabel (var : Variable) : Except Error String :=
  if var.HasValue then
    match var.Eval with
    | .error e => .error e
    | .ok value => .ok (var.name ++ "=" ++ toString value)
  else .ok var.name

/-- The node statement written for a variable. -/
def variableStatement (showPtr : NodePtr → String) (var : NodePtr) (label : String) : String :=
  DotNodeId showPtr var ++ " [label=\"" ++ label ++ "\", " ++ "shape=rect, color=darkgreen, "
    ++ "style=filled, fillcolor=palegreen]\n"

/-- The node statement and the two edge lines written for an operator node. -/
def binaryOpStatements (showPtr : NodePtr → String) (node : NodePtr) (binary_op : BinaryOp) :
    String :=
  (DotNodeId showPtr node ++ " [label=\"<lhs>|" ++ String.singleton binary_op.op_
      ++ "|<rhs>\", shape=Mrecord, color=blue, " ++ "style=filled, fillcolor=lightblue]\n")
    ++ (DotNodeId showPtr binary_op.lhs_ ++ "->" ++ DotNodeId showPtr node ++ ":lhs\n")
    ++ (DotNodeId showPtr binary_op.rhs_ ++ "->" ++ DotNodeId showPtr node ++ ":rhs\n")

/-- The loop `for (const auto& node : nodes_)` of `DumpToGraphviz`, `dot` being
the text written so far. -/
def dumpLoop (showPtr : NodePtr → String) (heap : Heap) :
    List NodePtr → String → Option (Except Error String)
  | [], dot => some (.ok dot)
  | node :: rest, dot =>
    match heap.deref node with
    | none => none
    | some n =>
      match n.asVariable with
      | some var =>
        match variableLabel var with
        | .error e => some (.error e)
        | .ok label => dumpLoop showPtr heap rest (dot ++ variableStatement showPtr node label)
      | none =>
        match n.asBinaryOp with
        | some binary_op =>
          dumpLoop showPtr heap rest (dot ++ binaryOpStatements showPtr node binary_op)
        | none => some (.error .UnexpectedNodeType)

/-- Method `Dataflow::DumpToGraphviz()`. -/
def Dataflow.DumpToGraphviz (showPtr : NodePtr → String) (heap : Heap) (g : nwcpp.Dataflow) :
    Option (Except Error String) :=
  match dumpLoop showPtr heap g.nodes_ ("digraph dataflow \x7b\n" ++ "rankdir=TB\n") with
  | some (.ok dot) => some (.ok (dot ++ "\x7d\n"))
  | other => other

/-- Concatenation of a list of texts, in order. -/
def concatAll : List String → String
  | [] => ""
  | s :: rest => s ++ concatAll rest

/-- The text written by `DumpToGraphviz` for the node at an address. -/
def dotBlock (showPtr : NodePtr → String) (heap : Heap) (node : NodePtr) : String :=
  match heap.deref node with
  | some (.ofVariable v) =>
    variableStatement showPtr node
      (match v.value_ with
        | none => v.name
        | some value => v.name ++ "=" ++ toString value)
  | some (.ofBinaryOp b) => binaryOpStatements showPtr node b
  | none => ""

/-- One injective way of printing an address, for illustration: a run of as
many marks as the address. -/
def tallyPtr (p : NodePtr) : String := String.mk (List.replicate p 'x')

/-! ## Several graphs -/

/-- The node store together with the graph objects; the graph at address `d`
is `dags[d]`. -/
structure World where
  heap : Heap
  dags : List Dataflow
  deriving DecidableEq, Repr

/-- A step of a client program: constructing a graph, or a call on the graph at
address `this` (for `Assign` and `Reset`, a call on a variable of the store). -/
inductive WorldCall
  | Dataflow
  | call (this : DagPtr) (c : Call)
  deriving DecidableEq, Repr

/-- The state before any graph or node exists. -/
def World.empty : World := { heap := [], dags := [] }

/-- One step; `none` is a step with no defined behaviour. -/
def World.step (w : World) : WorldCall → Option World
  | .Dataflow => some { w with dags := w.dags ++ [Dataflow.Dataflow] }
  | .call this c =>
    match w.dags[this]? with
    | none => none
    | some g =>
      match Session.step this { heap := w.heap, graph := g, declared := [] } c with
      | none => none
      | some s => some { heap := s.heap, dags := w.dags.set this s.graph }

/-- A sequence of steps, in order. -/
def World.run : World → List WorldCall → Option World
  | w, [] => some w
  | w, c :: cs =>
    match w.step c with
    | none => none
    | some w' => World.run w' cs

/-- The invariant of the reachable states: every node of a graph's sequence is
live and owned by that graph, every live node is in its owner's sequence, the
operands of a live operator node are live, have the same owner and an earlier
address, and every sequence is in strictly ascending address order. -/
structure World.WellFormed (w : World) : Prop where
  owned : ∀ (d : DagPtr) (g : Dataflow), w.dags[d]? = some g → ∀ p ∈ g.nodes_,
    ∃ n : Node, w.heap.deref p = some n ∧ n.dag = d
  member : ∀ (p : NodePtr) (n : Node), w.heap.deref p = some n →
    ∃ g : Dataflow, w.dags[n.dag]? = some g ∧ p ∈ g.nodes_
  operands : ∀ (p : NodePtr) (b : BinaryOp), w.heap.deref p = some (.ofBinaryOp b) →
    ∃ l r : Node, w.heap.deref b.lhs_ = some l ∧ l.dag = b.dag_ ∧ b.lhs_ < p ∧
      w.heap.deref b.rhs_ = some r ∧ r.dag = b.dag_ ∧ b.rhs_ < p
  ordered : ∀ (d : DagPtr) (g : Dataflow), w.dags[d]? = some g → g.nodes_.Sorted (· < ·)

/-- The steps of `TEST(Dataflow, MixingDataflows)` up to `sum_2`: `dag_1` at
address 0 owns a (0), b (1) and sum_1 (3); `dag_2` at address 1 owns c (2) and
sum_2 (4). -/
def mixingDataflowsTest : List WorldCall :=
  [.Dataflow, .Dataflow,
    .call 0 (.DeclareVariable "a"), .call 0 (.DeclareVariable "b"),
    .call 1 (.DeclareVariable "c"),
    .call 0 (.CreateBinaryOp '+' 0 1), .call 1 (.CreateBinaryOp '+' 2 2)]

/-- The steps of `TEST(Dataflow, BinaryOperations)` on a single graph at
address 0. -/
def binaryOperationsWorld : List WorldCall :=
  .Dataflow :: binaryOperationsTest.map (WorldCall.call 0)

end nwcpp

namespace nwcpp

/-! ## Lemmas on the node store -/

theorem Heap.deref_append_left (heap : Heap) (cell : Option Node) (p : NodePtr)
    (hp : p < heap.length) : Heap.deref (heap ++ [cell]) p = Heap.deref heap p := by
  unfold Heap.deref
  rw [List.getElem?_append_left hp]

theorem Heap.deref_append_new (heap : Heap) (cell : Option Node) :
    Heap.deref (heap ++ [cell]) heap.length = cell := by
  simp [Heap.deref]

theorem Heap.deref_length (heap : Heap) : Heap.deref heap heap.length = none := by
  simp [Heap.deref]

theorem Heap.deref_lt (heap : Heap) (p : NodePtr) (n : Node)
    (h : Heap.deref heap p = some n) : p < heap.length := by
  by_contra hge
  have hnone : heap[p]? = none := List.getElem?_eq_none (Nat.le_of_not_lt hge)
  simp [Heap.deref, hnone] at h

/-! ## Lemmas on the name index -/

theorem VarMap.find_eq_none_iff (m : VarMap) (name : String) :
    m.find name = none ↔ name ∉ m.map Prod.fst := by
  induction m with
  | nil => simp [VarMap.find]
  | cons e rest ih =>
    obtain ⟨key, v⟩ := e
    by_cases hk : key = name
    · simp [VarMap.find, hk]
    · have hk2 : ¬ name = key := fun h => hk h.symm
      simp [VarMap.find, hk, hk2, ih]

theorem VarMap.find_place_self (m : VarMap) (name : String) (var : NodePtr)
    (h : m.find name = none) : (m.place name var).find name = some var := by
  induction m with
  | nil => simp [VarMap.place, VarMap.find]
  | cons e rest ih =>
    obtain ⟨key, v⟩ := e
    by_cases hk : key = name
    · simp [VarMap.find, hk] at h
    · simp only [VarMap.find, hk, if_false] at h
      by_cases hl : strLess name key = true
      · simp [VarMap.place, hl, VarMap.find]
      · simp [VarMap.place, hl, VarMap.find, hk, ih h]

theorem VarMap.find_place_other (m : VarMap) (name other : String) (var : NodePtr)
    (h : other ≠ name) : (m.place name var).find other = m.find other := by
  have h2 : ¬ name = other := fun e => h e.symm
  induction m with
  | nil => simp [VarMap.place, VarMap.find, h2]
  | cons e rest ih =>
    obtain ⟨key, v⟩ := e
    by_cases hl : strLess name key = true
    · simp [VarMap.place, hl, VarMap.find, h2]
    · by_cases hk : key = other
      · subst hk
        simp [VarMap.place, hl, VarMap.find]
      · simp [VarMap.place, hl, VarMap.find, hk, ih]

/-! ## Declaring variables -/

/-- C1: on any graph, declaring a non-empty name that is not a key of the name
index succeeds; the returned pointer designates a new variable carrying that
name and no value, lookup of the name returns that pointer, the pointer is
appended as the last element of the node sequence, the lookup of every other
name is as before, and the nodes that already existed are untouched. -/
theorem declareVariable_fresh (this : DagPtr) (heap : Heap) (g : Dataflow) (name : String)
    (hname : name ≠ "") (hfresh : name ∉ g.variables_.map Prod.fst) :
    ∃ heap' g' ptr var,
      Dataflow.DeclareVariable this heap g name = (heap', g', .ok ptr) ∧
      Heap.deref heap ptr = none ∧
      Heap.deref heap' ptr = some (.ofVariable var) ∧
      var.dag_ = this ∧ var.name = name ∧ var.HasValue = false ∧
      g'.LookupVariable name = some ptr ∧
      g'.nodes_ = g.nodes_ ++ [ptr] ∧
      (∀ other, other ≠ name → g'.LookupVariable other = g.LookupVariable other) ∧
      (∀ p, p < heap.length → Heap.deref heap' p = Heap.deref heap p) := by
  have hempty : name.isEmpty = false := by
    cases hb : name.isEmpty with
    | false => rfl
    | true => exact absurd ((String.isEmpty_iff name).mp hb) hname
  have hfind : g.variables_.find name = none := (VarMap.find_eq_none_iff _ _).mpr hfresh
  refine ⟨heap ++ [some (.ofVariable ⟨this, name, none⟩)],
    ⟨g.variables_.place name heap.length, g.nodes_ ++ [heap.length]⟩, heap.length,
    ⟨this, name, none⟩, ?_, Heap.deref_length heap, Heap.deref_append_new heap _, rfl, rfl, rfl,
    ?_, rfl, ?_, ?_⟩
  · simp [Dataflow.DeclareVariable, Variable.Variable, hempty, Variable.name, VarMap.insert, hfind]
  · exact VarMap.find_place_self _ _ _ hfind
  · intro other hother
    exact VarMap.find_place_other _ _ _ _ hother
  · intro p hp
    exact Heap.deref_append_left heap _ p hp

/-- Witness for C1: declaring "a" in a newly constructed graph. -/
theorem declareVariable_fresh_witness :
    ∃ heap' g' ptr var,
      Dataflow.DeclareVariable 0 [] Dataflow.Dataflow "a" = (heap', g', .ok ptr) ∧
      Heap.deref [] ptr = none ∧
      Heap.deref heap' ptr = some (.ofVariable var) ∧
      var.dag_ = 0 ∧ var.name = "a" ∧ var.HasValue = false ∧
      g'.LookupVariable "a" = some ptr ∧
      g'.nodes_ = Dataflow.Dataflow.nodes_ ++ [ptr] ∧
      (∀ other, other ≠ "a" → g'.LookupVariable other = Dataflow.Dataflow.LookupVariable other) ∧
      (∀ p, p < ([] : Heap).length → Heap.deref heap' p = Heap.deref [] p) :=
  declareVariable_fresh 0 [] Dataflow.Dataflow "a" (by decide) (by decide)

/-- C2: on any graph, declaring the empty name fails with `InvalidName`, and
declaring a non-empty name that is a key of the name index fails with
`DuplicateName`; either way the node store (hence every variable and its
value), the name index and the node sequence come back exactly as they were. -/
theorem declareVariable_rejected (this : DagPtr) (heap : Heap) (g : Dataflow) (name : String)
    (h : name = "" ∨ name ∈ g.variables_.map Prod.fst) :
    Dataflow.DeclareVariable this heap g name =
      (heap, g, .error (if name = "" then Error.InvalidName else Error.DuplicateName name)) := by
  by_cases hname : name = ""
  · subst hname
    have hempty : "".isEmpty = true := by decide
    simp [Dataflow.DeclareVariable, Variable.Variable, hempty]
  · have hdecl : name ∈ g.variables_.map Prod.fst := h.resolve_left hname
    have hempty : name.isEmpty = false := by
      cases hb : name.isEmpty with
      | false => rfl
      | true => exact absurd ((String.isEmpty_iff name).mp hb) hname
    have hfind : ∃ p, g.variables_.find name = some p := by
      cases hf : g.variables_.find name with
      | none => exact absurd hdecl ((VarMap.find_eq_none_iff _ _).mp hf)
      | some p => exact ⟨p, rfl⟩
    obtain ⟨p, hp⟩ := hfind
    simp [Dataflow.DeclareVariable, Variable.Variable, hempty, Variable.name, VarMap.insert, hp,
      hname]

/-- Witness for C2: declaring "foo" a second time. -/
theorem declareVariable_rejected_witness :
    Dataflow.DeclareVariable 0 [some (.ofVariable ⟨0, "foo", some 3⟩)] ⟨[("foo", 0)], [0]⟩ "foo" =
      ([some (.ofVariable ⟨0, "foo", some 3⟩)], ⟨[("foo", 0)], [0]⟩,
        .error (if "foo" = "" then Error.InvalidName else Error.DuplicateName "foo")) :=
  declareVariable_rejected 0 [some (.ofVariable ⟨0, "foo", some 3⟩)] ⟨[("foo", 0)], [0]⟩ "foo"
    (Or.inr (by decide))

end nwcpp

namespace nwcpp

/-! ## Variable values -/

theorem Heap.deref_set_self (heap : Heap) (p : NodePtr) (cell : Option Node)
    (hp : p < heap.length) : Heap.deref (heap.set p cell) p = cell := by
  simp [Heap.deref, List.getElem?_set, hp]

theorem Heap.deref_set_other (heap : Heap) (p q : NodePtr) (cell : Option Node)
    (hq : q ≠ p) : Heap.deref (heap.set p cell) q = Heap.deref heap q := by
  have hpq : p ≠ q := fun e => hq e.symm
  simp [Heap.deref, List.getElem?_set, hpq]

/-- C3: a variable produced by the constructor has no value and its evaluation
fails; after `Assign(x)`, from any state, the variable has a value and
evaluates to `x`, a later `Assign` replacing an earlier one; after `Reset()`,
from any state, it has no value and evaluation fails with `UnassignedVariable`
for its name.  `Assign` and `Reset` are total, keep the name and the owning
graph, and the same holds for the calls made through a pointer to a live
variable of the store. -/
theorem variable_values (passkey : DagPtr) (name : String) (var : Variable)
    (hnew : Variable.Variable passkey name = .ok var)
    (heap : Heap) (p : NodePtr) (v : Variable) (hv : Heap.deref heap p = some (.ofVariable v))
    (x y : Int) :
    (var.HasValue = false ∧ var.Eval = .error (.UnassignedVariable name)) ∧
    ((v.Assign x).HasValue = true ∧ (v.Assign x).Eval = .ok x) ∧
    (((v.Assign x).Assign y).Eval = .ok y ∧ (v.Reset.Assign y).Eval = .ok y) ∧
    (v.Reset.HasValue = false ∧ v.Reset.Eval = .error (.UnassignedVariable v.name)) ∧
    ((v.Assign x).Reset.HasValue = false ∧
      (v.Assign x).Reset.Eval = .error (.UnassignedVariable v.name)) ∧
    ((v.Assign x).name = v.name ∧ v.Reset.name = v.name ∧
      (v.Assign x).dag_ = v.dag_ ∧ v.Reset.dag_ = v.dag_) ∧
    (∃ heap', Heap.Assign heap p x = some heap' ∧
      Heap.deref heap' p = some (.ofVariable (v.Assign x)) ∧
      ∀ fuel, Node.Eval heap' (fuel + 1) p = some (.ok x)) ∧
    (∃ heap', Heap.Reset heap p = some heap' ∧
      Heap.deref heap' p = some (.ofVariable v.Reset) ∧
      ∀ fuel, Node.Eval heap' (fuel + 1) p = some (.error (.UnassignedVariable v.name))) := by
  have hp : p < heap.length := Heap.deref_lt heap p _ hv
  refine ⟨?_, ⟨rfl, rfl⟩, ⟨rfl, rfl⟩, ⟨rfl, rfl⟩, ⟨rfl, rfl⟩, ⟨rfl, rfl, rfl, rfl⟩, ?_, ?_⟩
  · unfold Variable.Variable at hnew
    split at hnew
    · cases hnew
    · cases hnew
      exact ⟨rfl, rfl⟩
  · refine ⟨heap.set p (some (.ofVariable (v.Assign x))), ?_, Heap.deref_set_self heap p _ hp, ?_⟩
    · simp [Heap.Assign, hv]
    · intro fuel
      simp [Node.Eval, Heap.deref_set_self heap p _ hp, Variable.Eval, Variable.Assign]
  · refine ⟨heap.set p (some (.ofVariable v.Reset)), ?_, Heap.deref_set_self heap p _ hp, ?_⟩
    · simp [Heap.Reset, hv]
    · intro fuel
      simp [Node.Eval, Heap.deref_set_self heap p _ hp, Variable.Eval, Variable.Reset,
        Variable.name]

/-- Witness for C3: the variable "a" of the test, assigned 0 and reset. -/
theorem variable_values_witness :
    ((⟨0, "a", none⟩ : Variable).HasValue = false ∧
      (⟨0, "a", none⟩ : Variable).Eval = .error (.UnassignedVariable "a")) ∧
    (((⟨0, "a", none⟩ : Variable).Assign 0).HasValue = true ∧
      ((⟨0, "a", none⟩ : Variable).Assign 0).Eval = .ok 0) ∧
    ((((⟨0, "a", none⟩ : Variable).Assign 0).Assign 7).Eval = .ok 7 ∧
      ((⟨0, "a", none⟩ : Variable).Reset.Assign 7).Eval = .ok 7) ∧
    ((⟨0, "a", none⟩ : Variable).Reset.HasValue = false ∧
      (⟨0, "a", none⟩ : Variable).Reset.Eval =
        .error (.UnassignedVariable (⟨0, "a", none⟩ : Variable).name)) ∧
    (((⟨0, "a", none⟩ : Variable).Assign 0).Reset.HasValue = false ∧
      ((⟨0, "a", none⟩ : Variable).Assign 0).Reset.Eval =
        .error (.UnassignedVariable (⟨0, "a", none⟩ : Variable).name)) ∧
    (((⟨0, "a", none⟩ : Variable).Assign 0).name = (⟨0, "a", none⟩ : Variable).name ∧
      (⟨0, "a", none⟩ : Variable).Reset.name = (⟨0, "a", none⟩ : Variable).name ∧
      ((⟨0, "a", none⟩ : Variable).Assign 0).dag_ = (⟨0, "a", none⟩ : Variable).dag_ ∧
      (⟨0, "a", none⟩ : Variable).Reset.dag_ = (⟨0, "a", none⟩ : Variable).dag_) ∧
    (∃ heap', Heap.Assign [some (.ofVariable ⟨0, "a", none⟩)] 0 0 = some heap' ∧
      Heap.deref heap' 0 = some (.ofVariable ((⟨0, "a", none⟩ : Variable).Assign 0)) ∧
      ∀ fuel, Node.Eval heap' (fuel + 1) 0 = some (.ok 0)) ∧
    (∃ heap', Heap.Reset [some (.ofVariable ⟨0, "a", none⟩)] 0 = some heap' ∧
      Heap.deref heap' 0 = some (.ofVariable (⟨0, "a", none⟩ : Variable).Reset) ∧
      ∀ fuel, Node.Eval heap' (fuel + 1) 0 =
        some (.error (.UnassignedVariable (⟨0, "a", none⟩ : Variable).name))) :=
  variable_values 0 "a" ⟨0, "a", none⟩ (by decide) [some (.ofVariable ⟨0, "a", none⟩)] 0
    ⟨0, "a", none⟩ (by decide) 0 7

end nwcpp

namespace nwcpp

/-! ## Evaluation of operator nodes -/

theorem wrapInt_of_inRange (x : Int) (h : InIntRange x) : wrapInt x = x := by
  unfold InIntRange INT_MIN INT_MAX at h
  unfold wrapInt
  omega

theorem Node.Eval_binaryOp (heap : Heap) (fuel : Nat) (node : NodePtr) (b : BinaryOp) (l r : Int)
    (hnode : Heap.deref heap node = some (.ofBinaryOp b))
    (hl : Node.Eval heap fuel b.lhs_ = some (.ok l))
    (hr : Node.Eval heap fuel b.rhs_ = some (.ok r)) :
    Node.Eval heap (fuel + 1) node = BinaryOp.apply b.op_ l r := by
  simp [Node.Eval, hnode, hl, hr]

theorem tdiv_sign (l r : Int) :
    (0 ≤ l → 0 ≤ r → 0 ≤ Int.tdiv l r) ∧ (0 ≤ l → r ≤ 0 → Int.tdiv l r ≤ 0) ∧
    (l ≤ 0 → 0 ≤ r → Int.tdiv l r ≤ 0) ∧ (l ≤ 0 → r ≤ 0 → 0 ≤ Int.tdiv l r) := by
  refine ⟨Int.tdiv_nonneg, Int.tdiv_nonpos, ?_, ?_⟩
  · intro hl hr
    have h := Int.tdiv_nonneg (Int.neg_nonneg.mpr hl) hr
    rw [Int.neg_tdiv] at h
    omega
  · intro hl hr
    have h := Int.tdiv_nonneg (Int.neg_nonneg.mpr hl) (Int.neg_nonneg.mpr hr)
    rw [Int.neg_tdiv, Int.tdiv_neg] at h
    omega

theorem tdiv_inRange (l r : Int) (hl : InIntRange l) (hr : InIntRange r)
    (h : ¬ (l = INT_MIN ∧ r = -1)) : InIntRange (Int.tdiv l r) := by
  unfold InIntRange INT_MIN INT_MAX at *
  have habs : (Int.tdiv l r).natAbs = l.natAbs / r.natAbs := Int.natAbs_tdiv l r
  by_cases h1 : r = 1
  · subst h1
    rw [Int.tdiv_one]
    exact hl
  by_cases h2 : r = -1
  · subst h2
    have : Int.tdiv l (-1) = -l := by rw [Int.tdiv_neg, Int.tdiv_one]
    rw [this]
    omega
  by_cases h0 : r = 0
  · subst h0
    rw [Int.tdiv_zero]
    omega
  have hr2 : 2 ≤ r.natAbs := by omega
  have hle : l.natAbs / r.natAbs ≤ l.natAbs / 2 := Nat.div_le_div_left hr2 (by decide)
  omega

/-- C4: when the operands of an operator node evaluate to `l` and `r`, and the
mathematical result fits a 32-bit `int`, a `+` node evaluates to `l + r`, a `-`
node to `l - r` (left minus right) and a `*` node to `l * r`.  On the graph of
the test, with a = 1 and b = 5 the nodes a+b, a*b, a-b and (a+b)-(a-b) give
6, 5, -4 and 10; with a = 1 and b = 0 the nodes a+b, a*b and a-b give 1, 0, 1. -/
theorem binaryOp_eval_arith (heap : Heap) (fuel : Nat) (node : NodePtr) (b : BinaryOp)
    (l r : Int)
    (hnode : Heap.deref heap node = some (.ofBinaryOp b))
    (hl : Node.Eval heap fuel b.lhs_ = some (.ok l))
    (hr : Node.Eval heap fuel b.rhs_ = some (.ok r)) :
    (b.op_ = '+' → InIntRange (l + r) → Node.Eval heap (fuel + 1) node = some (.ok (l + r))) ∧
    (b.op_ = '-' → InIntRange (l - r) → Node.Eval heap (fuel + 1) node = some (.ok (l - r))) ∧
    (b.op_ = '*' → InIntRange (l * r) → Node.Eval heap (fuel + 1) node = some (.ok (l * r))) ∧
    evalAfter (binaryOperationsTest ++ [.Assign 0 1, .Assign 1 5]) 3 [2, 3, 4, 6] =
      some [some (.ok 6), some (.ok 5), some (.ok (-4)), some (.ok 10)] ∧
    evalAfter (binaryOperationsTest ++ [.Assign 0 1, .Assign 1 0]) 3 [2, 3, 4] =
      some [some (.ok 1), some (.ok 0), some (.ok 1)] := by
  have h := Node.Eval_binaryOp heap fuel node b l r hnode hl hr
  refine ⟨?_, ?_, ?_, by decide, by decide⟩
  · intro hop hrange
    rw [h, hop]
    simp [BinaryOp.apply, wrapInt_of_inRange _ hrange]
  · intro hop hrange
    rw [h, hop]
    simp [BinaryOp.apply, wrapInt_of_inRange _ hrange]
  · intro hop hrange
    rw [h, hop]
    simp [BinaryOp.apply, wrapInt_of_inRange _ hrange]

/-- Witness for C4: the node 3 - 5 in a three-cell store. -/
theorem binaryOp_eval_arith_witness :
    Node.Eval [some (.ofVariable ⟨0, "a", some 3⟩), some (.ofVariable ⟨0, "b", some 5⟩),
      some (.ofBinaryOp ⟨0, '-', 0, 1⟩)] 2 2 = some (.ok (3 - 5)) :=
  (binaryOp_eval_arith [some (.ofVariable ⟨0, "a", some 3⟩), some (.ofVariable ⟨0, "b", some 5⟩),
    some (.ofBinaryOp ⟨0, '-', 0, 1⟩)] 1 2 ⟨0, '-', 0, 1⟩ 3 5 (by decide) (by decide)
    (by decide)).2.1 (by decide) (by decide)

/-- C5: when the operands of a `/` node evaluate to `int` values `l` and `r`:
if `r = 0` evaluation fails with `DivisionByZero`; if `r ≠ 0` and the pair is
not `INT_MIN / -1`, evaluation returns the quotient truncated toward zero, that
is the quotient of the magnitudes carrying the sign of the exact quotient.  So
1 / 5 = 0, (-7) / 2 = -3 and 7 / (-2) = -3, where the floor would be -4.  The
excluded division of `INT_MIN` by `-1` yields neither a value nor an error. -/
theorem binaryOp_eval_div (heap : Heap) (fuel : Nat) (node : NodePtr) (b : BinaryOp)
    (l r : Int)
    (hnode : Heap.deref heap node = some (.ofBinaryOp b)) (hop : b.op_ = '/')
    (hl : Node.Eval heap fuel b.lhs_ = some (.ok l))
    (hr : Node.Eval heap fuel b.rhs_ = some (.ok r))
    (hlrange : InIntRange l) (hrrange : InIntRange r) :
    (r = 0 → Node.Eval heap (fuel + 1) node = some (.error .DivisionByZero)) ∧
    (r ≠ 0 → ¬ (l = INT_MIN ∧ r = -1) →
      Node.Eval heap (fuel + 1) node = some (.ok (Int.tdiv l r))) ∧
    ((Int.tdiv l r).natAbs = l.natAbs / r.natAbs ∧
      (0 ≤ l → 0 ≤ r → 0 ≤ Int.tdiv l r) ∧ (0 ≤ l → r ≤ 0 → Int.tdiv l r ≤ 0) ∧
      (l ≤ 0 → 0 ≤ r → Int.tdiv l r ≤ 0) ∧ (l ≤ 0 → r ≤ 0 → 0 ≤ Int.tdiv l r)) ∧
    evalAfter (binaryOperationsTest ++ [.Assign 0 1, .Assign 1 5]) 2 [5] = some [some (.ok 0)] ∧
    evalAfter (binaryOperationsTest ++ [.Assign 0 (-7), .Assign 1 2]) 2 [5] =
      some [some (.ok (-3))] ∧
    evalAfter (binaryOperationsTest ++ [.Assign 0 7, .Assign 1 (-2)]) 2 [5] =
      some [some (.ok (-3))] ∧
    evalAfter (binaryOperationsTest ++ [.Assign 0 1, .Assign 1 0]) 2 [5] =
      some [some (.error .DivisionByZero)] ∧
    (-7 : Int) / 2 = -4 ∧
    (l = INT_MIN → r = -1 → Node.Eval heap (fuel + 1) node = none) := by
  have h := Node.Eval_binaryOp heap fuel node b l r hnode hl hr
  refine ⟨?_, ?_, ⟨Int.natAbs_tdiv l r, tdiv_sign l r⟩, by decide, by decide, by decide,
    by decide, by decide, ?_⟩
  rotate_right
  · intro hlm hrm
    rw [h, hop, hlm, hrm]
    decide
  · intro hr0
    rw [h, hop]
    simp [BinaryOp.apply, hr0]
  · intro hr0 hmin
    rw [h, hop]
    have hq := wrapInt_of_inRange _ (tdiv_inRange l r hlrange hrrange hmin)
    simp [BinaryOp.apply, hr0, hq, hmin]

/-- Witness for C5: the node -7 / 2 in a three-cell store. -/
theorem binaryOp_eval_div_witness :
    Node.Eval [some (.ofVariable ⟨0, "a", some (-7)⟩), some (.ofVariable ⟨0, "b", some 2⟩),
      some (.ofBinaryOp ⟨0, '/', 0, 1⟩)] 2 2 = some (.ok (Int.tdiv (-7) 2)) :=
  (binaryOp_eval_div [some (.ofVariable ⟨0, "a", some (-7)⟩), some (.ofVariable ⟨0, "b", some 2⟩),
    some (.ofBinaryOp ⟨0, '/', 0, 1⟩)] 1 2 ⟨0, '/', 0, 1⟩ (-7) 2 (by decide) (by decide)
    (by decide) (by decide) (by decide) (by decide)).2.1 (by decide) (by decide)

end nwcpp

namespace nwcpp

/-! ## Creating operator nodes -/

theorem Heap.deref_append_of_some (heap : Heap) (cell : Option Node) (p : NodePtr) (n : Node)
    (h : Heap.deref heap p = some n) : Heap.deref (heap ++ [cell]) p = some n := by
  rw [Heap.deref_append_left heap cell p (Heap.deref_lt heap p n h), h]

/-- A result of `Eval` is not affected by the allocation of a further node. -/
theorem Node.Eval_append (heap : Heap) (cell : Option Node) :
    ∀ (fuel : Nat) (node : NodePtr) (res : Except Error Int),
      Node.Eval heap fuel node = some res → Node.Eval (heap ++ [cell]) fuel node = some res := by
  intro fuel
  induction fuel with
  | zero => intro node res h; simp [Node.Eval] at h
  | succ fuel ih =>
    intro node res h
    unfold Node.Eval at h ⊢
    cases hn : Heap.deref heap node with
    | none => simp [hn] at h
    | some n =>
      rw [Heap.deref_append_of_some heap cell node n hn]
      rw [hn] at h
      cases n with
      | ofVariable v => exact h
      | ofBinaryOp b =>
        simp only at h ⊢
        cases hl : Node.Eval heap fuel b.lhs_ with
        | none => simp [hl] at h
        | some lres =>
          rw [ih _ _ hl]
          rw [hl] at h
          cases lres with
          | error e => exact h
          | ok lv =>
            simp only at h ⊢
            cases hr : Node.Eval heap fuel b.rhs_ with
            | none => simp [hr] at h
            | some rres =>
              rw [ih _ _ hr]
              rw [hr] at h
              exact h

/-- The outcome of `CreateBinaryOp` when both operands are live nodes owned by
the creating graph: whatever the symbol, a new node is allocated and appended. -/
theorem createBinaryOp_owned (this : DagPtr) (heap : Heap) (g : Dataflow) (op : Char)
    (lhs rhs : NodePtr) (l r : Node)
    (hl : Heap.deref heap lhs = some l) (hr : Heap.deref heap rhs = some r)
    (hldag : l.dag = this) (hrdag : r.dag = this) :
    Dataflow.CreateBinaryOp this heap g op lhs rhs =
      some (heap ++ [some (.ofBinaryOp ⟨this, op, lhs, rhs⟩)],
        { g with nodes_ := g.nodes_ ++ [heap.length] }, .ok heap.length) := by
  simp [Dataflow.CreateBinaryOp, BinaryOp.BinaryOp, hl, hr, hldag, hrdag]

/-- C6 fails on the code: created with the symbol `%` on two variables of the
graph, the operator node is accepted, no error is raised and the node sequence
grows by the new node. -/
theorem createBinaryOp_unsupported_counterexample :
    ('%' ≠ '+' ∧ '%' ≠ '-' ∧ '%' ≠ '/' ∧ '%' ≠ '*') ∧
    Dataflow.CreateBinaryOp 0
        [some (.ofVariable ⟨0, "a", none⟩), some (.ofVariable ⟨0, "b", none⟩)]
        ⟨[("a", 0), ("b", 1)], [0, 1]⟩ '%' 0 1 =
      some ([some (.ofVariable ⟨0, "a", none⟩), some (.ofVariable ⟨0, "b", none⟩),
          some (.ofBinaryOp ⟨0, '%', 0, 1⟩)],
        ⟨[("a", 0), ("b", 1)], [0, 1, 2]⟩, .ok 2) ∧
    ¬ ∃ (e : Error) (heap : Heap) (g : Dataflow),
      Dataflow.CreateBinaryOp 0
        [some (.ofVariable ⟨0, "a", none⟩), some (.ofVariable ⟨0, "b", none⟩)]
        ⟨[("a", 0), ("b", 1)], [0, 1]⟩ '%' 0 1 = some (heap, g, .error e) := by
  refine ⟨by decide, by decide, ?_⟩
  rintro ⟨e, heap, g, h⟩
  have h2 : Dataflow.CreateBinaryOp 0
        [some (.ofVariable ⟨0, "a", none⟩), some (.ofVariable ⟨0, "b", none⟩)]
        ⟨[("a", 0), ("b", 1)], [0, 1]⟩ '%' 0 1 =
      some ([some (.ofVariable ⟨0, "a", none⟩), some (.ofVariable ⟨0, "b", none⟩),
          some (.ofBinaryOp ⟨0, '%', 0, 1⟩)],
        ⟨[("a", 0), ("b", 1)], [0, 1, 2]⟩, .ok 2) := by decide
  rw [h2] at h
  cases h

/-- C6, amended: for a symbol that is not one of `+ - / *` and two live
operands owned by the graph, `CreateBinaryOp` raises no error; it allocates an
operator node carrying that symbol and appends it to the node sequence, the
name index being untouched.  The symbol is rejected only by evaluation: once
both operands evaluate, `Eval` of the new node fails with `UnknownOperator`. -/
theorem createBinaryOp_unsupported (this : DagPtr) (heap : Heap) (g : Dataflow) (op : Char)
    (lhs rhs : NodePtr) (l r : Node)
    (hop : op ≠ '+' ∧ op ≠ '-' ∧ op ≠ '/' ∧ op ≠ '*')
    (hl : Heap.deref heap lhs = some l) (hr : Heap.deref heap rhs = some r)
    (hldag : l.dag = this) (hrdag : r.dag = this) :
    ∃ heap' g' ptr,
      Dataflow.CreateBinaryOp this heap g op lhs rhs = some (heap', g', .ok ptr) ∧
      Heap.deref heap ptr = none ∧
      Heap.deref heap' ptr = some (.ofBinaryOp ⟨this, op, lhs, rhs⟩) ∧
      g'.nodes_ = g.nodes_ ++ [ptr] ∧ g'.variables_ = g.variables_ ∧
      (∀ fuel x y, Node.Eval heap fuel lhs = some (.ok x) →
        Node.Eval heap fuel rhs = some (.ok y) →
        Node.Eval heap' (fuel + 1) ptr = some (.error (.UnknownOperator op))) := by
  refine ⟨_, _, _, createBinaryOp_owned this heap g op lhs rhs l r hl hr hldag hrdag,
    Heap.deref_length heap, Heap.deref_append_new heap _, rfl, rfl, ?_⟩
  intro fuel x y hx hy
  have h := Node.Eval_binaryOp (heap ++ [some (.ofBinaryOp ⟨this, op, lhs, rhs⟩)]) fuel heap.length
    ⟨this, op, lhs, rhs⟩ x y (Heap.deref_append_new heap _)
    (Node.Eval_append heap _ fuel lhs _ hx) (Node.Eval_append heap _ fuel rhs _ hy)
  rw [h]
  simp [BinaryOp.apply, hop.1, hop.2.1, hop.2.2.1, hop.2.2.2]

/-- Witness for C6 as amended: the symbol `%` on two assigned variables. -/
theorem createBinaryOp_unsupported_witness :
    ∃ heap' g' ptr,
      Dataflow.CreateBinaryOp 0
        [some (.ofVariable ⟨0, "a", some 1⟩), some (.ofVariable ⟨0, "b", some 5⟩)]
        ⟨[("a", 0), ("b", 1)], [0, 1]⟩ '%' 0 1 = some (heap', g', .ok ptr) ∧
      Heap.deref [some (.ofVariable ⟨0, "a", some 1⟩), some (.ofVariable ⟨0, "b", some 5⟩)] ptr
        = none ∧
      Heap.deref heap' ptr = some (.ofBinaryOp ⟨0, '%', 0, 1⟩) ∧
      g'.nodes_ = [0, 1] ++ [ptr] ∧ g'.variables_ = [("a", 0), ("b", 1)] ∧
      (∀ fuel x y,
        Node.Eval [some (.ofVariable ⟨0, "a", some 1⟩), some (.ofVariable ⟨0, "b", some 5⟩)]
          fuel 0 = some (.ok x) →
        Node.Eval [some (.ofVariable ⟨0, "a", some 1⟩), some (.ofVariable ⟨0, "b", some 5⟩)]
          fuel 1 = some (.ok y) →
        Node.Eval heap' (fuel + 1) ptr = some (.error (.UnknownOperator '%'))) :=
  createBinaryOp_unsupported 0
    [some (.ofVariable ⟨0, "a", some 1⟩), some (.ofVariable ⟨0, "b", some 5⟩)]
    ⟨[("a", 0), ("b", 1)], [0, 1]⟩ '%' 0 1 (.ofVariable ⟨0, "a", some 1⟩)
    (.ofVariable ⟨0, "b", some 5⟩) (by decide) (by decide) (by decide) (by decide) (by decide)

/-- C7: with two live operands, `CreateBinaryOp` on the graph at `this` fails
with `CrossGraphOperand` as soon as the left or the right operand (a variable
or an operator node alike) is owned by another graph, and then returns the
store, the node sequence and the name index as they were.  When both operands
are owned by the graph (the same node twice included) it succeeds for every
symbol and appends exactly one new node holding the given symbol and operands,
leaving the existing nodes and the name index untouched. -/
theorem createBinaryOp_membership (this : DagPtr) (heap : Heap) (g : Dataflow) (op : Char)
    (lhs rhs : NodePtr) (l r : Node)
    (hl : Heap.deref heap lhs = some l) (hr : Heap.deref heap rhs = some r) :
    ((l.dag ≠ this ∨ r.dag ≠ this) →
      Dataflow.CreateBinaryOp this heap g op lhs rhs = some (heap, g, .error .CrossGraphOperand)) ∧
    ((l.dag = this ∧ r.dag = this) →
      ∃ heap' g' ptr,
        Dataflow.CreateBinaryOp this heap g op lhs rhs = some (heap', g', .ok ptr) ∧
        Heap.deref heap ptr = none ∧
        Heap.deref heap' ptr = some (.ofBinaryOp ⟨this, op, lhs, rhs⟩) ∧
        heap'.length = heap.length + 1 ∧
        g'.nodes_ = g.nodes_ ++ [ptr] ∧ g'.variables_ = g.variables_ ∧
        (∀ p, p < heap.length → Heap.deref heap' p = Heap.deref heap p)) := by
  constructor
  · intro hforeign
    by_cases hld : l.dag = this
    · have hrd : r.dag ≠ this := hforeign.resolve_left (fun h => h hld)
      simp [Dataflow.CreateBinaryOp, BinaryOp.BinaryOp, hl, hr, hld, hrd]
    · simp [Dataflow.CreateBinaryOp, BinaryOp.BinaryOp, hl, hld]
  · rintro ⟨hld, hrd⟩
    refine ⟨_, _, _, createBinaryOp_owned this heap g op lhs rhs l r hl hr hld hrd,
      Heap.deref_length heap, Heap.deref_append_new heap _, by simp, rfl, rfl, ?_⟩
    intro p hp
    exact Heap.deref_append_left heap _ p hp

/-- Witness for C7: the graphs of `TEST(Dataflow, MixingDataflows)`, `dag_1` at
address 1 owning a, b and sum_1, `dag_2` at address 2 owning c and sum_2; the
call `dag_2.CreateBinaryOp('+', sum_2, sum_1)` is rejected. -/
theorem createBinaryOp_membership_witness :
    Dataflow.CreateBinaryOp 2
        [some (.ofVariable ⟨1, "a", none⟩), some (.ofVariable ⟨1, "b", none⟩),
          some (.ofVariable ⟨2, "c", none⟩), some (.ofBinaryOp ⟨1, '+', 0, 1⟩),
          some (.ofBinaryOp ⟨2, '+', 2, 2⟩)]
        ⟨[("c", 2)], [2, 4]⟩ '+' 4 3 =
      some ([some (.ofVariable ⟨1, "a", none⟩), some (.ofVariable ⟨1, "b", none⟩),
          some (.ofVariable ⟨2, "c", none⟩), some (.ofBinaryOp ⟨1, '+', 0, 1⟩),
          some (.ofBinaryOp ⟨2, '+', 2, 2⟩)],
        ⟨[("c", 2)], [2, 4]⟩, .error .CrossGraphOperand) :=
  (createBinaryOp_membership 2
    [some (.ofVariable ⟨1, "a", none⟩), some (.ofVariable ⟨1, "b", none⟩),
      some (.ofVariable ⟨2, "c", none⟩), some (.ofBinaryOp ⟨1, '+', 0, 1⟩),
      some (.ofBinaryOp ⟨2, '+', 2, 2⟩)]
    ⟨[("c", 2)], [2, 4]⟩ '+' 4 3 (.ofBinaryOp ⟨2, '+', 2, 2⟩) (.ofBinaryOp ⟨1, '+', 0, 1⟩)
    (by decide) (by decide)).1 (Or.inr (by decide))

end nwcpp

namespace nwcpp

/-! ## The name index along a sequence of calls -/

theorem strLess_iff (a b : String) : strLess a b = true ↔ a < b := by
  unfold strLess
  rw [decide_eq_true_iff]
  exact String.lt_iff_toList_lt.symm

theorem VarMap.place_perm (m : VarMap) (name : String) (var : NodePtr) :
    (m.place name var).Perm ((name, var) :: m) := by
  induction m with
  | nil => simp [VarMap.place]
  | cons e rest ih =>
    obtain ⟨key, v⟩ := e
    by_cases hl : strLess name key = true
    · simp [VarMap.place, hl]
    · simp only [VarMap.place, hl, Bool.false_eq_true, if_false]
      exact (List.Perm.cons _ ih).trans (List.Perm.swap _ _ _)

theorem VarMap.place_sorted (m : VarMap) (name : String) (var : NodePtr)
    (hs : (m.map Prod.fst).Sorted (· < ·)) (hfresh : name ∉ m.map Prod.fst) :
    ((m.place name var).map Prod.fst).Sorted (· < ·) := by
  induction m with
  | nil => simp [VarMap.place]
  | cons e rest ih =>
    obtain ⟨key, v⟩ := e
    simp only [List.map_cons, List.sorted_cons] at hs
    have hne : name ≠ key := fun h => hfresh (by simp [h])
    have hrest : name ∉ rest.map Prod.fst := fun h => hfresh (by simp at h ⊢; exact Or.inr h)
    by_cases hl : strLess name key = true
    · have hlt : name < key := (strLess_iff _ _).mp hl
      simp only [VarMap.place, hl, if_true, List.map_cons, List.sorted_cons]
      refine ⟨?_, hs⟩
      intro b hb
      rcases List.mem_cons.mp hb with hb | hb
      · rw [hb]; exact hlt
      · exact lt_trans hlt (hs.1 b hb)
    · have hnlt : ¬ name < key := fun h => hl ((strLess_iff _ _).mpr h)
      have hgt : key < name := lt_of_le_of_ne (not_lt.mp hnlt) (fun h => hne h.symm)
      simp only [VarMap.place, hl, Bool.false_eq_true, if_false, List.map_cons, List.sorted_cons]
      refine ⟨?_, ih hs.2 hrest⟩
      intro b hb
      have hb2 : b ∈ ((name, var) :: rest).map Prod.fst :=
        ((VarMap.place_perm rest name var).map Prod.fst).subset hb
      rcases List.mem_cons.mp hb2 with hb2 | hb2
      · rw [hb2]; exact hgt
      · exact hs.1 b hb2

theorem VarMap.find_eq_some_iff (m : VarMap) (hnodup : (m.map Prod.fst).Nodup)
    (name : String) (ptr : NodePtr) : m.find name = some ptr ↔ (name, ptr) ∈ m := by
  induction m with
  | nil => simp [VarMap.find]
  | cons e rest ih =>
    obtain ⟨key, v⟩ := e
    simp only [List.map_cons, List.nodup_cons] at hnodup
    by_cases hk : key = name
    · subst hk
      have hnot : (key, ptr) ∉ rest := fun h => hnodup.1 (List.mem_map_of_mem Prod.fst h)
      simp [VarMap.find, hnot, eq_comm]
    · have hk2 : ¬ name = key := fun h => hk h.symm
      simp [VarMap.find, hk, hk2, ih hnodup.2]

end nwcpp

namespace nwcpp

theorem declareVariable_cases (this : DagPtr) (heap : Heap) (g : Dataflow) (name : String) :
    (∃ e, Dataflow.DeclareVariable this heap g name = (heap, g, .error e)) ∨
    (name ≠ "" ∧ name ∉ g.variables_.map Prod.fst ∧
      Dataflow.DeclareVariable this heap g name =
        (heap ++ [some (.ofVariable ⟨this, name, none⟩)],
          ⟨g.variables_.place name heap.length, g.nodes_ ++ [heap.length]⟩, .ok heap.length)) := by
  by_cases hname : name = ""
  · subst hname
    have hempty : "".isEmpty = true := by decide
    exact Or.inl ⟨.InvalidName, by simp [Dataflow.DeclareVariable, Variable.Variable, hempty]⟩
  · have hempty : name.isEmpty = false := by
      cases hb : name.isEmpty with
      | false => rfl
      | true => exact absurd ((String.isEmpty_iff name).mp hb) hname
    cases hf : g.variables_.find name with
    | some p =>
      exact Or.inl ⟨.DuplicateName name, by
        simp [Dataflow.DeclareVariable, Variable.Variable, hempty, Variable.name, VarMap.insert,
          hf]⟩
    | none =>
      refine Or.inr ⟨hname, (VarMap.find_eq_none_iff _ _).mp hf, ?_⟩
      simp [Dataflow.DeclareVariable, Variable.Variable, hempty, Variable.name, VarMap.insert, hf]

theorem createBinaryOp_cases (this : DagPtr) (heap : Heap) (g : Dataflow) (op : Char)
    (lhs rhs : NodePtr) :
    Dataflow.CreateBinaryOp this heap g op lhs rhs = none ∨
    (∃ e, Dataflow.CreateBinaryOp this heap g op lhs rhs = some (heap, g, .error e)) ∨
    (∃ b, Dataflow.CreateBinaryOp this heap g op lhs rhs =
      some (heap ++ [some (.ofBinaryOp b)], { g with nodes_ := g.nodes_ ++ [heap.length] },
        .ok heap.length)) := by
  unfold Dataflow.CreateBinaryOp
  cases h : BinaryOp.BinaryOp heap this op lhs rhs with
  | none => exact Or.inl rfl
  | some res =>
    cases res with
    | error e => exact Or.inr (Or.inl ⟨e, rfl⟩)
    | ok b => exact Or.inr (Or.inr ⟨b, rfl⟩)

theorem Session.Consistent.start (this : DagPtr) (heap : Heap) :
    Session.Consistent this (Session.start heap) := by
  refine ⟨?_, ?_, ?_, ?_⟩ <;> simp [Session.start, Dataflow.Dataflow]

theorem Session.Consistent.grow (this : DagPtr) (s : Session) (hs : Session.Consistent this s)
    (cell : Option Node) (nodes : List NodePtr) :
    Session.Consistent this
      { heap := s.heap ++ [cell], graph := { s.graph with nodes_ := nodes },
        declared := s.declared } := by
  refine ⟨hs.index, hs.ascending, ?_, hs.distinct⟩
  intro name ptr hmem
  obtain ⟨v, hv, hn, hd⟩ := hs.live name ptr hmem
  exact ⟨v, Heap.deref_append_of_some s.heap cell ptr _ hv, hn, hd⟩

theorem Session.Consistent.update (this : DagPtr) (s : Session) (hs : Session.Consistent this s)
    (var : NodePtr) (v v' : Variable) (hv : Heap.deref s.heap var = some (.ofVariable v))
    (hname : v'.name = v.name) (hdag : v'.dag_ = v.dag_) :
    Session.Consistent this { s with heap := s.heap.set var (some (.ofVariable v')) } := by
  refine ⟨hs.index, hs.ascending, ?_, hs.distinct⟩
  intro name ptr hmem
  obtain ⟨w, hw, hn, hd⟩ := hs.live name ptr hmem
  by_cases hp : ptr = var
  · subst hp
    rw [hv] at hw
    cases hw
    exact ⟨v', Heap.deref_set_self s.heap ptr _ (Heap.deref_lt s.heap ptr _ hv),
      hname.trans hn, hdag.trans hd⟩
  · exact ⟨w, by rw [Heap.deref_set_other s.heap var ptr _ hp]; exact hw, hn, hd⟩

theorem Session.Consistent.step (this : DagPtr) (s s' : Session) (c : Call)
    (hs : Session.Consistent this s) (hstep : s.step this c = some s') :
    Session.Consistent this s' := by
  cases c with
  | DeclareVariable name =>
    simp only [Session.step] at hstep
    rcases declareVariable_cases this s.heap s.graph name with ⟨e, he⟩ | ⟨hname, hfresh, hok⟩
    · rw [he] at hstep
      cases hstep
      exact hs
    · rw [hok] at hstep
      cases hstep
      refine ⟨?_, VarMap.place_sorted _ _ _ hs.ascending hfresh, ?_, ?_⟩
      · exact (VarMap.place_perm _ _ _).trans
          ((List.Perm.cons _ hs.index).trans (List.perm_append_singleton _ _).symm)
      · intro n ptr hmem
        rcases List.mem_append.mp hmem with hmem | hmem
        · obtain ⟨v, hv, hn, hd⟩ := hs.live n ptr hmem
          exact ⟨v, Heap.deref_append_of_some s.heap _ ptr _ hv, hn, hd⟩
        · simp only [List.mem_singleton, Prod.mk.injEq] at hmem
          obtain ⟨hn, hp⟩ := hmem
          subst hn hp
          exact ⟨⟨this, n, none⟩, Heap.deref_append_new s.heap _, rfl, rfl⟩
      · rw [List.map_append, List.nodup_append]
        refine ⟨hs.distinct, by simp, ?_⟩
        intro p hp1 hp2
        simp only [List.map_cons, List.map_nil, List.mem_singleton] at hp2
        obtain ⟨e, he, hep⟩ := List.mem_map.mp hp1
        obtain ⟨v, hv, -, -⟩ := hs.live e.1 e.2 he
        have hlt := Heap.deref_lt s.heap e.2 _ hv
        rw [hep, hp2] at hlt
        exact Nat.lt_irrefl _ hlt
  | CreateBinaryOp op lhs rhs =>
    simp only [Session.step] at hstep
    rcases createBinaryOp_cases this s.heap s.graph op lhs rhs with h | ⟨e, h⟩ | ⟨b, h⟩
    · rw [h] at hstep
      cases hstep
    · rw [h] at hstep
      cases hstep
      exact hs
    · rw [h] at hstep
      cases hstep
      exact Session.Consistent.grow this s hs _ _
  | Assign var value =>
    simp only [Session.step, Heap.Assign] at hstep
    cases hd : Heap.deref s.heap var with
    | none => simp [hd] at hstep
    | some n =>
      cases n with
      | ofBinaryOp b => simp [hd] at hstep
      | ofVariable v =>
        simp only [hd] at hstep
        cases hstep
        exact Session.Consistent.update this s hs var v _ hd rfl rfl
  | Reset var =>
    simp only [Session.step, Heap.Reset] at hstep
    cases hd : Heap.deref s.heap var with
    | none => simp [hd] at hstep
    | some n =>
      cases n with
      | ofBinaryOp b => simp [hd] at hstep
      | ofVariable v =>
        simp only [hd] at hstep
        cases hstep
        exact Session.Consistent.update this s hs var v _ hd rfl rfl
  | clear =>
    simp only [Session.step, Dataflow.clear] at hstep
    cases hstep
    refine ⟨?_, ?_, ?_, ?_⟩ <;> simp

theorem Session.Consistent.run (this : DagPtr) (calls : List Call) :
    ∀ (s s' : Session), Session.Consistent this s → Session.run this s calls = some s' →
      Session.Consistent this s' := by
  induction calls with
  | nil =>
    intro s s' hs hrun
    simp only [Session.run] at hrun
    cases hrun
    exact hs
  | cons c cs ih =>
    intro s s' hs hrun
    simp only [Session.run] at hrun
    cases hstep : s.step this c with
    | none => simp [hstep] at hrun
    | some s1 =>
      rw [hstep] at hrun
      exact ih s1 s' (Session.Consistent.step this s s1 c hs hstep) hrun

end nwcpp

namespace nwcpp

theorem declareVariable_ok (this : DagPtr) (heap : Heap) (g : Dataflow) (name : String)
    (hname : name ≠ "") (hfresh : name ∉ g.variables_.map Prod.fst) :
    Dataflow.DeclareVariable this heap g name =
      (heap ++ [some (.ofVariable ⟨this, name, none⟩)],
        ⟨g.variables_.place name heap.length, g.nodes_ ++ [heap.length]⟩, .ok heap.length) := by
  rcases declareVariable_cases this heap g name with ⟨e, he⟩ | ⟨-, -, hok⟩
  · exfalso
    have hempty : name.isEmpty = false := by
      cases hb : name.isEmpty with
      | false => rfl
      | true => exact absurd ((String.isEmpty_iff name).mp hb) hname
    have hf := (VarMap.find_eq_none_iff _ _).mpr hfresh
    simp [Dataflow.DeclareVariable, Variable.Variable, hempty, Variable.name, VarMap.insert,
      hf] at he
  · exact hok

theorem Session.Consistent.names (this : DagPtr) (s : Session)
    (hs : Session.Consistent this s) :
    s.variableNames = (s.graph.variables_.map Prod.fst).map some := by
  unfold Session.variableNames Dataflow.Variables
  rw [List.map_map, List.map_map]
  apply List.map_congr_left
  intro e he
  obtain ⟨v, hv, hn, -⟩ := hs.live e.1 e.2 (hs.index.subset he)
  simp [hv, hn]

theorem Session.run_declarations (this : DagPtr) (ns : List String) :
    ∀ s : Session, ns.Nodup → (∀ n ∈ ns, n ≠ "") →
      (∀ n ∈ ns, n ∉ s.graph.variables_.map Prod.fst) →
      ∃ s', Session.run this s (ns.map Call.DeclareVariable) = some s' ∧
        s'.declared.map Prod.fst = s.declared.map Prod.fst ++ ns := by
  induction ns with
  | nil => intro s _ _ _; exact ⟨s, rfl, by simp⟩
  | cons n rest ih =>
    intro s hnodup hne hfresh
    rw [List.nodup_cons] at hnodup
    have hok := declareVariable_ok this s.heap s.graph n (hne n (List.mem_cons_self _ _))
      (hfresh n (List.mem_cons_self _ _))
    let s1 : Session :=
      { heap := s.heap ++ [some (.ofVariable ⟨this, n, none⟩)],
        graph := ⟨s.graph.variables_.place n s.heap.length, s.graph.nodes_ ++ [s.heap.length]⟩,
        declared := s.declared ++ [(n, s.heap.length)] }
    have hstep : s.step this (.DeclareVariable n) = some s1 := by
      simp only [Session.step, hok, s1]
    have hfresh1 : ∀ m ∈ rest, m ∉ s1.graph.variables_.map Prod.fst := by
      intro m hm hmem
      have hmem2 : m ∈ ((n, s.heap.length) :: s.graph.variables_).map Prod.fst :=
        ((VarMap.place_perm s.graph.variables_ n s.heap.length).map Prod.fst).subset hmem
      rcases List.mem_cons.mp hmem2 with h | h
      · exact hnodup.1 (by rw [← show m = n from h]; exact hm)
      · exact hfresh m (List.mem_cons_of_mem _ hm) h
    obtain ⟨s', hrun, hdecl⟩ :=
      ih s1 hnodup.2 (fun m hm => hne m (List.mem_cons_of_mem _ hm)) hfresh1
    refine ⟨s', ?_, ?_⟩
    · simp only [List.map_cons, Session.run, hstep]
      exact hrun
    · rw [hdecl]
      simp [s1]

end nwcpp

namespace nwcpp

/-! ## Enumeration and lookup of variables -/

theorem Session.names_eq_of_perm (this this' : DagPtr) (s s' : Session)
    (hs : Session.Consistent this s) (hs' : Session.Consistent this' s')
    (hperm : (s'.declared.map Prod.fst).Perm (s.declared.map Prod.fst)) :
    s'.variableNames = s.variableNames := by
  rw [Session.Consistent.names this s hs, Session.Consistent.names this' s' hs']
  have hkeys : (s'.graph.variables_.map Prod.fst).Perm (s.graph.variables_.map Prod.fst) :=
    ((hs'.index.map Prod.fst).trans hperm).trans (hs.index.map Prod.fst).symm
  rw [List.eq_of_perm_of_sorted hkeys hs'.ascending hs.ascending]

/-- C8: after any sequence of calls on a new graph, `Variables()` returns the
pointers of the successful declarations (since the last `clear()`), each exactly
once; every returned pointer designates a variable of the graph, never an
operator node; read through the pointers, the names are in strictly ascending
lexicographic order; and the list of names depends only on the set of declared
names, so every permutation of a sequence of declarations yields the same
result.  Declaring "b", "a", "c" yields "a", "b", "c"; a new graph yields the
empty list. -/
theorem variables_sorted (this : DagPtr) (heap : Heap) (calls : List Call) (s : Session)
    (hrun : Session.run this (Session.start heap) calls = some s) :
    s.graph.Variables.Perm (s.declared.map Prod.snd) ∧
    (s.declared.map Prod.snd).Nodup ∧
    (∀ p ∈ s.graph.Variables, ∃ v : Variable,
      s.heap.deref p = some (.ofVariable v) ∧ v.dag_ = this) ∧
    (∃ names : List String, s.variableNames = names.map some ∧ names.Sorted (· < ·) ∧
      names.Perm (s.declared.map Prod.fst)) ∧
    (∀ (this' : DagPtr) (heap' : Heap) (calls' : List Call) (s' : Session),
      Session.run this' (Session.start heap') calls' = some s' →
      (s'.declared.map Prod.fst).Perm (s.declared.map Prod.fst) →
      s'.variableNames = s.variableNames) ∧
    (∀ ns ns' : List String, ns.Nodup → (∀ n ∈ ns, n ≠ "") → ns.Perm ns' →
      ∃ s1 s2, Session.run this (Session.start heap) (ns.map Call.DeclareVariable) = some s1 ∧
        Session.run this (Session.start heap) (ns'.map Call.DeclareVariable) = some s2 ∧
        s1.declared.map Prod.fst = ns ∧ s2.declared.map Prod.fst = ns' ∧
        s1.variableNames = s2.variableNames) ∧
    (Session.run 0 (Session.start [])
        [.DeclareVariable "b", .DeclareVariable "a", .DeclareVariable "c"]).map
      Session.variableNames = some [some "a", some "b", some "c"] ∧
    (Session.start heap).graph.Variables = [] := by
  have hs : Session.Consistent this s :=
    Session.Consistent.run this calls _ s (Session.Consistent.start this heap) hrun
  refine ⟨?_, hs.distinct, ?_, ?_, ?_, ?_, by decide, rfl⟩
  · exact hs.index.map Prod.snd
  · intro p hp
    obtain ⟨e, he, hep⟩ := List.mem_map.mp hp
    obtain ⟨v, hv, -, hd⟩ := hs.live e.1 e.2 (hs.index.subset he)
    exact ⟨v, by rw [← hep]; exact hv, hd⟩
  · exact ⟨s.graph.variables_.map Prod.fst, Session.Consistent.names this s hs, hs.ascending,
      hs.index.map Prod.fst⟩
  · intro this' heap' calls' s' hrun' hperm
    have hs' : Session.Consistent this' s' :=
      Session.Consistent.run this' calls' _ s' (Session.Consistent.start this' heap') hrun'
    exact Session.names_eq_of_perm this this' s s' hs hs' hperm
  · intro ns ns' hnodup hne hperm
    obtain ⟨s1, hrun1, hd1⟩ := Session.run_declarations this ns (Session.start heap) hnodup hne
      (by intro n _; simp [Session.start, Dataflow.Dataflow])
    obtain ⟨s2, hrun2, hd2⟩ := Session.run_declarations this ns' (Session.start heap)
      (hperm.nodup_iff.mp hnodup) (fun n hn => hne n (hperm.symm.subset hn))
      (by intro n _; simp [Session.start, Dataflow.Dataflow])
    have hd1' : s1.declared.map Prod.fst = ns := by rw [hd1]; simp [Session.start]
    have hd2' : s2.declared.map Prod.fst = ns' := by rw [hd2]; simp [Session.start]
    refine ⟨s1, s2, hrun1, hrun2, hd1', hd2', ?_⟩
    have hc1 := Session.Consistent.run this _ _ s1 (Session.Consistent.start this heap) hrun1
    have hc2 := Session.Consistent.run this _ _ s2 (Session.Consistent.start this heap) hrun2
    exact Session.names_eq_of_perm this this s2 s1 hc2 hc1 (by rw [hd1', hd2']; exact hperm)

/-- Witness for C8: "b", "a", an operator node and "c" created in an empty
store. -/
theorem variables_sorted_witness :
    ∃ s, Session.run 0 (Session.start [])
        [.DeclareVariable "b", .DeclareVariable "a", .CreateBinaryOp '+' 0 1,
          .DeclareVariable "c"] = some s ∧
      s.graph.Variables = [1, 0, 3] ∧
      s.graph.Variables.Perm (s.declared.map Prod.snd) ∧
      ∃ names : List String, s.variableNames = names.map some ∧ names.Sorted (· < ·) ∧
        names.Perm (s.declared.map Prod.fst) :=
  ⟨_, rfl, rfl,
    (variables_sorted 0 [] [.DeclareVariable "b", .DeclareVariable "a",
      .CreateBinaryOp '+' 0 1, .DeclareVariable "c"] _ rfl).1,
    (variables_sorted 0 [] [.DeclareVariable "b", .DeclareVariable "a",
      .CreateBinaryOp '+' 0 1, .DeclareVariable "c"] _ rfl).2.2.2.1⟩

/-- C9: after any sequence of calls on a new graph, `LookupVariable(name)`
returns a pointer exactly when a declaration of that very string has succeeded
since the graph was constructed or last cleared; the pointer is the one that
declaration returned and designates a live variable of the graph carrying that
name; otherwise the result is the null pointer.  After declaring "a" and "foo",
the lookups of "Foo", " foo" and "foo " return the null pointer. -/
theorem lookupVariable_exact (this : DagPtr) (heap : Heap) (calls : List Call) (s : Session)
    (hrun : Session.run this (Session.start heap) calls = some s) (name : String) :
    (∀ ptr, s.graph.LookupVariable name = some ptr ↔ (name, ptr) ∈ s.declared) ∧
    (s.graph.LookupVariable name = none ↔ name ∉ s.declared.map Prod.fst) ∧
    (∀ ptr, s.graph.LookupVariable name = some ptr →
      ∃ v : Variable, s.heap.deref ptr = some (.ofVariable v) ∧ v.name = name ∧ v.dag_ = this) ∧
    (Session.run 0 (Session.start []) [.DeclareVariable "a", .DeclareVariable "foo"]).map
      (fun t => ["a", "foo", "Foo", " foo", "foo "].map t.graph.LookupVariable) =
      some [some 0, some 1, none, none, none] := by
  have hs : Session.Consistent this s :=
    Session.Consistent.run this calls _ s (Session.Consistent.start this heap) hrun
  have hiff : ∀ ptr, s.graph.LookupVariable name = some ptr ↔ (name, ptr) ∈ s.declared := by
    intro ptr
    unfold Dataflow.LookupVariable
    rw [VarMap.find_eq_some_iff _ hs.ascending.nodup]
    exact hs.index.mem_iff
  refine ⟨hiff, ?_, ?_, by decide⟩
  · unfold Dataflow.LookupVariable
    rw [VarMap.find_eq_none_iff]
    rw [(hs.index.map Prod.fst).mem_iff]
  · intro ptr hptr
    exact hs.live name ptr ((hiff ptr).mp hptr)

/-- Witness for C9: lookups after declaring "a" and "foo" in an empty store. -/
theorem lookupVariable_exact_witness :
    ∃ s, Session.run 0 (Session.start []) [.DeclareVariable "a", .DeclareVariable "foo"]
        = some s ∧
      s.graph.LookupVariable "foo" = some 1 ∧
      (∀ ptr, s.graph.LookupVariable "foo" = some ptr ↔ ("foo", ptr) ∈ s.declared) ∧
      (s.graph.LookupVariable "Foo" = none ↔ "Foo" ∉ s.declared.map Prod.fst) :=
  ⟨_, rfl, rfl,
    (lookupVariable_exact 0 [] [.DeclareVariable "a", .DeclareVariable "foo"] _ rfl "foo").1,
    (lookupVariable_exact 0 [] [.DeclareVariable "a", .DeclareVariable "foo"] _ rfl "Foo").2.1⟩

end nwcpp

namespace nwcpp

/-! ## Evaluation against the expression of a node -/

theorem Heap.values_of_variable (heap : Heap) (p : NodePtr) (v : Variable)
    (h : Heap.deref heap p = some (.ofVariable v)) : Heap.values heap p = v.value_ := by
  simp [Heap.values, h]

/-- Refinement: `Eval` computes the outcome of the node's expression over the
current variable values. -/
theorem Node.Eval_eq_expr (heap : Heap) :
    ∀ (fuel : Nat) (node : NodePtr) (e : Expr), Node.expr heap fuel node = some e →
      Node.Eval heap fuel node = e.eval heap.values := by
  intro fuel
  induction fuel with
  | zero => intro node e h; simp [Node.expr] at h
  | succ fuel ih =>
    intro node e h
    unfold Node.expr at h
    unfold Node.Eval
    cases hn : Heap.deref heap node with
    | none => simp [hn] at h
    | some n =>
      rw [hn] at h
      cases n with
      | ofVariable v =>
        simp only [Option.some.injEq] at h
        subst h
        simp only [Expr.eval, Heap.values_of_variable heap node v hn, Variable.Eval]
        cases v.value_ <;> rfl
      | ofBinaryOp b =>
        simp only at h
        cases hl : Node.expr heap fuel b.lhs_ with
        | none => simp [hl] at h
        | some l =>
          cases hr : Node.expr heap fuel b.rhs_ with
          | none => simp [hl, hr] at h
          | some r =>
            simp only [hl, hr, Option.some.injEq] at h
            subst h
            simp only [ih _ _ hl, ih _ _ hr, Expr.eval]

/-- Replacing a variable by a variable of the same name leaves every node's
expression as it was. -/
theorem Node.expr_set (heap : Heap) (x : NodePtr) (v v' : Variable)
    (hx : Heap.deref heap x = some (.ofVariable v)) (hname : v'.name_ = v.name_) :
    ∀ (fuel : Nat) (node : NodePtr),
      Node.expr (heap.set x (some (.ofVariable v'))) fuel node = Node.expr heap fuel node := by
  intro fuel
  induction fuel with
  | zero => intro node; rfl
  | succ fuel ih =>
    intro node
    unfold Node.expr
    by_cases hnode : node = x
    · subst hnode
      rw [Heap.deref_set_self heap node _ (Heap.deref_lt heap node _ hx), hx]
      simp [hname]
    · rw [Heap.deref_set_other heap x node _ hnode]
      cases Heap.deref heap node with
      | none => rfl
      | some n =>
        cases n with
        | ofVariable w => rfl
        | ofBinaryOp b => simp only [ih]

theorem Heap.values_set (heap : Heap) (x : NodePtr) (v v' : Variable)
    (hx : Heap.deref heap x = some (.ofVariable v)) :
    Heap.values (heap.set x (some (.ofVariable v'))) = Function.update heap.values x v'.value_ := by
  funext p
  by_cases hp : p = x
  · subst hp
    simp [Heap.values, Heap.deref_set_self heap p _ (Heap.deref_lt heap p _ hx)]
  · simp [Heap.values, Heap.deref_set_other heap x p _ hp, Function.update, hp]

theorem Heap.Assign_eq (heap heap' : Heap) (x : NodePtr) (value : Int)
    (h : Heap.Assign heap x value = some heap') :
    ∃ v : Variable, Heap.deref heap x = some (.ofVariable v) ∧
      heap' = heap.set x (some (.ofVariable (v.Assign value))) := by
  unfold Heap.Assign at h
  cases hd : Heap.deref heap x with
  | none => simp [hd] at h
  | some n =>
    cases n with
    | ofBinaryOp b => simp [hd] at h
    | ofVariable v =>
      simp only [hd, Option.some.injEq] at h
      exact ⟨v, rfl, h.symm⟩

theorem Heap.Reset_eq (heap heap' : Heap) (x : NodePtr)
    (h : Heap.Reset heap x = some heap') :
    ∃ v : Variable, Heap.deref heap x = some (.ofVariable v) ∧
      heap' = heap.set x (some (.ofVariable v.Reset)) := by
  unfold Heap.Reset at h
  cases hd : Heap.deref heap x with
  | none => simp [hd] at h
  | some n =>
    cases n with
    | ofBinaryOp b => simp [hd] at h
    | ofVariable v =>
      simp only [hd, Option.some.injEq] at h
      exact ⟨v, rfl, h.symm⟩

/-- C10: for a node whose operand structure unfolds to the expression `e`,
`Eval` returns the outcome of `e` computed from scratch over the current variable
values, so it is a function of the structure and of those values alone (equal
structure and equal values give equal results, in any store).  An `Assign` or
a `Reset` leaves the expression of every already built node as it was and only
updates the value of the variable concerned, and the next `Eval` of the node is
the outcome of the same expression over the updated values.  On the graph of the
test, a+b built once evaluates to 6 with a = 1, b = 5 and to 1 once b has been
reassigned to 0. -/
theorem eval_uncached (heap : Heap) (fuel : Nat) (node : NodePtr) (e : Expr)
    (hexpr : Node.expr heap fuel node = some e) :
    Node.Eval heap fuel node = e.eval heap.values ∧
    (∀ (heap2 : Heap) (fuel2 : Nat) (node2 : NodePtr), Node.expr heap2 fuel2 node2 = some e →
      (∀ p, heap2.values p = heap.values p) →
      Node.Eval heap2 fuel2 node2 = Node.Eval heap fuel node) ∧
    (∀ (x : NodePtr) (value : Int) (heap' : Heap), Heap.Assign heap x value = some heap' →
      Node.expr heap' fuel node = some e ∧
      heap'.values = Function.update heap.values x (some value) ∧
      Node.Eval heap' fuel node = e.eval (Function.update heap.values x (some value))) ∧
    (∀ (x : NodePtr) (heap' : Heap), Heap.Reset heap x = some heap' →
      Node.expr heap' fuel node = some e ∧
      heap'.values = Function.update heap.values x none ∧
      Node.Eval heap' fuel node = e.eval (Function.update heap.values x none)) ∧
    evalAfter (binaryOperationsTest ++ [.Assign 0 1, .Assign 1 5]) 3 [2] =
      some [some (.ok 6)] ∧
    evalAfter (binaryOperationsTest ++ [.Assign 0 1, .Assign 1 5, .Assign 1 0]) 3 [2] =
      some [some (.ok 1)] := by
  refine ⟨Node.Eval_eq_expr heap fuel node e hexpr, ?_, ?_, ?_, by decide, by decide⟩
  · intro heap2 fuel2 node2 hexpr2 hvalues
    rw [Node.Eval_eq_expr heap fuel node e hexpr, Node.Eval_eq_expr heap2 fuel2 node2 e hexpr2,
      show heap2.values = heap.values from funext hvalues]
  · intro x value heap' hassign
    obtain ⟨v, hv, hheap⟩ := Heap.Assign_eq heap heap' x value hassign
    subst hheap
    have hexpr' : Node.expr (heap.set x (some (.ofVariable (v.Assign value)))) fuel node
        = some e := by
      rw [Node.expr_set heap x v (v.Assign value) hv rfl fuel node]
      exact hexpr
    have hvalues := Heap.values_set heap x v (v.Assign value) hv
    refine ⟨hexpr', hvalues, ?_⟩
    rw [Node.Eval_eq_expr _ fuel node e hexpr', hvalues]
    rfl
  · intro x heap' hreset
    obtain ⟨v, hv, hheap⟩ := Heap.Reset_eq heap heap' x hreset
    subst hheap
    have hexpr' : Node.expr (heap.set x (some (.ofVariable v.Reset))) fuel node = some e := by
      rw [Node.expr_set heap x v v.Reset hv rfl fuel node]
      exact hexpr
    have hvalues := Heap.values_set heap x v v.Reset hv
    refine ⟨hexpr', hvalues, ?_⟩
    rw [Node.Eval_eq_expr _ fuel node e hexpr', hvalues]
    rfl

/-- Witness for C10: the node a+b with a = 1 and b = 5, then b reassigned to 0. -/
theorem eval_uncached_witness :
    Node.Eval [some (.ofVariable ⟨0, "a", some 1⟩), some (.ofVariable ⟨0, "b", some 5⟩),
        some (.ofBinaryOp ⟨0, '+', 0, 1⟩)] 2 2 =
      (Expr.op '+' (.var 0 "a") (.var 1 "b")).eval
        (Heap.values [some (.ofVariable ⟨0, "a", some 1⟩), some (.ofVariable ⟨0, "b", some 5⟩),
          some (.ofBinaryOp ⟨0, '+', 0, 1⟩)]) ∧
    Node.Eval [some (.ofVariable ⟨0, "a", some 1⟩), some (.ofVariable ⟨0, "b", some 0⟩),
        some (.ofBinaryOp ⟨0, '+', 0, 1⟩)] 2 2 =
      (Expr.op '+' (.var 0 "a") (.var 1 "b")).eval
        (Function.update
          (Heap.values [some (.ofVariable ⟨0, "a", some 1⟩),
            some (.ofVariable ⟨0, "b", some 5⟩), some (.ofBinaryOp ⟨0, '+', 0, 1⟩)])
          1 (some 0)) :=
  ⟨(eval_uncached [some (.ofVariable ⟨0, "a", some 1⟩), some (.ofVariable ⟨0, "b", some 5⟩),
      some (.ofBinaryOp ⟨0, '+', 0, 1⟩)] 2 2 (.op '+' (.var 0 "a") (.var 1 "b")) rfl).1,
    ((eval_uncached [some (.ofVariable ⟨0, "a", some 1⟩), some (.ofVariable ⟨0, "b", some 5⟩),
      some (.ofBinaryOp ⟨0, '+', 0, 1⟩)] 2 2 (.op '+' (.var 0 "a") (.var 1 "b")) rfl).2.2.1
      1 0 _ rfl).2.2⟩

end nwcpp

namespace nwcpp

/-! ## Failing evaluations -/

/-- More fuel does not change a result that was produced. -/
theorem Node.Eval_succ (heap : Heap) :
    ∀ (fuel : Nat) (node : NodePtr) (res : Except Error Int),
      Node.Eval heap fuel node = some res → Node.Eval heap (fuel + 1) node = some res := by
  intro fuel
  induction fuel with
  | zero => intro node res h; simp [Node.Eval] at h
  | succ fuel ih =>
    intro node res h
    rw [Node.Eval] at h
    rw [Node.Eval]
    cases hn : Heap.deref heap node with
    | none => simp [hn] at h
    | some n =>
      rw [hn] at h
      cases n with
      | ofVariable v => exact h
      | ofBinaryOp b =>
        simp only at h ⊢
        cases hl : Node.Eval heap fuel b.lhs_ with
        | none => simp [hl] at h
        | some lres =>
          rw [ih _ _ hl]
          rw [hl] at h
          cases lres with
          | error e => exact h
          | ok lv =>
            simp only at h ⊢
            cases hr : Node.Eval heap fuel b.rhs_ with
            | none => simp [hr] at h
            | some rres =>
              rw [ih _ _ hr]
              rw [hr] at h
              exact h

theorem Node.Eval_mono (heap : Heap) (node : NodePtr) (res : Except Error Int) (fuel : Nat)
    (h : Node.Eval heap fuel node = some res) :
    ∀ fuel', fuel ≤ fuel' → Node.Eval heap fuel' node = some res := by
  intro fuel' hle
  induction hle with
  | refl => exact h
  | step _ ih => exact Node.Eval_succ heap _ node res ih

/-- Two runs of `Eval` that both produce a result produce the same one. -/
theorem Node.Eval_unique (heap : Heap) (node : NodePtr) (r1 r2 : Except Error Int)
    (f1 f2 : Nat) (h1 : Node.Eval heap f1 node = some r1) (h2 : Node.Eval heap f2 node = some r2) :
    r1 = r2 := by
  have h1' := Node.Eval_mono heap node r1 f1 h1 (max f1 f2) (le_max_left _ _)
  have h2' := Node.Eval_mono heap node r2 f2 h2 (max f1 f2) (le_max_right _ _)
  rw [h1'] at h2'
  exact Option.some.inj h2'

/-- C14: `Eval` of an operator node reports the first error met, left operand
before right operand: an error of the left operand is the node's error whatever
the right operand and the symbol are; with a successful left operand, an error
of the right operand is the node's error; the operator is applied only when
both operands have succeeded.  A `/` node whose left operand is the unassigned
variable "a" and whose right operand evaluates to 0 fails with
`UnassignedVariable` naming "a", not with `DivisionByZero`. -/
theorem eval_first_error (heap : Heap) (fuel : Nat) (node : NodePtr) (b : BinaryOp)
    (hnode : Heap.deref heap node = some (.ofBinaryOp b)) :
    (∀ e, Node.Eval heap fuel b.lhs_ = some (.error e) →
      Node.Eval heap (fuel + 1) node = some (.error e)) ∧
    (∀ l e, Node.Eval heap fuel b.lhs_ = some (.ok l) →
      Node.Eval heap fuel b.rhs_ = some (.error e) →
      Node.Eval heap (fuel + 1) node = some (.error e)) ∧
    (∀ l r, Node.Eval heap fuel b.lhs_ = some (.ok l) →
      Node.Eval heap fuel b.rhs_ = some (.ok r) →
      Node.Eval heap (fuel + 1) node = BinaryOp.apply b.op_ l r) ∧
    Node.Eval [some (.ofVariable ⟨0, "a", none⟩), some (.ofVariable ⟨0, "b", some 0⟩),
        some (.ofBinaryOp ⟨0, '/', 0, 1⟩)] 2 2 = some (.error (.UnassignedVariable "a")) ∧
    Node.Eval [some (.ofVariable ⟨0, "a", none⟩), some (.ofVariable ⟨0, "b", none⟩),
        some (.ofBinaryOp ⟨0, '+', 0, 1⟩)] 2 2 = some (.error (.UnassignedVariable "a")) ∧
    Node.Eval [some (.ofVariable ⟨0, "a", some 1⟩), some (.ofVariable ⟨0, "b", none⟩),
        some (.ofBinaryOp ⟨0, '+', 0, 1⟩)] 2 2 = some (.error (.UnassignedVariable "b")) := by
  refine ⟨?_, ?_, ?_, by decide, by decide, by decide⟩
  · intro e hl
    simp [Node.Eval, hnode, hl]
  · intro l e hl hr
    simp [Node.Eval, hnode, hl, hr]
  · intro l r hl hr
    simp [Node.Eval, hnode, hl, hr]

/-- Witness for C14: a `/` node over an unassigned left operand and a zero right
operand. -/
theorem eval_first_error_witness :
    Node.Eval [some (.ofVariable ⟨0, "a", none⟩), some (.ofVariable ⟨0, "b", some 0⟩),
        some (.ofBinaryOp ⟨0, '/', 0, 1⟩)] (1 + 1) 2 = some (.error (.UnassignedVariable "a")) :=
  (eval_first_error [some (.ofVariable ⟨0, "a", none⟩), some (.ofVariable ⟨0, "b", some 0⟩),
    some (.ofBinaryOp ⟨0, '/', 0, 1⟩)] 1 2 ⟨0, '/', 0, 1⟩ (by decide)).1
    (.UnassignedVariable "a") (by decide)

theorem cString_of_no_nul (s : String) (h : Char.ofNat 0 ∉ s.toList) : cString s = s := by
  unfold cString
  have hall : s.toList.takeWhile (fun c => c != Char.ofNat 0) = s.toList := by
    rw [List.takeWhile_eq_self_iff]
    intro c hc
    have hne : c ≠ Char.ofNat 0 := fun e => h (e ▸ hc)
    simpa using hne
  rw [hall]
  rfl

/-- A text with a NUL character only at the start of its second part ends, as
a C string, with its first part. -/
theorem cString_cut (a b : String) (h : Char.ofNat 0 ∉ a.toList) :
    cString (a ++ String.singleton (Char.ofNat 0) ++ b) = a := by
  unfold cString
  have hall : ∀ c ∈ a.toList, (c != Char.ofNat 0) = true := by
    intro c hc
    have hne : c ≠ Char.ofNat 0 := fun e => h (e ▸ hc)
    simpa using hne
  have hlist : (a ++ String.singleton (Char.ofNat 0) ++ b).toList =
      a.toList ++ (Char.ofNat 0 :: b.toList) := by
    show (a ++ String.singleton (Char.ofNat 0) ++ b).data = a.data ++ (Char.ofNat 0 :: b.data)
    rw [String.data_append, String.data_append]
    simp [String.singleton]
  rw [hlist, List.takeWhile_append_of_pos hall]
  simp [List.takeWhile]

/-- C15 fails on the code for the NUL symbol: the node is not supported, its
`Eval` fails with `UnknownOperator`, and the message that `what()` returns is
`Unknown op '`, which holds neither the symbol nor the closing quote. -/
theorem eval_unknown_operator_counterexample :
    ¬ supportedOp (Char.ofNat 0) ∧
    Node.Eval [some (.ofVariable ⟨0, "a", some 1⟩), some (.ofVariable ⟨0, "b", some 5⟩),
        some (.ofBinaryOp ⟨0, Char.ofNat 0, 0, 1⟩)] 2 2 =
      some (.error (.UnknownOperator (Char.ofNat 0))) ∧
    (Error.UnknownOperator (Char.ofNat 0)).what = "Unknown op '" ∧
    Char.ofNat 0 ∉ (Error.UnknownOperator (Char.ofNat 0)).what.toList := by
  refine ⟨by decide, by decide, by decide, by decide⟩

/-- C15, amended: an operator node whose symbol is not one of `+ - / *` never
evaluates to a value, with any amount of fuel; when both of its operands
evaluate successfully its `Eval` fails with `UnknownOperator`.  The message of
that error, read as the C string that `what()` returns, is `Unknown op '`
followed by the symbol and a closing quote when the symbol is not NUL; for the
NUL symbol it is `Unknown op '` alone. -/
theorem eval_unknown_operator (heap : Heap) (node : NodePtr) (b : BinaryOp)
    (hnode : Heap.deref heap node = some (.ofBinaryOp b)) (hop : ¬ supportedOp b.op_) :
    (∀ fuel x, Node.Eval heap fuel node ≠ some (.ok x)) ∧
    (∀ fuel l r, Node.Eval heap fuel b.lhs_ = some (.ok l) →
      Node.Eval heap fuel b.rhs_ = some (.ok r) →
      Node.Eval heap (fuel + 1) node = some (.error (.UnknownOperator b.op_))) ∧
    (b.op_ ≠ Char.ofNat 0 →
      (Error.UnknownOperator b.op_).what = "Unknown op '" ++ String.singleton b.op_ ++ "'" ∧
      (String.singleton b.op_).toList = [b.op_]) ∧
    (b.op_ = Char.ofNat 0 → (Error.UnknownOperator b.op_).what = "Unknown op '") := by
  have happly : ∀ l r, BinaryOp.apply b.op_ l r = some (.error (.UnknownOperator b.op_)) := by
    intro l r
    unfold supportedOp at hop
    have h1 : ¬ b.op_ = '+' := fun h => hop (Or.inl h)
    have h2 : ¬ b.op_ = '-' := fun h => hop (Or.inr (Or.inl h))
    have h3 : ¬ b.op_ = '/' := fun h => hop (Or.inr (Or.inr (Or.inl h)))
    have h4 : ¬ b.op_ = '*' := fun h => hop (Or.inr (Or.inr (Or.inr h)))
    simp [BinaryOp.apply, h1, h2, h3, h4]
  refine ⟨?_, ?_, ?_, ?_⟩
  · intro fuel x h
    cases fuel with
    | zero => simp [Node.Eval] at h
    | succ fuel =>
      rw [Node.Eval] at h
      simp only [hnode] at h
      cases hl : Node.Eval heap fuel b.lhs_ with
      | none => simp [hl] at h
      | some lres =>
        rw [hl] at h
        cases lres with
        | error e => simp at h
        | ok lv =>
          simp only at h
          cases hr : Node.Eval heap fuel b.rhs_ with
          | none => simp [hr] at h
          | some rres =>
            rw [hr] at h
            cases rres with
            | error e => simp at h
            | ok rv =>
              simp only [happly] at h
              simp at h
  · intro fuel l r hl hr
    simp [Node.Eval, hnode, hl, hr, happly]
  · intro hnul
    refine ⟨?_, rfl⟩
    show cString ("Unknown op '" ++ String.singleton b.op_ ++ "'") = _
    apply cString_of_no_nul
    show Char.ofNat 0 ∉ ("Unknown op '" ++ String.singleton b.op_ ++ "'").data
    rw [String.data_append, String.data_append]
    intro hmem
    rcases List.mem_append.mp hmem with h | h
    · rcases List.mem_append.mp h with h | h
      · exact absurd h (by decide)
      · have hs : (String.singleton b.op_).data = [b.op_] := rfl
        rw [hs, List.mem_singleton] at h
        exact hnul h.symm
    · exact absurd h (by decide)
  · intro hnul
    rw [hnul]
    decide

/-- Witness for C15 as amended: the node 1 % 5. -/
theorem eval_unknown_operator_witness :
    Node.Eval [some (.ofVariable ⟨0, "a", some 1⟩), some (.ofVariable ⟨0, "b", some 5⟩),
        some (.ofBinaryOp ⟨0, '%', 0, 1⟩)] (1 + 1) 2 = some (.error (.UnknownOperator '%')) ∧
    (Error.UnknownOperator '%').what = "Unknown op '" ++ String.singleton '%' ++ "'" :=
  ⟨(eval_unknown_operator [some (.ofVariable ⟨0, "a", some 1⟩),
      some (.ofVariable ⟨0, "b", some 5⟩), some (.ofBinaryOp ⟨0, '%', 0, 1⟩)] 2 ⟨0, '%', 0, 1⟩
      (by decide) (by decide)).2.1 1 1 5 (by decide) (by decide),
    ((eval_unknown_operator [some (.ofVariable ⟨0, "a", some 1⟩),
      some (.ofVariable ⟨0, "b", some 5⟩), some (.ofBinaryOp ⟨0, '%', 0, 1⟩)] 2 ⟨0, '%', 0, 1⟩
      (by decide) (by decide)).2.2.1 (by decide)).1⟩

end nwcpp

namespace nwcpp

/-! ## When evaluation succeeds -/

theorem Reaches.of_variable (heap : Heap) (p q : NodePtr) (v : Variable)
    (hp : Heap.deref heap p = some (.ofVariable v)) (h : Reaches heap p q) : q = p := by
  cases h with
  | refl => rfl
  | lhs _ _ b hb _ => rw [hp] at hb; cases hb
  | rhs _ _ b hb _ => rw [hp] at hb; cases hb

theorem Reaches.of_binaryOp (heap : Heap) (p q : NodePtr) (b : BinaryOp)
    (hp : Heap.deref heap p = some (.ofBinaryOp b)) (h : Reaches heap p q) :
    q = p ∨ Reaches heap b.lhs_ q ∨ Reaches heap b.rhs_ q := by
  cases h with
  | refl => exact Or.inl rfl
  | lhs _ _ b' hb hq =>
    rw [hp] at hb
    cases hb
    exact Or.inr (Or.inl hq)
  | rhs _ _ b' hb hq =>
    rw [hp] at hb
    cases hb
    exact Or.inr (Or.inr hq)

theorem BinaryOp.apply_ok_iff (op : Char) (l r : Int) :
    (∃ x, BinaryOp.apply op l r = some (.ok x)) ↔
      supportedOp op ∧ (op = '/' → r ≠ 0 ∧ ¬ (l = INT_MIN ∧ r = -1)) := by
  unfold BinaryOp.apply supportedOp
  by_cases h1 : op = '+'
  · subst h1; simp
  by_cases h2 : op = '-'
  · subst h2; simp
  by_cases h3 : op = '/'
  · subst h3
    by_cases hr : r = 0
    · simp [hr]
    · by_cases hm : l = INT_MIN ∧ r = -1
      · simp [hr, hm]
      · simp [hr, hm]
  by_cases h4 : op = '*'
  · subst h4; simp
  simp [h1, h2, h3, h4]

theorem BinaryOp.apply_none (op : Char) (l r : Int) (h : BinaryOp.apply op l r = none) :
    op = '/' ∧ l = INT_MIN ∧ r = -1 := by
  unfold BinaryOp.apply at h
  by_cases h1 : op = '+'
  · simp [h1] at h
  by_cases h2 : op = '-'
  · simp [h1, h2] at h
  by_cases h3 : op = '/'
  · by_cases hr : r = 0
    · simp [h1, h2, h3, hr] at h
    · by_cases hm : l = INT_MIN ∧ r = -1
      · exact ⟨h3, hm⟩
      · simp [h1, h2, h3, hr, hm] at h
  by_cases h4 : op = '*'
  · simp [h1, h2, h3, h4] at h
  simp [h1, h2, h3, h4] at h

theorem DivOverflow.of_lhs (heap : Heap) (node : NodePtr) (b : BinaryOp)
    (hn : Heap.deref heap node = some (.ofBinaryOp b)) (h : DivOverflow heap b.lhs_) :
    DivOverflow heap node := by
  obtain ⟨q, c, f1, f2, hq, hc, hdiv, h1, h2⟩ := h
  exact ⟨q, c, f1, f2, Reaches.lhs node q b hn hq, hc, hdiv, h1, h2⟩

theorem DivOverflow.of_rhs (heap : Heap) (node : NodePtr) (b : BinaryOp)
    (hn : Heap.deref heap node = some (.ofBinaryOp b)) (h : DivOverflow heap b.rhs_) :
    DivOverflow heap node := by
  obtain ⟨q, c, f1, f2, hq, hc, hdiv, h1, h2⟩ := h
  exact ⟨q, c, f1, f2, Reaches.rhs node q b hn hq, hc, hdiv, h1, h2⟩

/-- When the operand structure of a node unfolds within the fuel, `Eval`
produces no result only by dividing `INT_MIN` by `-1`. -/
theorem Node.Eval_none_divOverflow (heap : Heap) :
    ∀ (fuel : Nat) (node : NodePtr) (e : Expr), Node.expr heap fuel node = some e →
      Node.Eval heap fuel node = none → DivOverflow heap node := by
  intro fuel
  induction fuel with
  | zero => intro node e h; simp [Node.expr] at h
  | succ fuel ih =>
    intro node e hexpr hnone
    rw [Node.expr] at hexpr
    rw [Node.Eval] at hnone
    cases hn : Heap.deref heap node with
    | none => simp [hn] at hexpr
    | some n =>
      rw [hn] at hexpr hnone
      cases n with
      | ofVariable v => simp at hnone
      | ofBinaryOp b =>
        simp only at hexpr hnone
        cases hle : Node.expr heap fuel b.lhs_ with
        | none => simp [hle] at hexpr
        | some el =>
          cases hre : Node.expr heap fuel b.rhs_ with
          | none => simp [hle, hre] at hexpr
          | some er =>
            cases hl : Node.Eval heap fuel b.lhs_ with
            | none => exact DivOverflow.of_lhs heap node b hn (ih _ el hle hl)
            | some lres =>
              rw [hl] at hnone
              cases lres with
              | error err => simp at hnone
              | ok lv =>
                simp only at hnone
                cases hr : Node.Eval heap fuel b.rhs_ with
                | none => exact DivOverflow.of_rhs heap node b hn (ih _ er hre hr)
                | some rres =>
                  rw [hr] at hnone
                  cases rres with
                  | error err => simp at hnone
                  | ok rv =>
                    simp only at hnone
                    obtain ⟨hdiv, hlm, hrm⟩ := BinaryOp.apply_none b.op_ lv rv hnone
                    subst hlm hrm
                    exact ⟨node, b, fuel, fuel, Reaches.refl node, hn, hdiv, hl, hr⟩

/-- The four conditions under which a node evaluates to a value: every
variable reached is assigned, the right operand of every `/` node reached
evaluates to a non-zero value, every operator symbol reached is supported, and
no `/` node reached divides `INT_MIN` by `-1`. -/
theorem Node.Eval_ok_iff (heap : Heap) :
    ∀ (fuel : Nat) (node : NodePtr) (e : Expr), Node.expr heap fuel node = some e →
      ((∃ x, Node.Eval heap fuel node = some (.ok x)) ↔
        (∀ q v, Reaches heap node q → Heap.deref heap q = some (.ofVariable v) →
          v.HasValue = true) ∧
        (∀ q b, Reaches heap node q → Heap.deref heap q = some (.ofBinaryOp b) → b.op_ = '/' →
          ∃ f x, Node.Eval heap f b.rhs_ = some (.ok x) ∧ x ≠ 0) ∧
        (∀ q b, Reaches heap node q → Heap.deref heap q = some (.ofBinaryOp b) →
          supportedOp b.op_) ∧
        ¬ DivOverflow heap node) := by
  intro fuel
  induction fuel with
  | zero => intro node e h; simp [Node.expr] at h
  | succ fuel ih =>
    intro node e hexpr
    rw [Node.expr] at hexpr
    rw [Node.Eval]
    cases hn : Heap.deref heap node with
    | none => simp [hn] at hexpr
    | some n =>
      rw [hn] at hexpr
      cases n with
      | ofVariable v =>
        simp only
        have hno : ¬ DivOverflow heap node := by
          rintro ⟨q, c, f1, f2, hq, hc, -, -, -⟩
          have := Reaches.of_variable heap node q v hn hq
          subst this
          rw [hn] at hc
          cases hc
        constructor
        · rintro ⟨x, hx⟩
          have hval : v.value_ = some x := by
            unfold Variable.Eval at hx
            cases hv : v.value_ with
            | none => simp [hv] at hx
            | some y => simp [hv] at hx; rw [hx]
          refine ⟨?_, ?_, ?_, hno⟩
          · intro q w hq hw
            have := Reaches.of_variable heap node q v hn hq
            subst this
            rw [hn] at hw
            cases hw
            simp [Variable.HasValue, hval]
          · intro q b hq hb
            have := Reaches.of_variable heap node q v hn hq
            subst this
            rw [hn] at hb
            cases hb
          · intro q b hq hb
            have := Reaches.of_variable heap node q v hn hq
            subst this
            rw [hn] at hb
            cases hb
        · rintro ⟨h1, -, -, -⟩
          have hv := h1 node v (Reaches.refl node) hn
          unfold Variable.HasValue at hv
          unfold Variable.Eval
          cases hval : v.value_ with
          | none => simp [hval] at hv
          | some y => exact ⟨y, rfl⟩
      | ofBinaryOp b =>
        simp only at hexpr ⊢
        cases hle : Node.expr heap fuel b.lhs_ with
        | none => simp [hle] at hexpr
        | some el =>
          cases hre : Node.expr heap fuel b.rhs_ with
          | none => simp [hle, hre] at hexpr
          | some er =>
            have ihl := ih b.lhs_ el hle
            have ihr := ih b.rhs_ er hre
            constructor
            · rintro ⟨x, hx⟩
              cases hlv : Node.Eval heap fuel b.lhs_ with
              | none => simp [hlv] at hx
              | some lres =>
                rw [hlv] at hx
                cases lres with
                | error err => simp at hx
                | ok lv =>
                  simp only at hx
                  cases hrv : Node.Eval heap fuel b.rhs_ with
                  | none => simp [hrv] at hx
                  | some rres =>
                    rw [hrv] at hx
                    cases rres with
                    | error err => simp at hx
                    | ok rv =>
                      simp only at hx
                      have hap := (BinaryOp.apply_ok_iff b.op_ lv rv).mp ⟨x, hx⟩
                      have hl := ihl.mp ⟨lv, hlv⟩
                      have hr := ihr.mp ⟨rv, hrv⟩
                      refine ⟨?_, ?_, ?_, ?_⟩
                      · intro q w hq hw
                        rcases Reaches.of_binaryOp heap node q b hn hq with h | h | h
                        · subst h; rw [hn] at hw; cases hw
                        · exact hl.1 q w h hw
                        · exact hr.1 q w h hw
                      · intro q c hq hc hdiv
                        rcases Reaches.of_binaryOp heap node q b hn hq with h | h | h
                        · subst h
                          rw [hn] at hc
                          cases hc
                          exact ⟨fuel, rv, hrv, (hap.2 hdiv).1⟩
                        · exact hl.2.1 q c h hc hdiv
                        · exact hr.2.1 q c h hc hdiv
                      · intro q c hq hc
                        rcases Reaches.of_binaryOp heap node q b hn hq with h | h | h
                        · subst h
                          rw [hn] at hc
                          cases hc
                          exact hap.1
                        · exact hl.2.2.1 q c h hc
                        · exact hr.2.2.1 q c h hc
                      · rintro ⟨q, c, f1, f2, hq, hc, hdiv, h1, h2⟩
                        rcases Reaches.of_binaryOp heap node q b hn hq with h | h | h
                        · subst h
                          rw [hn] at hc
                          cases hc
                          have e1 := Node.Eval_unique heap b.lhs_ _ _ f1 fuel h1 hlv
                          have e2 := Node.Eval_unique heap b.rhs_ _ _ f2 fuel h2 hrv
                          cases e1
                          cases e2
                          exact (hap.2 hdiv).2 ⟨rfl, rfl⟩
                        · exact hl.2.2.2 ⟨q, c, f1, f2, h, hc, hdiv, h1, h2⟩
                        · exact hr.2.2.2 ⟨q, c, f1, f2, h, hc, hdiv, h1, h2⟩
            · rintro ⟨h1, h2, h3, h4⟩
              obtain ⟨lv, hlv⟩ := ihl.mpr
                ⟨fun q w hq hw => h1 q w (Reaches.lhs node q b hn hq) hw,
                  fun q c hq hc hd => h2 q c (Reaches.lhs node q b hn hq) hc hd,
                  fun q c hq hc => h3 q c (Reaches.lhs node q b hn hq) hc,
                  fun hov => h4 (DivOverflow.of_lhs heap node b hn hov)⟩
              obtain ⟨rv, hrv⟩ := ihr.mpr
                ⟨fun q w hq hw => h1 q w (Reaches.rhs node q b hn hq) hw,
                  fun q c hq hc hd => h2 q c (Reaches.rhs node q b hn hq) hc hd,
                  fun q c hq hc => h3 q c (Reaches.rhs node q b hn hq) hc,
                  fun hov => h4 (DivOverflow.of_rhs heap node b hn hov)⟩
              rw [hlv]
              simp only
              rw [hrv]
              simp only
              apply (BinaryOp.apply_ok_iff b.op_ lv rv).mpr
              refine ⟨h3 node b (Reaches.refl node) hn, ?_⟩
              intro hdiv
              constructor
              · obtain ⟨f, x, hfx, hx0⟩ := h2 node b (Reaches.refl node) hn hdiv
                have := Node.Eval_unique heap b.rhs_ _ _ f fuel hfx hrv
                cases this
                exact hx0
              · rintro ⟨hlm, hrm⟩
                subst hlm hrm
                exact h4 ⟨node, b, fuel, fuel, Reaches.refl node, hn, hdiv, hlv, hrv⟩

end nwcpp

namespace nwcpp

theorem reaches_overflowTest (q : NodePtr) (h : Reaches overflowTest 2 q) :
    q = 2 ∨ q = 0 ∨ q = 1 := by
  rcases Reaches.of_binaryOp overflowTest 2 q ⟨0, '/', 0, 1⟩ rfl h with h | h | h
  · exact Or.inl h
  · exact Or.inr (Or.inl (Reaches.of_variable overflowTest 0 q ⟨0, "a", some INT_MIN⟩ rfl h))
  · exact Or.inr (Or.inr (Reaches.of_variable overflowTest 1 q ⟨0, "b", some (-1)⟩ rfl h))

theorem eval_overflowTest (fuel : Nat) : Node.Eval overflowTest fuel 2 = none := by
  cases fuel with
  | zero => rfl
  | succ f =>
    cases f with
    | zero => rfl
    | succ f => rfl

/-- C13 fails on the code: in the store that the calls declaring a and b,
building a/b and assigning `INT_MIN` and `-1` produce, every variable reached
from the node a/b is assigned, the right operand of the only `/` node evaluates
to `-1`, which is not zero, and the only symbol is `/`; yet `Eval` of the node
returns no value, for any fuel: the division of `INT_MIN` by `-1` has none. -/
theorem eval_succeeds_counterexample :
    (Session.run 0 (Session.start []) overflowCalls).map (fun s => s.heap) =
      some overflowTest ∧
    (∀ q v, Reaches overflowTest 2 q → Heap.deref overflowTest q = some (.ofVariable v) →
      v.HasValue = true) ∧
    (∀ q b, Reaches overflowTest 2 q → Heap.deref overflowTest q = some (.ofBinaryOp b) →
      b.op_ = '/' → ∃ f x, Node.Eval overflowTest f b.rhs_ = some (.ok x) ∧ x ≠ 0) ∧
    (∀ q b, Reaches overflowTest 2 q → Heap.deref overflowTest q = some (.ofBinaryOp b) →
      supportedOp b.op_) ∧
    ¬ ∃ fuel x, Node.Eval overflowTest fuel 2 = some (.ok x) := by
  refine ⟨by decide, ?_, ?_, ?_, ?_⟩
  · intro q v hq hv
    rcases reaches_overflowTest q hq with h | h | h <;> subst h <;>
      simp [overflowTest, Heap.deref] at hv <;> subst hv <;> rfl
  · intro q b hq hb _
    rcases reaches_overflowTest q hq with h | h | h <;> subst h <;>
      simp [overflowTest, Heap.deref] at hb
    subst hb
    exact ⟨1, -1, by decide, by decide⟩
  · intro q b hq hb
    rcases reaches_overflowTest q hq with h | h | h <;> subst h <;>
      simp [overflowTest, Heap.deref] at hb
    subst hb
    exact Or.inr (Or.inr (Or.inl rfl))
  · rintro ⟨fuel, x, h⟩
    rw [eval_overflowTest fuel] at h
    cases h

/-- C13, amended: `Eval` of a variable without a value fails with
`UnassignedVariable`, whose message, read as the C string that `what()`
returns, quotes that variable's name when the name has no NUL character and
stops before the first NUL of the name otherwise.  For a node whose operand
structure unfolds within the fuel: if some variable reached through operand
pointers is unassigned, `Eval` of the node returns no value (no short-circuit:
`0 * x` with `x` unassigned fails, and `a + b` fails while only `a` is
assigned): it fails with an error, unless a division of `INT_MIN` by `-1` is
met; and `Eval` returns a value if and only if every variable reached is
assigned, the right operand of every `/` node reached evaluates to a non-zero
value, every operator symbol reached is one of `+ - / *`, and no `/` node
reached divides `INT_MIN` by `-1`. -/
theorem eval_unassigned (heap : Heap) (fuel : Nat) (node : NodePtr) (e : Expr)
    (hexpr : Node.expr heap fuel node = some e) :
    (∀ v : Variable, Heap.deref heap node = some (.ofVariable v) → v.HasValue = false →
      Node.Eval heap fuel node = some (.error (.UnassignedVariable v.name)) ∧
      (Char.ofNat 0 ∉ v.name.toList →
        (Error.UnassignedVariable v.name).what =
          "Attempting to use unasigned variable '" ++ v.name ++ "'") ∧
      (∀ a b : String, v.name = a ++ String.singleton (Char.ofNat 0) ++ b →
        Char.ofNat 0 ∉ a.toList →
        (Error.UnassignedVariable v.name).what =
          "Attempting to use unasigned variable '" ++ a)) ∧
    (∀ q v, Reaches heap node q → Heap.deref heap q = some (.ofVariable v) →
      v.HasValue = false →
      (∀ x, Node.Eval heap fuel node ≠ some (.ok x)) ∧
      ((∃ err, Node.Eval heap fuel node = some (.error err)) ∨ DivOverflow heap node)) ∧
    ((∃ x, Node.Eval heap fuel node = some (.ok x)) ↔
      (∀ q v, Reaches heap node q → Heap.deref heap q = some (.ofVariable v) →
        v.HasValue = true) ∧
      (∀ q b, Reaches heap node q → Heap.deref heap q = some (.ofBinaryOp b) → b.op_ = '/' →
        ∃ f x, Node.Eval heap f b.rhs_ = some (.ok x) ∧ x ≠ 0) ∧
      (∀ q b, Reaches heap node q → Heap.deref heap q = some (.ofBinaryOp b) →
        supportedOp b.op_) ∧
      ¬ DivOverflow heap node) ∧
    Node.Eval [some (.ofVariable ⟨0, "z", some 0⟩), some (.ofVariable ⟨0, "x", none⟩),
        some (.ofBinaryOp ⟨0, '*', 0, 1⟩)] 2 2 = some (.error (.UnassignedVariable "x")) ∧
    Node.Eval [some (.ofVariable ⟨0, "a", some 1⟩), some (.ofVariable ⟨0, "b", none⟩),
        some (.ofBinaryOp ⟨0, '+', 0, 1⟩)] 2 2 = some (.error (.UnassignedVariable "b")) := by
  have hiff := Node.Eval_ok_iff heap fuel node e hexpr
  refine ⟨?_, ?_, hiff, by decide, by decide⟩
  · intro v hv hval
    refine ⟨?_, ?_, ?_⟩
    · cases fuel with
      | zero => simp [Node.expr] at hexpr
      | succ fuel =>
        unfold Variable.HasValue at hval
        cases hvv : v.value_ with
        | some y => simp [hvv] at hval
        | none => simp [Node.Eval, hv, Variable.Eval, hvv, Variable.name]
    · intro hnul
      show cString ("Attempting to use unasigned variable '" ++ v.name ++ "'") = _
      apply cString_of_no_nul
      show Char.ofNat 0 ∉ ("Attempting to use unasigned variable '" ++ v.name ++ "'").data
      rw [String.data_append, String.data_append]
      intro hmem
      rcases List.mem_append.mp hmem with h | h
      · rcases List.mem_append.mp h with h | h
        · exact absurd h (by decide)
        · exact hnul h
      · exact absurd h (by decide)
    · intro a b hname hnul
      show cString ("Attempting to use unasigned variable '" ++ v.name ++ "'") = _
      have hre : "Attempting to use unasigned variable '" ++ v.name ++ "'" =
          ("Attempting to use unasigned variable '" ++ a) ++ String.singleton (Char.ofNat 0)
            ++ (b ++ "'") := by
        rw [hname]
        simp only [String.append_assoc]
      rw [hre]
      apply cString_cut
      show Char.ofNat 0 ∉ ("Attempting to use unasigned variable '" ++ a).data
      rw [String.data_append]
      intro hmem
      rcases List.mem_append.mp hmem with h | h
      · exact absurd h (by decide)
      · exact hnul h
  · intro q v hq hv hval
    have hno : ∀ x, Node.Eval heap fuel node ≠ some (.ok x) := by
      intro x hx
      have hall := (hiff.mp ⟨x, hx⟩).1 q v hq hv
      rw [hval] at hall
      cases hall
    refine ⟨hno, ?_⟩
    cases hres : Node.Eval heap fuel node with
    | none => exact Or.inr (Node.Eval_none_divOverflow heap fuel node e hexpr hres)
    | some res =>
      cases res with
      | error err => exact Or.inl ⟨err, rfl⟩
      | ok x => exact absurd hres (hno x)

/-- Witness for C13 as amended: `0 * x` with `x` unassigned. -/
theorem eval_unassigned_witness :
    (∃ err, Node.Eval [some (.ofVariable ⟨0, "z", some 0⟩), some (.ofVariable ⟨0, "x", none⟩),
        some (.ofBinaryOp ⟨0, '*', 0, 1⟩)] 2 2 = some (.error err)) ∨
    DivOverflow [some (.ofVariable ⟨0, "z", some 0⟩), some (.ofVariable ⟨0, "x", none⟩),
        some (.ofBinaryOp ⟨0, '*', 0, 1⟩)] 2 :=
  ((eval_unassigned [some (.ofVariable ⟨0, "z", some 0⟩), some (.ofVariable ⟨0, "x", none⟩),
    some (.ofBinaryOp ⟨0, '*', 0, 1⟩)] 2 2 (.op '*' (.var 0 "z") (.var 1 "x")) rfl).2.1
    1 ⟨0, "x", none⟩ (Reaches.rhs 2 1 ⟨0, '*', 0, 1⟩ rfl (Reaches.refl 1)) rfl rfl).2

/-- C20: an `Assign` or a `Reset` on the variable at `x` leaves the graph (name
index and node sequence) and the record of declarations as they were, leaves
every other cell of the store as it was (so every other variable keeps its
value and every operator its symbol and operands), and keeps the name and the
owner of the variable at `x`.  Consequently `Eval` of any node from which `x`
is not reached through operand pointers gives the same result before and after
the call. -/
theorem assign_frame (this : DagPtr) (s s' : Session) (c : Call) (x : NodePtr)
    (hcall : (∃ value, c = .Assign x value) ∨ c = .Reset x)
    (hstep : s.step this c = some s') :
    s'.graph = s.graph ∧ s'.declared = s.declared ∧ s'.heap.length = s.heap.length ∧
    (∀ p, p ≠ x → Heap.deref s'.heap p = Heap.deref s.heap p) ∧
    (∀ p (v : Variable), p ≠ x → Heap.deref s.heap p = some (.ofVariable v) →
      Heap.deref s'.heap p = some (.ofVariable v) ∧
      ∀ fuel, Node.Eval s'.heap fuel p = Node.Eval s.heap fuel p) ∧
    (∃ v v' : Variable, Heap.deref s.heap x = some (.ofVariable v) ∧
      Heap.deref s'.heap x = some (.ofVariable v') ∧ v'.name = v.name ∧ v'.dag_ = v.dag_) ∧
    (∀ fuel node, ¬ Reaches s.heap node x →
      Node.Eval s'.heap fuel node = Node.Eval s.heap fuel node) := by
  have key : ∃ v v' : Variable, Heap.deref s.heap x = some (.ofVariable v) ∧
      v'.name = v.name ∧ v'.dag_ = v.dag_ ∧
      s' = { s with heap := s.heap.set x (some (.ofVariable v')) } := by
    rcases hcall with ⟨value, hc⟩ | hc
    · subst hc
      simp only [Session.step] at hstep
      cases ha : Heap.Assign s.heap x value with
      | none => simp [ha] at hstep
      | some heap' =>
        obtain ⟨v, hv, hh⟩ := Heap.Assign_eq s.heap heap' x value ha
        simp only [ha, Option.some.injEq] at hstep
        exact ⟨v, v.Assign value, hv, rfl, rfl, by rw [← hstep, hh]⟩
    · subst hc
      simp only [Session.step] at hstep
      cases ha : Heap.Reset s.heap x with
      | none => simp [ha] at hstep
      | some heap' =>
        obtain ⟨v, hv, hh⟩ := Heap.Reset_eq s.heap heap' x ha
        simp only [ha, Option.some.injEq] at hstep
        exact ⟨v, v.Reset, hv, rfl, rfl, by rw [← hstep, hh]⟩
  obtain ⟨v, v', hv, hname, hdag, hs'⟩ := key
  subst hs'
  have hother : ∀ p, p ≠ x →
      Heap.deref (s.heap.set x (some (.ofVariable v'))) p = Heap.deref s.heap p :=
    fun p hp => Heap.deref_set_other s.heap x p _ hp
  have hframe : ∀ fuel node, ¬ Reaches s.heap node x →
      Node.Eval (s.heap.set x (some (.ofVariable v'))) fuel node = Node.Eval s.heap fuel node := by
    intro fuel
    induction fuel with
    | zero => intro node _; rfl
    | succ fuel ih =>
      intro node hnot
      have hne : node ≠ x := fun h => hnot (h ▸ Reaches.refl node)
      rw [Node.Eval, Node.Eval, hother node hne]
      cases hn : Heap.deref s.heap node with
      | none => rfl
      | some n =>
        cases n with
        | ofVariable w => rfl
        | ofBinaryOp b =>
          simp only
          rw [ih b.lhs_ (fun h => hnot (Reaches.lhs node x b hn h)),
            ih b.rhs_ (fun h => hnot (Reaches.rhs node x b hn h))]
  refine ⟨rfl, rfl, by simp, hother, ?_, ?_, hframe⟩
  · intro p w hp hw
    refine ⟨by rw [hother p hp]; exact hw, ?_⟩
    intro fuel
    apply hframe
    intro hreach
    exact hp (Reaches.of_variable s.heap p x w hw hreach).symm
  · exact ⟨v, v', hv, Heap.deref_set_self s.heap x _ (Heap.deref_lt s.heap x _ hv), hname, hdag⟩

/-- Witness for C20: in the graph a, b, c, a+b, assigning c leaves a+b as it was. -/
theorem assign_frame_witness :
    Node.Eval (frameTest (some 9)) 2 3 = Node.Eval (frameTest none) 2 3 :=
  (assign_frame 0
    ⟨frameTest none, ⟨[("a", 0), ("b", 1), ("c", 2)], [0, 1, 2, 3]⟩,
      [("a", 0), ("b", 1), ("c", 2)]⟩
    ⟨frameTest (some 9), ⟨[("a", 0), ("b", 1), ("c", 2)], [0, 1, 2, 3]⟩,
      [("a", 0), ("b", 1), ("c", 2)]⟩
    (.Assign 2 9) 2 (Or.inl ⟨9, rfl⟩) (by decide)).2.2.2.2.2.2 2 3 (by
      intro h
      rcases Reaches.of_binaryOp (frameTest none) 3 2 ⟨0, '+', 0, 1⟩ rfl h with h | h | h
      · exact absurd h (by decide)
      · exact absurd (Reaches.of_variable (frameTest none) 0 2 ⟨0, "a", some 1⟩ rfl h)
          (by decide)
      · exact absurd (Reaches.of_variable (frameTest none) 1 2 ⟨0, "b", some 5⟩ rfl h)
          (by decide))

end nwcpp

namespace nwcpp

/-! ## The node sequence along a sequence of calls -/

theorem Heap.deref_free (heap : Heap) (p q : NodePtr) :
    Heap.deref (Heap.free heap q) p = if p = q then none else Heap.deref heap p := by
  unfold Heap.free
  by_cases h : p = q
  · subst h
    by_cases hp : p < heap.length
    · simp [Heap.deref_set_self heap p none hp]
    · have : (heap.set p none)[p]? = none :=
        List.getElem?_eq_none (by rw [List.length_set]; exact Nat.le_of_not_lt hp)
      simp [Heap.deref, this]
  · simp [h, Heap.deref_set_other heap q p none h]

theorem Heap.deref_foldl_free (ps : List NodePtr) :
    ∀ (heap : Heap) (p : NodePtr),
      Heap.deref (ps.foldl Heap.free heap) p = if p ∈ ps then none else Heap.deref heap p := by
  induction ps with
  | nil => intro heap p; simp
  | cons q rest ih =>
    intro heap p
    rw [List.foldl_cons, ih, Heap.deref_free]
    by_cases h1 : p ∈ rest
    · simp [h1]
    · by_cases h2 : p = q
      · simp [h2]
      · simp [h1, h2]

theorem varEntry_append (heap : Heap) (cell : Option Node) (p : NodePtr) (n : Node)
    (h : Heap.deref heap p = some n) : varEntry (heap ++ [cell]) p = varEntry heap p := by
  unfold varEntry
  rw [Heap.deref_append_of_some heap cell p n h, h]

theorem varEntry_set (heap : Heap) (x : NodePtr) (v v' : Variable)
    (hx : Heap.deref heap x = some (.ofVariable v)) (hname : v'.name = v.name) (p : NodePtr) :
    varEntry (heap.set x (some (.ofVariable v'))) p = varEntry heap p := by
  unfold varEntry
  by_cases hp : p = x
  · subst hp
    rw [Heap.deref_set_self heap p _ (Heap.deref_lt heap p _ hx), hx]
    simp [hname]
  · rw [Heap.deref_set_other heap x p _ hp]

theorem Session.Indexed.of_start (this : DagPtr) (heap : Heap) :
    Session.Indexed this (Session.start heap) := by
  refine ⟨?_, ?_, ?_⟩ <;> simp [Session.start, Dataflow.Dataflow]

theorem Session.Indexed.of_grow (this : DagPtr) (s : Session) (hs : Session.Indexed this s)
    (n : Node) (hdag : n.dag = this) (vars : VarMap) (extra : List (String × NodePtr))
    (hentry : (varEntry (s.heap ++ [some n]) s.heap.length).toList = extra)
    (hnamed : ∀ name ptr, (name, ptr) ∈ extra → name ≠ "") :
    Session.Indexed this
      { heap := s.heap ++ [some n],
        graph := { variables_ := vars, nodes_ := s.graph.nodes_ ++ [s.heap.length] },
        declared := s.declared ++ extra } := by
  refine ⟨?_, ?_, ?_⟩
  · intro p hp
    rcases List.mem_append.mp hp with hp | hp
    · obtain ⟨m, hm, hd⟩ := hs.nodesLive p hp
      exact ⟨m, Heap.deref_append_of_some s.heap _ p m hm, hd⟩
    · simp only [List.mem_singleton] at hp
      subst hp
      exact ⟨n, Heap.deref_append_new s.heap _, hdag⟩
  · simp only [List.filterMap_append]
    have hold : s.graph.nodes_.filterMap (varEntry (s.heap ++ [some n])) =
        s.graph.nodes_.filterMap (varEntry s.heap) := by
      apply List.filterMap_congr
      intro p hp
      obtain ⟨m, hm, -⟩ := hs.nodesLive p hp
      exact varEntry_append s.heap _ p m hm
    rw [hold, hs.entries, ← hentry]
    congr 1
  · intro name ptr hmem
    rcases List.mem_append.mp hmem with h | h
    · exact hs.named name ptr h
    · exact hnamed name ptr h

theorem Session.Indexed.of_update (this : DagPtr) (s : Session) (hs : Session.Indexed this s)
    (var : NodePtr) (v v' : Variable) (hv : Heap.deref s.heap var = some (.ofVariable v))
    (hname : v'.name = v.name) (hdag : v'.dag_ = v.dag_) :
    Session.Indexed this { s with heap := s.heap.set var (some (.ofVariable v')) } := by
  refine ⟨?_, ?_, hs.named⟩
  · intro p hp
    obtain ⟨m, hm, hd⟩ := hs.nodesLive p hp
    by_cases hpv : p = var
    · subst hpv
      rw [hv] at hm
      cases hm
      exact ⟨.ofVariable v', Heap.deref_set_self s.heap p _ (Heap.deref_lt s.heap p _ hv),
        hdag.trans hd⟩
    · exact ⟨m, by rw [Heap.deref_set_other s.heap var p _ hpv]; exact hm, hd⟩
  · have : s.graph.nodes_.filterMap (varEntry (s.heap.set var (some (.ofVariable v')))) =
        s.graph.nodes_.filterMap (varEntry s.heap) :=
      List.filterMap_congr (fun p _ => varEntry_set s.heap var v v' hv hname p)
    exact this.trans hs.entries

theorem createBinaryOp_ok_inv (this : DagPtr) (heap heap' : Heap) (g g' : Dataflow) (op : Char)
    (lhs rhs ptr : NodePtr)
    (h : Dataflow.CreateBinaryOp this heap g op lhs rhs = some (heap', g', .ok ptr)) :
    ∃ l r : Node, Heap.deref heap lhs = some l ∧ l.dag = this ∧
      Heap.deref heap rhs = some r ∧ r.dag = this ∧
      heap' = heap ++ [some (.ofBinaryOp ⟨this, op, lhs, rhs⟩)] ∧
      g' = { g with nodes_ := g.nodes_ ++ [heap.length] } ∧ ptr = heap.length := by
  unfold Dataflow.CreateBinaryOp BinaryOp.BinaryOp at h
  cases hl : Heap.deref heap lhs with
  | none => simp [hl] at h
  | some l =>
    simp only [hl] at h
    by_cases hld : l.dag = this
    · simp only [hld, ne_eq, not_true_eq_false, if_false] at h
      cases hr : Heap.deref heap rhs with
      | none => simp [hr] at h
      | some r =>
        simp only [hr] at h
        by_cases hrd : r.dag = this
        · simp only [hrd, ne_eq, not_true_eq_false, if_false, Option.some.injEq,
            Prod.mk.injEq, Except.ok.injEq] at h
          exact ⟨l, r, rfl, hld, rfl, hrd, h.1.symm, h.2.1.symm, h.2.2.symm⟩
        · simp [hrd] at h
    · simp [hld] at h

theorem createBinaryOp_error_inv (this : DagPtr) (heap heap' : Heap) (g g' : Dataflow)
    (op : Char) (lhs rhs : NodePtr) (e : Error)
    (h : Dataflow.CreateBinaryOp this heap g op lhs rhs = some (heap', g', .error e)) :
    heap' = heap ∧ g' = g := by
  rcases createBinaryOp_cases this heap g op lhs rhs with h0 | ⟨e0, h0⟩ | ⟨b, h0⟩
  · rw [h0] at h; cases h
  · rw [h0] at h
    simp only [Option.some.injEq, Prod.mk.injEq] at h
    exact ⟨h.1.symm, h.2.1.symm⟩
  · rw [h0] at h
    simp at h

theorem Session.Indexed.of_step (this : DagPtr) (s s' : Session) (c : Call)
    (hs : Session.Indexed this s) (hstep : s.step this c = some s') :
    Session.Indexed this s' := by
  cases c with
  | DeclareVariable name =>
    simp only [Session.step] at hstep
    rcases declareVariable_cases this s.heap s.graph name with ⟨e, he⟩ | ⟨hname, hfresh, hok⟩
    · rw [he] at hstep
      cases hstep
      exact hs
    · rw [hok] at hstep
      cases hstep
      refine Session.Indexed.of_grow this s hs (.ofVariable ⟨this, name, none⟩) rfl _
        [(name, s.heap.length)] ?_ ?_
      · simp [varEntry, Heap.deref_append_new, Variable.name]
      · intro n p hmem
        simp only [List.mem_singleton, Prod.mk.injEq] at hmem
        rw [hmem.1]
        exact hname
  | CreateBinaryOp op lhs rhs =>
    simp only [Session.step] at hstep
    cases hc : Dataflow.CreateBinaryOp this s.heap s.graph op lhs rhs with
    | none => simp [hc] at hstep
    | some res =>
      obtain ⟨heap', g', r⟩ := res
      rw [hc] at hstep
      simp only [Option.some.injEq] at hstep
      subst hstep
      cases r with
      | error e =>
        obtain ⟨h1, h2⟩ := createBinaryOp_error_inv this s.heap heap' s.graph g' op lhs rhs e hc
        subst h1 h2
        exact hs
      | ok ptr =>
        obtain ⟨l, r, -, -, -, -, h1, h2, -⟩ :=
          createBinaryOp_ok_inv this s.heap heap' s.graph g' op lhs rhs ptr hc
        subst h1 h2
        have := Session.Indexed.of_grow this s hs (.ofBinaryOp ⟨this, op, lhs, rhs⟩) rfl
          s.graph.variables_ [] (by simp [varEntry, Heap.deref_append_new])
          (by intro n p hmem; cases hmem)
        simpa using this
  | Assign var value =>
    simp only [Session.step] at hstep
    cases ha : Heap.Assign s.heap var value with
    | none => simp [ha] at hstep
    | some heap' =>
      obtain ⟨v, hv, hh⟩ := Heap.Assign_eq s.heap heap' var value ha
      simp only [ha, Option.some.injEq] at hstep
      subst hstep hh
      exact Session.Indexed.of_update this s hs var v _ hv rfl rfl
  | Reset var =>
    simp only [Session.step] at hstep
    cases ha : Heap.Reset s.heap var with
    | none => simp [ha] at hstep
    | some heap' =>
      obtain ⟨v, hv, hh⟩ := Heap.Reset_eq s.heap heap' var ha
      simp only [ha, Option.some.injEq] at hstep
      subst hstep hh
      exact Session.Indexed.of_update this s hs var v _ hv rfl rfl
  | clear =>
    simp only [Session.step, Dataflow.clear] at hstep
    cases hstep
    refine ⟨?_, ?_, ?_⟩ <;> simp

theorem Session.Indexed.of_run (this : DagPtr) (calls : List Call) :
    ∀ (s s' : Session), Session.Indexed this s → Session.run this s calls = some s' →
      Session.Indexed this s' := by
  induction calls with
  | nil =>
    intro s s' hs hrun
    simp only [Session.run] at hrun
    cases hrun
    exact hs
  | cons c cs ih =>
    intro s s' hs hrun
    simp only [Session.run] at hrun
    cases hstep : s.step this c with
    | none => simp [hstep] at hrun
    | some s1 =>
      rw [hstep] at hrun
      exact ih s1 s' (Session.Indexed.of_step this s s1 c hs hstep) hrun

end nwcpp

namespace nwcpp

theorem mem_filterMap_varEntry (heap : Heap) (nodes : List NodePtr) (name : String)
    (ptr : NodePtr) :
    (name, ptr) ∈ nodes.filterMap (varEntry heap) ↔
      ptr ∈ nodes ∧ ∃ v : Variable, Heap.deref heap ptr = some (.ofVariable v) ∧ v.name = name := by
  rw [List.mem_filterMap]
  constructor
  · rintro ⟨p, hp, hentry⟩
    unfold varEntry at hentry
    cases hd : Heap.deref heap p with
    | none => simp [hd] at hentry
    | some n =>
      cases n with
      | ofBinaryOp b => simp [hd] at hentry
      | ofVariable v =>
        simp only [hd, Option.some.injEq, Prod.mk.injEq] at hentry
        obtain ⟨h1, h2⟩ := hentry
        subst h2
        exact ⟨hp, v, hd, h1⟩
  · rintro ⟨hp, v, hv, hname⟩
    exact ⟨ptr, hp, by simp [varEntry, hv, hname]⟩

theorem length_filterMap_varEntry (heap : Heap) (nodes : List NodePtr) :
    (nodes.filterMap (varEntry heap)).length =
      nodes.countP (fun p => ((Heap.deref heap p).bind Node.asVariable).isSome) := by
  induction nodes with
  | nil => rfl
  | cons p rest ih =>
    have hp : (varEntry heap p).isSome =
        ((Heap.deref heap p).bind Node.asVariable).isSome := by
      unfold varEntry
      cases hd : Heap.deref heap p with
      | none => rfl
      | some n => cases n <;> rfl
    rw [List.countP_cons, ← hp, ← ih, List.filterMap_cons]
    cases varEntry heap p <;> simp

/-- C19: after any sequence of calls on a new graph (declarations and operator
creations, successful or failed, assignments, resets and `clear()`), the name
index and the node sequence agree: the entries of the index are exactly the
(name, address) pairs of the variables of the node sequence, so each key maps
to the variable node carrying that name; two variable nodes of the sequence
never share a name; no key is empty; and the index has as many entries as the
sequence has variable nodes. -/
theorem index_matches_nodes (this : DagPtr) (heap : Heap) (calls : List Call) (s : Session)
    (hrun : Session.run this (Session.start heap) calls = some s) :
    s.graph.variables_.Perm (s.graph.nodes_.filterMap (varEntry s.heap)) ∧
    (∀ name ptr, (name, ptr) ∈ s.graph.variables_ ↔
      ptr ∈ s.graph.nodes_ ∧
        ∃ v : Variable, Heap.deref s.heap ptr = some (.ofVariable v) ∧ v.name = name) ∧
    (∀ name ptr, s.graph.LookupVariable name = some ptr ↔
      ptr ∈ s.graph.nodes_ ∧
        ∃ v : Variable, Heap.deref s.heap ptr = some (.ofVariable v) ∧ v.name = name) ∧
    (∀ (p q : NodePtr) (v w : Variable), p ∈ s.graph.nodes_ → q ∈ s.graph.nodes_ →
      Heap.deref s.heap p = some (.ofVariable v) → Heap.deref s.heap q = some (.ofVariable w) →
      v.name = w.name → p = q) ∧
    (∀ name ∈ s.graph.variables_.map Prod.fst, name ≠ "") ∧
    s.graph.variables_.length =
      s.graph.nodes_.countP (fun p => ((Heap.deref s.heap p).bind Node.asVariable).isSome) ∧
    (∀ p ∈ s.graph.nodes_, ∃ n : Node, Heap.deref s.heap p = some n ∧ n.dag = this) := by
  have hc : Session.Consistent this s :=
    Session.Consistent.run this calls _ s (Session.Consistent.start this heap) hrun
  have hi : Session.Indexed this s :=
    Session.Indexed.of_run this calls _ s (Session.Indexed.of_start this heap) hrun
  have hperm : s.graph.variables_.Perm (s.graph.nodes_.filterMap (varEntry s.heap)) := by
    rw [hi.entries]
    exact hc.index
  have hmem : ∀ name ptr, (name, ptr) ∈ s.graph.variables_ ↔
      ptr ∈ s.graph.nodes_ ∧
        ∃ v : Variable, Heap.deref s.heap ptr = some (.ofVariable v) ∧ v.name = name := by
    intro name ptr
    rw [hperm.mem_iff]
    exact mem_filterMap_varEntry s.heap s.graph.nodes_ name ptr
  have hlook : ∀ name ptr, s.graph.LookupVariable name = some ptr ↔
      ptr ∈ s.graph.nodes_ ∧
        ∃ v : Variable, Heap.deref s.heap ptr = some (.ofVariable v) ∧ v.name = name := by
    intro name ptr
    unfold Dataflow.LookupVariable
    rw [VarMap.find_eq_some_iff _ hc.ascending.nodup]
    exact hmem name ptr
  refine ⟨hperm, hmem, hlook, ?_, ?_, ?_, hi.nodesLive⟩
  · intro p q v w hp hq hv hw hname
    have h1 := (hlook v.name p).mpr ⟨hp, v, hv, rfl⟩
    have h2 := (hlook v.name q).mpr ⟨hq, w, hw, hname.symm⟩
    rw [h1] at h2
    exact Option.some.inj h2
  · intro name hname
    obtain ⟨e, he, hen⟩ := List.mem_map.mp hname
    have := hi.named e.1 e.2 (hc.index.subset he)
    rw [hen] at this
    exact this
  · rw [hperm.length_eq]
    exact length_filterMap_varEntry s.heap s.graph.nodes_

/-- Witness for C19: the graph of the binary operation test, then a rejected
duplicate declaration. -/
theorem index_matches_nodes_witness :
    ∃ s, Session.run 0 (Session.start []) (binaryOperationsTest ++ [Call.DeclareVariable "a"])
        = some s ∧
      s.graph.variables_ = [("a", 0), ("b", 1)] ∧ s.graph.nodes_ = [0, 1, 2, 3, 4, 5, 6] ∧
      s.graph.variables_.Perm (s.graph.nodes_.filterMap (varEntry s.heap)) ∧
      s.graph.variables_.length =
        s.graph.nodes_.countP
          (fun p => ((Heap.deref s.heap p).bind Node.asVariable).isSome) :=
  ⟨_, rfl, rfl, rfl,
    (index_matches_nodes 0 [] (binaryOperationsTest ++ [Call.DeclareVariable "a"]) _ rfl).1,
    (index_matches_nodes 0 [] (binaryOperationsTest ++ [Call.DeclareVariable "a"]) _
      rfl).2.2.2.2.2.1⟩

/-! ## Clearing a graph -/

theorem dumpToGraphviz_empty (showPtr : NodePtr → String) (heap : Heap) :
    Dataflow.DumpToGraphviz showPtr heap Dataflow.Dataflow =
      some (.ok ("digraph dataflow \x7b\n" ++ "rankdir=TB\n" ++ "\x7d\n")) := by
  simp [Dataflow.DumpToGraphviz, Dataflow.Dataflow, dumpLoop]

/-- C11: after any sequence of calls on a new graph, `clear()` leaves the graph
equal to a newly constructed one: lookup of every name returns the null
pointer, `Variables()` is empty, the node sequence is empty and the export
consists of the header and the closing brace only.  Every node the graph owned
is destroyed and no other cell of the store is touched; and every name that
had been declared before the call is declared again successfully afterwards. -/
theorem clear_resets (this : DagPtr) (heap : Heap) (calls : List Call) (s : Session)
    (hrun : Session.run this (Session.start heap) calls = some s) :
    (Dataflow.clear s.heap s.graph).2 = Dataflow.Dataflow ∧
    s.step this .clear =
      some { heap := (Dataflow.clear s.heap s.graph).1, graph := Dataflow.Dataflow,
             declared := [] } ∧
    (∀ name, (Dataflow.clear s.heap s.graph).2.LookupVariable name = none) ∧
    (Dataflow.clear s.heap s.graph).2.Variables = [] ∧
    (Dataflow.clear s.heap s.graph).2.nodes_ = [] ∧
    (∀ showPtr : NodePtr → String,
      Dataflow.DumpToGraphviz showPtr (Dataflow.clear s.heap s.graph).1
          (Dataflow.clear s.heap s.graph).2 =
        some (.ok ("digraph dataflow \x7b\n" ++ "rankdir=TB\n" ++ "\x7d\n"))) ∧
    (∀ p ∈ s.graph.nodes_, Heap.deref (Dataflow.clear s.heap s.graph).1 p = none) ∧
    (∀ p, p ∉ s.graph.nodes_ →
      Heap.deref (Dataflow.clear s.heap s.graph).1 p = Heap.deref s.heap p) ∧
    (∀ name ∈ s.declared.map Prod.fst, ∃ heap' g' ptr,
      Dataflow.DeclareVariable this (Dataflow.clear s.heap s.graph).1
          (Dataflow.clear s.heap s.graph).2 name = (heap', g', .ok ptr) ∧
        g'.LookupVariable name = some ptr) := by
  have hi : Session.Indexed this s :=
    Session.Indexed.of_run this calls _ s (Session.Indexed.of_start this heap) hrun
  refine ⟨rfl, rfl, fun _ => rfl, rfl, rfl, ?_, ?_, ?_, ?_⟩
  · intro showPtr
    exact dumpToGraphviz_empty showPtr _
  · intro p hp
    simp only [Dataflow.clear]
    rw [Heap.deref_foldl_free]
    simp [hp]
  · intro p hp
    simp only [Dataflow.clear]
    rw [Heap.deref_foldl_free]
    simp [hp]
  · intro name hname
    obtain ⟨e, he, hen⟩ := List.mem_map.mp hname
    have hne : name ≠ "" := by
      have := hi.named e.1 e.2 he
      rw [hen] at this
      exact this
    have hok := declareVariable_ok this (Dataflow.clear s.heap s.graph).1
      (Dataflow.clear s.heap s.graph).2 name hne (by simp [Dataflow.clear])
    refine ⟨_, _, _, hok, ?_⟩
    simp [Dataflow.LookupVariable, Dataflow.clear, VarMap.place, VarMap.find]

/-- Witness for C11: the graph of the binary operation test is cleared and "a"
is declared again. -/
theorem clear_resets_witness :
    ∃ s, Session.run 0 (Session.start []) binaryOperationsTest = some s ∧
      s.graph.nodes_ = [0, 1, 2, 3, 4, 5, 6] ∧
      (Dataflow.clear s.heap s.graph).2 = Dataflow.Dataflow ∧
      (∀ p ∈ s.graph.nodes_, Heap.deref (Dataflow.clear s.heap s.graph).1 p = none) ∧
      ∀ name ∈ s.declared.map Prod.fst, ∃ heap' g' ptr,
        Dataflow.DeclareVariable 0 (Dataflow.clear s.heap s.graph).1
            (Dataflow.clear s.heap s.graph).2 name = (heap', g', .ok ptr) ∧
          g'.LookupVariable name = some ptr :=
  ⟨_, rfl, rfl,
    (clear_resets 0 [] binaryOperationsTest _ rfl).1,
    (clear_resets 0 [] binaryOperationsTest _ rfl).2.2.2.2.2.2.1,
    (clear_resets 0 [] binaryOperationsTest _ rfl).2.2.2.2.2.2.2.2⟩

end nwcpp

namespace nwcpp

/-! ## The invariant of the reachable states -/

theorem getElem?_set_dag (dags : List Dataflow) (this d : DagPtr) (g g' : Dataflow)
    (hg : dags[this]? = some g) :
    (dags.set this g')[d]? = if d = this then some g' else dags[d]? := by
  have hlt : this < dags.length := by
    by_contra h
    rw [List.getElem?_eq_none (Nat.le_of_not_lt h)] at hg
    cases hg
  rw [List.getElem?_set]
  by_cases h : this = d
  · subst h; simp [hlt]
  · have h' : ¬ d = this := fun e => h e.symm
    simp [h, h']

theorem set_dag_self (dags : List Dataflow) (this : DagPtr) (g : Dataflow)
    (hg : dags[this]? = some g) : dags.set this g = dags := by
  apply List.ext_getElem?
  intro d
  rw [getElem?_set_dag dags this d g g hg]
  by_cases h : d = this
  · subst h; simp [hg]
  · simp [h]

theorem World.WellFormed.empty : World.WellFormed World.empty := by
  refine ⟨?_, ?_, ?_, ?_⟩
  · intro d g hg; simp [World.empty] at hg
  · intro p n hn; simp [World.empty, Heap.deref] at hn
  · intro p b hb; simp [World.empty, Heap.deref] at hb
  · intro d g hg; simp [World.empty] at hg

theorem World.WellFormed.construct (w : World) (hw : World.WellFormed w) :
    World.WellFormed { w with dags := w.dags ++ [Dataflow.Dataflow] } := by
  have hget : ∀ (d : DagPtr) (g : Dataflow), (w.dags ++ [Dataflow.Dataflow])[d]? = some g →
      w.dags[d]? = some g ∨ g = Dataflow.Dataflow := by
    intro d g hg
    by_cases hd : d < w.dags.length
    · rw [List.getElem?_append_left hd] at hg
      exact Or.inl hg
    · rw [List.getElem?_append_right (Nat.le_of_not_lt hd)] at hg
      right
      cases hi : d - w.dags.length with
      | zero => rw [hi] at hg; simp at hg; exact hg.symm
      | succ k => rw [hi] at hg; simp at hg
  refine ⟨?_, ?_, hw.operands, ?_⟩
  · intro d g hg p hp
    rcases hget d g hg with h | h
    · exact hw.owned d g h p hp
    · subst h; simp [Dataflow.Dataflow] at hp
  · intro p n hn
    obtain ⟨g, hg, hp⟩ := hw.member p n hn
    refine ⟨g, ?_, hp⟩
    have hlt : n.dag < w.dags.length := by
      by_contra h
      rw [List.getElem?_eq_none (Nat.le_of_not_lt h)] at hg
      cases hg
    show (w.dags ++ [Dataflow.Dataflow])[n.dag]? = some g
    rw [List.getElem?_append_left hlt]
    exact hg
  · intro d g hg
    rcases hget d g hg with h | h
    · exact hw.ordered d g h
    · subst h; simp [Dataflow.Dataflow]

theorem World.WellFormed.wf_grow (w : World) (hw : World.WellFormed w) (this : DagPtr)
    (g : Dataflow) (hg : w.dags[this]? = some g) (n : Node) (hdag : n.dag = this)
    (hops : ∀ b : BinaryOp, n = .ofBinaryOp b →
      ∃ l r : Node, w.heap.deref b.lhs_ = some l ∧ l.dag = b.dag_ ∧
        w.heap.deref b.rhs_ = some r ∧ r.dag = b.dag_)
    (vars : VarMap) :
    World.WellFormed
      { heap := w.heap ++ [some n],
        dags := w.dags.set this { variables_ := vars, nodes_ := g.nodes_ ++ [w.heap.length] } } := by
  have hlive : ∀ p ∈ g.nodes_, p < w.heap.length := by
    intro p hp
    obtain ⟨m, hm, -⟩ := hw.owned this g hg p hp
    exact Heap.deref_lt w.heap p m hm
  refine ⟨?_, ?_, ?_, ?_⟩
  · intro d g0 hg0 p hp
    simp only [getElem?_set_dag w.dags this d g _ hg] at hg0
    by_cases hd : d = this
    · subst hd
      simp only [if_true, Option.some.injEq] at hg0
      subst hg0
      rcases List.mem_append.mp hp with hp | hp
      · obtain ⟨m, hm, hmd⟩ := hw.owned d g hg p hp
        exact ⟨m, Heap.deref_append_of_some w.heap _ p m hm, hmd⟩
      · simp only [List.mem_singleton] at hp
        subst hp
        exact ⟨n, Heap.deref_append_new w.heap _, hdag⟩
    · simp only [hd, if_false] at hg0
      obtain ⟨m, hm, hmd⟩ := hw.owned d g0 hg0 p hp
      exact ⟨m, Heap.deref_append_of_some w.heap _ p m hm, hmd⟩
  · intro p m hm
    simp only [getElem?_set_dag w.dags this _ g _ hg]
    by_cases hp : p < w.heap.length
    · rw [Heap.deref_append_left w.heap _ p hp] at hm
      obtain ⟨g0, hg0, hp0⟩ := hw.member p m hm
      by_cases hd : m.dag = this
      · rw [hd] at hg0
        rw [hg] at hg0
        cases hg0
        exact ⟨⟨vars, g.nodes_ ++ [w.heap.length]⟩, by simp [hd], List.mem_append_left _ hp0⟩
      · exact ⟨g0, by simp [hd, hg0], hp0⟩
    · have hlt := Heap.deref_lt _ p m hm
      have hpe : p = w.heap.length := by
        rw [List.length_append] at hlt
        simp only [List.length_singleton] at hlt
        exact Nat.le_antisymm (Nat.le_of_lt_succ hlt) (Nat.le_of_not_lt hp)
      subst hpe
      rw [Heap.deref_append_new] at hm
      cases hm
      exact ⟨⟨vars, g.nodes_ ++ [w.heap.length]⟩, by simp [hdag],
        List.mem_append_right _ (List.mem_singleton_self _)⟩
  · intro p b hb
    by_cases hp : p < w.heap.length
    · rw [Heap.deref_append_left w.heap _ p hp] at hb
      obtain ⟨l, r, hl, hld, hlp, hr, hrd, hrp⟩ := hw.operands p b hb
      exact ⟨l, r, Heap.deref_append_of_some w.heap _ _ l hl, hld, hlp,
        Heap.deref_append_of_some w.heap _ _ r hr, hrd, hrp⟩
    · have hlt := Heap.deref_lt _ p _ hb
      have hpe : p = w.heap.length := by
        rw [List.length_append] at hlt
        simp only [List.length_singleton] at hlt
        exact Nat.le_antisymm (Nat.le_of_lt_succ hlt) (Nat.le_of_not_lt hp)
      subst hpe
      rw [Heap.deref_append_new] at hb
      obtain ⟨l, r, hl, hld, hr, hrd⟩ := hops b (Option.some.inj hb)
      exact ⟨l, r, Heap.deref_append_of_some w.heap _ _ l hl, hld, Heap.deref_lt _ _ l hl,
        Heap.deref_append_of_some w.heap _ _ r hr, hrd, Heap.deref_lt _ _ r hr⟩
  · intro d g0 hg0
    simp only [getElem?_set_dag w.dags this d g _ hg] at hg0
    by_cases hd : d = this
    · subst hd
      simp only [if_true, Option.some.injEq] at hg0
      subst hg0
      show List.Pairwise (· < ·) (g.nodes_ ++ [w.heap.length])
      rw [List.pairwise_append]
      refine ⟨hw.ordered d g hg, List.pairwise_singleton _ _, ?_⟩
      intro a ha c hc
      simp only [List.mem_singleton] at hc
      subst hc
      exact hlive a ha
    · simp only [hd, if_false] at hg0
      exact hw.ordered d g0 hg0

end nwcpp

namespace nwcpp

theorem World.WellFormed.wf_update (w : World) (hw : World.WellFormed w) (x : NodePtr)
    (v v' : Variable) (hv : Heap.deref w.heap x = some (.ofVariable v))
    (hdag : v'.dag_ = v.dag_) :
    World.WellFormed { w with heap := w.heap.set x (some (.ofVariable v')) } := by
  have hx : x < w.heap.length := Heap.deref_lt w.heap x _ hv
  have hkeep : ∀ (q : NodePtr) (l : Node), Heap.deref w.heap q = some l →
      ∃ l' : Node, Heap.deref (w.heap.set x (some (.ofVariable v'))) q = some l' ∧
        l'.dag = l.dag := by
    intro q l hl
    by_cases hq : q = x
    · subst hq
      rw [hv] at hl
      cases hl
      exact ⟨.ofVariable v', Heap.deref_set_self w.heap q _ hx, hdag⟩
    · exact ⟨l, by rw [Heap.deref_set_other w.heap x q _ hq]; exact hl, rfl⟩
  have hback : ∀ (q : NodePtr) (m : Node),
      Heap.deref (w.heap.set x (some (.ofVariable v'))) q = some m →
      (q = x ∧ m = .ofVariable v') ∨ (q ≠ x ∧ Heap.deref w.heap q = some m) := by
    intro q m hm
    by_cases hq : q = x
    · subst hq
      rw [Heap.deref_set_self w.heap q _ hx] at hm
      exact Or.inl ⟨rfl, (Option.some.inj hm).symm⟩
    · rw [Heap.deref_set_other w.heap x q _ hq] at hm
      exact Or.inr ⟨hq, hm⟩
  refine ⟨?_, ?_, ?_, hw.ordered⟩
  · intro d g hg p hp
    obtain ⟨m, hm, hmd⟩ := hw.owned d g hg p hp
    obtain ⟨m', hm', hmd'⟩ := hkeep p m hm
    exact ⟨m', hm', hmd'.trans hmd⟩
  · intro p m hm
    rcases hback p m hm with ⟨hp, hmv⟩ | ⟨-, hold⟩
    · subst hp hmv
      obtain ⟨g, hg, hpg⟩ := hw.member p _ hv
      refine ⟨g, ?_, hpg⟩
      show w.dags[v'.dag_]? = some g
      rw [hdag]
      exact hg
    · exact hw.member p m hold
  · intro p b hb
    rcases hback p _ hb with ⟨-, hmv⟩ | ⟨-, hold⟩
    · cases hmv
    · obtain ⟨l, r, hl, hld, hlp, hr, hrd, hrp⟩ := hw.operands p b hold
      obtain ⟨l', hl', hld'⟩ := hkeep _ l hl
      obtain ⟨r', hr', hrd'⟩ := hkeep _ r hr
      exact ⟨l', r', hl', hld'.trans hld, hlp, hr', hrd'.trans hrd, hrp⟩

theorem World.WellFormed.clear (w : World) (hw : World.WellFormed w) (this : DagPtr)
    (g : Dataflow) (hg : w.dags[this]? = some g) :
    World.WellFormed
      { heap := g.nodes_.foldl Heap.free w.heap,
        dags := w.dags.set this { variables_ := [], nodes_ := [] } } := by
  have hback : ∀ (q : NodePtr) (m : Node),
      Heap.deref (g.nodes_.foldl Heap.free w.heap) q = some m →
      q ∉ g.nodes_ ∧ Heap.deref w.heap q = some m := by
    intro q m hm
    rw [Heap.deref_foldl_free] at hm
    by_cases hq : q ∈ g.nodes_
    · simp [hq] at hm
    · simp only [hq, if_false] at hm
      exact ⟨hq, hm⟩
  have hkeep : ∀ (q : NodePtr), q ∉ g.nodes_ →
      Heap.deref (g.nodes_.foldl Heap.free w.heap) q = Heap.deref w.heap q := by
    intro q hq
    rw [Heap.deref_foldl_free]
    simp [hq]
  have hforeign : ∀ (q : NodePtr) (m : Node), Heap.deref w.heap q = some m → m.dag ≠ this →
      q ∉ g.nodes_ := by
    intro q m hm hd hq
    obtain ⟨m', hm', hmd⟩ := hw.owned this g hg q hq
    rw [hm] at hm'
    cases hm'
    exact hd hmd
  have hnotcleared : ∀ (q : NodePtr) (m : Node), Heap.deref w.heap q = some m →
      q ∉ g.nodes_ → m.dag ≠ this := by
    intro q m hm hq hd
    obtain ⟨g0, hg0, hq0⟩ := hw.member q m hm
    rw [hd, hg] at hg0
    cases hg0
    exact hq hq0
  refine ⟨?_, ?_, ?_, ?_⟩
  · intro d g0 hg0 p hp
    simp only [getElem?_set_dag w.dags this d g _ hg] at hg0
    by_cases hd : d = this
    · subst hd
      simp only [if_true, Option.some.injEq] at hg0
      subst hg0
      simp at hp
    · simp only [hd, if_false] at hg0
      obtain ⟨m, hm, hmd⟩ := hw.owned d g0 hg0 p hp
      have hp' : p ∉ g.nodes_ := hforeign p m hm (by rw [hmd]; exact hd)
      exact ⟨m, by rw [hkeep p hp']; exact hm, hmd⟩
  · intro p m hm
    obtain ⟨hp, hold⟩ := hback p m hm
    obtain ⟨g0, hg0, hp0⟩ := hw.member p m hold
    have hd : m.dag ≠ this := hnotcleared p m hold hp
    refine ⟨g0, ?_, hp0⟩
    simp only [getElem?_set_dag w.dags this _ g _ hg, hd, if_false]
    exact hg0
  · intro p b hb
    obtain ⟨hp, hold⟩ := hback p _ hb
    obtain ⟨l, r, hl, hld, hlp, hr, hrd, hrp⟩ := hw.operands p b hold
    have hd : b.dag_ ≠ this := hnotcleared p _ hold hp
    have hl' : b.lhs_ ∉ g.nodes_ := hforeign _ l hl (by rw [hld]; exact hd)
    have hr' : b.rhs_ ∉ g.nodes_ := hforeign _ r hr (by rw [hrd]; exact hd)
    exact ⟨l, r, by rw [hkeep _ hl']; exact hl, hld, hlp, by rw [hkeep _ hr']; exact hr, hrd,
      hrp⟩
  · intro d g0 hg0
    simp only [getElem?_set_dag w.dags this d g _ hg] at hg0
    by_cases hd : d = this
    · subst hd
      simp only [if_true, Option.some.injEq] at hg0
      subst hg0
      simp
    · simp only [hd, if_false] at hg0
      exact hw.ordered d g0 hg0

theorem World.WellFormed.wf_step (w w' : World) (c : WorldCall) (hw : World.WellFormed w)
    (hstep : w.step c = some w') : World.WellFormed w' := by
  cases c with
  | Dataflow =>
    simp only [World.step, Option.some.injEq] at hstep
    subst hstep
    exact World.WellFormed.construct w hw
  | call this c =>
    simp only [World.step] at hstep
    cases hg : w.dags[this]? with
    | none => simp [hg] at hstep
    | some g =>
      simp only [hg] at hstep
      have hsame : World.WellFormed { heap := w.heap, dags := w.dags.set this g } := by
        rw [set_dag_self w.dags this g hg]
        exact hw
      cases c with
      | DeclareVariable name =>
        simp only [Session.step] at hstep
        rcases declareVariable_cases this w.heap g name with ⟨e, he⟩ | ⟨-, -, hok⟩
        · rw [he] at hstep
          simp only [Option.some.injEq] at hstep
          subst hstep
          exact hsame
        · rw [hok] at hstep
          simp only [Option.some.injEq] at hstep
          subst hstep
          exact World.WellFormed.wf_grow w hw this g hg (.ofVariable ⟨this, name, none⟩) rfl
            (by intro b hb; cases hb) _
      | CreateBinaryOp op lhs rhs =>
        simp only [Session.step] at hstep
        cases hc : Dataflow.CreateBinaryOp this w.heap g op lhs rhs with
        | none => simp [hc] at hstep
        | some res =>
          obtain ⟨heap', g', r⟩ := res
          rw [hc] at hstep
          simp only [Option.some.injEq] at hstep
          subst hstep
          cases r with
          | error e =>
            obtain ⟨h1, h2⟩ := createBinaryOp_error_inv this w.heap heap' g g' op lhs rhs e hc
            subst h1 h2
            exact hsame
          | ok ptr =>
            obtain ⟨l, r, hl, hld, hr, hrd, h1, h2, -⟩ :=
              createBinaryOp_ok_inv this w.heap heap' g g' op lhs rhs ptr hc
            subst h1 h2
            exact World.WellFormed.wf_grow w hw this g hg (.ofBinaryOp ⟨this, op, lhs, rhs⟩) rfl
              (by
                intro b hb
                cases hb
                exact ⟨l, r, hl, hld, hr, hrd⟩) g.variables_
      | Assign var value =>
        simp only [Session.step] at hstep
        cases ha : Heap.Assign w.heap var value with
        | none => simp [ha] at hstep
        | some heap' =>
          obtain ⟨v, hv, hh⟩ := Heap.Assign_eq w.heap heap' var value ha
          simp only [ha, Option.some.injEq] at hstep
          subst hstep hh
          simp only [set_dag_self w.dags this g hg]
          exact World.WellFormed.wf_update w hw var v _ hv rfl
      | Reset var =>
        simp only [Session.step] at hstep
        cases ha : Heap.Reset w.heap var with
        | none => simp [ha] at hstep
        | some heap' =>
          obtain ⟨v, hv, hh⟩ := Heap.Reset_eq w.heap heap' var ha
          simp only [ha, Option.some.injEq] at hstep
          subst hstep hh
          simp only [set_dag_self w.dags this g hg]
          exact World.WellFormed.wf_update w hw var v _ hv rfl
      | clear =>
        simp only [Session.step, Dataflow.clear, Option.some.injEq] at hstep
        subst hstep
        exact World.WellFormed.clear w hw this g hg

theorem World.WellFormed.wf_run (calls : List WorldCall) :
    ∀ (w w' : World), World.WellFormed w → World.run w calls = some w' →
      World.WellFormed w' := by
  induction calls with
  | nil =>
    intro w w' hw hrun
    simp only [World.run] at hrun
    cases hrun
    exact hw
  | cons c cs ih =>
    intro w w' hw hrun
    simp only [World.run] at hrun
    cases hstep : w.step c with
    | none => simp [hstep] at hrun
    | some w1 =>
      rw [hstep] at hrun
      exact ih w1 w' (World.WellFormed.wf_step w w1 c hw hstep) hrun

end nwcpp

namespace nwcpp

/-! ## Consequences of the invariant -/

theorem Node.expr_succ (heap : Heap) :
    ∀ (fuel : Nat) (node : NodePtr) (e : Expr),
      Node.expr heap fuel node = some e → Node.expr heap (fuel + 1) node = some e := by
  intro fuel
  induction fuel with
  | zero => intro node e h; simp [Node.expr] at h
  | succ fuel ih =>
    intro node e h
    rw [Node.expr] at h
    rw [Node.expr]
    cases hn : Heap.deref heap node with
    | none => simp [hn] at h
    | some n =>
      rw [hn] at h
      cases n with
      | ofVariable v => exact h
      | ofBinaryOp b =>
        simp only at h ⊢
        cases hl : Node.expr heap fuel b.lhs_ with
        | none => simp [hl] at h
        | some el =>
          cases hr : Node.expr heap fuel b.rhs_ with
          | none => simp [hl, hr] at h
          | some er =>
            rw [ih _ _ hl, ih _ _ hr]
            rw [hl, hr] at h
            exact h

theorem Node.expr_mono (heap : Heap) (node : NodePtr) (e : Expr) (fuel : Nat)
    (h : Node.expr heap fuel node = some e) :
    ∀ fuel', fuel ≤ fuel' → Node.expr heap fuel' node = some e := by
  intro fuel' hle
  induction hle with
  | refl => exact h
  | step _ ih => exact Node.expr_succ heap _ node e ih

theorem World.WellFormed.reaches_le (w : World) (hw : World.WellFormed w) (p q : NodePtr)
    (h : Reaches w.heap p q) : q ≤ p := by
  induction h with
  | refl => exact Nat.le_refl _
  | lhs p q b hb _ ih =>
    obtain ⟨l, r, -, -, hlp, -, -, -⟩ := hw.operands p b hb
    exact Nat.le_trans ih (Nat.le_of_lt hlp)
  | rhs p q b hb _ ih =>
    obtain ⟨l, r, -, -, -, -, -, hrp⟩ := hw.operands p b hb
    exact Nat.le_trans ih (Nat.le_of_lt hrp)

theorem World.WellFormed.reaches_owned (w : World) (hw : World.WellFormed w) (p q : NodePtr)
    (h : Reaches w.heap p q) :
    ∀ n : Node, Heap.deref w.heap p = some n →
      ∃ m : Node, Heap.deref w.heap q = some m ∧ m.dag = n.dag := by
  induction h with
  | refl => intro n hn; exact ⟨n, hn, rfl⟩
  | lhs p q b hb _ ih =>
    intro n hn
    rw [hb] at hn
    cases hn
    obtain ⟨l, r, hl, hld, -, -, -, -⟩ := hw.operands p b hb
    obtain ⟨m, hm, hmd⟩ := ih l hl
    exact ⟨m, hm, hmd.trans hld⟩
  | rhs p q b hb _ ih =>
    intro n hn
    rw [hb] at hn
    cases hn
    obtain ⟨l, r, -, -, -, hr, hrd, -⟩ := hw.operands p b hb
    obtain ⟨m, hm, hmd⟩ := ih r hr
    exact ⟨m, hm, hmd.trans hrd⟩

/-- In a graph of a well-formed state, a node with a smaller address that also
belongs to the graph stands at an earlier position of the node sequence. -/
theorem World.WellFormed.earlier (w : World) (hw : World.WellFormed w) (d : DagPtr)
    (g : Dataflow) (hg : w.dags[d]? = some g) (i : Nat) (p q : NodePtr)
    (hi : g.nodes_[i]? = some p) (hq : q ∈ g.nodes_) (hlt : q < p) :
    ∃ j, j < i ∧ g.nodes_[j]? = some q := by
  obtain ⟨j, hj, hjq⟩ := List.mem_iff_getElem.mp hq
  refine ⟨j, ?_, by rw [List.getElem?_eq_getElem hj, hjq]⟩
  obtain ⟨hi', hip⟩ := List.getElem?_eq_some.mp hi
  by_contra hge
  have hij : i ≤ j := Nat.le_of_not_lt hge
  rcases Nat.lt_or_eq_of_le hij with h | h
  · have := (List.pairwise_iff_getElem.mp (hw.ordered d g hg)) i j hi' hj h
    rw [hip, hjq] at this
    exact Nat.lt_irrefl _ (Nat.lt_trans this hlt)
  · subst h
    rw [hip] at hjq
    rw [hjq] at hlt
    exact Nat.lt_irrefl _ hlt

theorem World.WellFormed.operands_earlier (w : World) (hw : World.WellFormed w) (d : DagPtr)
    (g : Dataflow) (hg : w.dags[d]? = some g) (i : Nat) (p : NodePtr) (b : BinaryOp)
    (hi : g.nodes_[i]? = some p) (hb : Heap.deref w.heap p = some (.ofBinaryOp b)) :
    ∃ j k, j < i ∧ k < i ∧ g.nodes_[j]? = some b.lhs_ ∧ g.nodes_[k]? = some b.rhs_ := by
  have hp : p ∈ g.nodes_ := List.getElem?_mem hi
  obtain ⟨n, hn, hnd⟩ := hw.owned d g hg p hp
  rw [hb] at hn
  cases hn
  obtain ⟨l, r, hl, hld, hlp, hr, hrd, hrp⟩ := hw.operands p b hb
  have hmem : ∀ (q : NodePtr) (m : Node), Heap.deref w.heap q = some m → m.dag = b.dag_ →
      q ∈ g.nodes_ := by
    intro q m hm hmd
    obtain ⟨g0, hg0, hq0⟩ := hw.member q m hm
    have : m.dag = d := hmd.trans hnd
    rw [this, hg] at hg0
    cases hg0
    exact hq0
  obtain ⟨j, hj, hjl⟩ := World.WellFormed.earlier w hw d g hg i p b.lhs_ hi (hmem _ l hl hld) hlp
  obtain ⟨k, hk, hkr⟩ := World.WellFormed.earlier w hw d g hg i p b.rhs_ hi (hmem _ r hr hrd) hrp
  exact ⟨j, k, hj, hk, hjl, hkr⟩

theorem World.WellFormed.expr_at (w : World) (hw : World.WellFormed w) (d : DagPtr)
    (g : Dataflow) (hg : w.dags[d]? = some g) :
    ∀ (i : Nat) (p : NodePtr), g.nodes_[i]? = some p →
      ∃ e, Node.expr w.heap (i + 1) p = some e := by
  intro i
  induction i using Nat.strong_induction_on with
  | _ i ih =>
    intro p hi
    obtain ⟨n, hn, -⟩ := hw.owned d g hg p (List.getElem?_mem hi)
    cases n with
    | ofVariable v => exact ⟨.var p v.name_, by simp [Node.expr, hn]⟩
    | ofBinaryOp b =>
      obtain ⟨j, k, hj, hk, hjl, hkr⟩ :=
        World.WellFormed.operands_earlier w hw d g hg i p b hi hn
      obtain ⟨el, hel⟩ := ih j hj b.lhs_ hjl
      obtain ⟨er, her⟩ := ih k hk b.rhs_ hkr
      have hel' := Node.expr_mono w.heap _ el _ hel i hj
      have her' := Node.expr_mono w.heap _ er _ her i hk
      exact ⟨.op b.op_ el er, by simp [Node.expr, hn, hel', her']⟩

end nwcpp

namespace nwcpp

/-! ## Acyclicity, termination and ownership -/

/-- C16: in every state reached from the empty state by any sequence of defined
steps (graph constructions, declarations, operator creations, assignments,
resets, clears, on any number of graphs), both operands of every operator node
of a graph stand at strictly earlier positions of that graph's node sequence
than the operator itself.  Hence no operator node is reached from one of its
own operands, and `Eval` terminates on every node of the graph: the recursion
through operand pointers unfolds completely within a depth of the node's
position plus one, so a depth equal to the number of nodes of the graph always
suffices; within that depth `Eval` yields the outcome of the node's expression,
which is a value or an exception unless a division of `INT_MIN` by `-1` is
reached, the one operation that ends an evaluation without a result. -/
theorem operands_precede (calls : List WorldCall) (w : World) (d : DagPtr) (g : Dataflow)
    (hrun : World.run World.empty calls = some w) (hg : w.dags[d]? = some g) :
    (∀ (i : Nat) (p : NodePtr) (b : BinaryOp), g.nodes_[i]? = some p →
      Heap.deref w.heap p = some (.ofBinaryOp b) →
      ∃ j k, j < i ∧ k < i ∧ g.nodes_[j]? = some b.lhs_ ∧ g.nodes_[k]? = some b.rhs_) ∧
    (∀ (p : NodePtr) (b : BinaryOp), Heap.deref w.heap p = some (.ofBinaryOp b) →
      ¬ Reaches w.heap b.lhs_ p ∧ ¬ Reaches w.heap b.rhs_ p) ∧
    (∀ (i : Nat) (p : NodePtr), g.nodes_[i]? = some p →
      ∃ e, Node.expr w.heap (i + 1) p = some e ∧
        Node.Eval w.heap (i + 1) p = e.eval w.heap.values ∧
        ((∃ res, Node.Eval w.heap (i + 1) p = some res) ∨ DivOverflow w.heap p)) ∧
    (∀ p ∈ g.nodes_,
      ∃ e, Node.expr w.heap g.nodes_.length p = some e ∧
        Node.Eval w.heap g.nodes_.length p = e.eval w.heap.values ∧
        ((∃ res, Node.Eval w.heap g.nodes_.length p = some res) ∨ DivOverflow w.heap p)) := by
  have hw : World.WellFormed w :=
    World.WellFormed.wf_run calls _ w World.WellFormed.empty hrun
  have hout : ∀ (fuel : Nat) (p : NodePtr) (e : Expr), Node.expr w.heap fuel p = some e →
      Node.expr w.heap fuel p = some e ∧ Node.Eval w.heap fuel p = e.eval w.heap.values ∧
        ((∃ res, Node.Eval w.heap fuel p = some res) ∨ DivOverflow w.heap p) := by
    intro fuel p e he
    refine ⟨he, Node.Eval_eq_expr w.heap fuel p e he, ?_⟩
    cases hres : Node.Eval w.heap fuel p with
    | none => exact Or.inr (Node.Eval_none_divOverflow w.heap fuel p e he hres)
    | some res => exact Or.inl ⟨res, rfl⟩
  refine ⟨?_, ?_, ?_, ?_⟩
  · intro i p b hi hb
    exact World.WellFormed.operands_earlier w hw d g hg i p b hi hb
  · intro p b hb
    obtain ⟨l, r, -, -, hlp, -, -, hrp⟩ := hw.operands p b hb
    constructor
    · intro h
      have := World.WellFormed.reaches_le w hw _ _ h
      exact Nat.lt_irrefl _ (Nat.lt_of_le_of_lt this hlp)
    · intro h
      have := World.WellFormed.reaches_le w hw _ _ h
      exact Nat.lt_irrefl _ (Nat.lt_of_le_of_lt this hrp)
  · intro i p hi
    obtain ⟨e, he⟩ := World.WellFormed.expr_at w hw d g hg i p hi
    exact ⟨e, hout (i + 1) p e he⟩
  · intro p hp
    obtain ⟨i, hi, hip⟩ := List.mem_iff_getElem.mp hp
    obtain ⟨e, he⟩ := World.WellFormed.expr_at w hw d g hg i p
      (by rw [List.getElem?_eq_getElem hi, hip])
    exact ⟨e, hout _ p e (Node.expr_mono w.heap p e _ he _ hi)⟩

/-- Witness for C16: the graph of the binary operation test; the node
(a+b)-(a-b) stands at position 6, its operands at positions 2 and 4. -/
theorem operands_precede_witness :
    ∃ w g, World.run World.empty binaryOperationsWorld = some w ∧ w.dags[0]? = some g ∧
      g.nodes_ = [0, 1, 2, 3, 4, 5, 6] ∧
      (∃ j k, j < 6 ∧ k < 6 ∧ g.nodes_[j]? = some 2 ∧ g.nodes_[k]? = some 4) ∧
      ∀ p ∈ g.nodes_,
        ∃ e, Node.expr w.heap g.nodes_.length p = some e ∧
          Node.Eval w.heap g.nodes_.length p = e.eval w.heap.values ∧
          ((∃ res, Node.Eval w.heap g.nodes_.length p = some res) ∨ DivOverflow w.heap p) :=
  ⟨_, _, rfl, rfl, rfl,
    (operands_precede binaryOperationsWorld _ 0 _ rfl rfl).1 6 6 ⟨0, '-', 2, 4⟩ rfl rfl,
    (operands_precede binaryOperationsWorld _ 0 _ rfl rfl).2.2.2⟩

/-- C17: in every state reached from the empty state by any sequence of defined
steps on any number of graphs, whether the calls succeed or throw, every node
of a graph's node sequence is live and has that graph as its owner; every node
reached from it through operand pointers is again a node of the same graph's
sequence, owned by that graph; the operands of every operator node have the
operator's owner; and no node stands in the sequences of two graphs.  In the
test with two graphs, the creations that mix operands are rejected and change
nothing. -/
theorem single_graph_membership (calls : List WorldCall) (w : World) (d : DagPtr)
    (g : Dataflow) (hrun : World.run World.empty calls = some w) (hg : w.dags[d]? = some g) :
    (∀ p ∈ g.nodes_, ∃ n : Node, Heap.deref w.heap p = some n ∧ n.dag = d) ∧
    (∀ p ∈ g.nodes_, ∀ q, Reaches w.heap p q →
      q ∈ g.nodes_ ∧ ∃ m : Node, Heap.deref w.heap q = some m ∧ m.dag = d) ∧
    (∀ (p : NodePtr) (b : BinaryOp), Heap.deref w.heap p = some (.ofBinaryOp b) →
      ∃ l r : Node, Heap.deref w.heap b.lhs_ = some l ∧ l.dag = b.dag_ ∧
        Heap.deref w.heap b.rhs_ = some r ∧ r.dag = b.dag_) ∧
    (∀ (d' : DagPtr) (g' : Dataflow), w.dags[d']? = some g' → d' ≠ d →
      ∀ p ∈ g.nodes_, p ∉ g'.nodes_) ∧
    World.run World.empty (mixingDataflowsTest ++ [.call 1 (.CreateBinaryOp '+' 0 1),
        .call 1 (.CreateBinaryOp '+' 3 4), .call 1 (.CreateBinaryOp '+' 4 3)]) =
      World.run World.empty mixingDataflowsTest := by
  have hw : World.WellFormed w :=
    World.WellFormed.wf_run calls _ w World.WellFormed.empty hrun
  refine ⟨hw.owned d g hg, ?_, ?_, ?_, by decide⟩
  · intro p hp q hq
    obtain ⟨n, hn, hnd⟩ := hw.owned d g hg p hp
    obtain ⟨m, hm, hmd⟩ := World.WellFormed.reaches_owned w hw p q hq n hn
    obtain ⟨g0, hg0, hq0⟩ := hw.member q m hm
    rw [hmd, hnd, hg] at hg0
    cases hg0
    exact ⟨hq0, m, hm, hmd.trans hnd⟩
  · intro p b hb
    obtain ⟨l, r, hl, hld, -, hr, hrd, -⟩ := hw.operands p b hb
    exact ⟨l, r, hl, hld, hr, hrd⟩
  · intro d' g' hg' hne p hp hp'
    obtain ⟨n, hn, hnd⟩ := hw.owned d g hg p hp
    obtain ⟨n', hn', hnd'⟩ := hw.owned d' g' hg' p hp'
    rw [hn] at hn'
    cases hn'
    exact hne (hnd'.symm.trans hnd)

/-- Witness for C17: the two graphs of the mixing test. -/
theorem single_graph_membership_witness :
    ∃ w g, World.run World.empty mixingDataflowsTest = some w ∧ w.dags[1]? = some g ∧
      g.nodes_ = [2, 4] ∧
      (∀ p ∈ g.nodes_, ∃ n : Node, Heap.deref w.heap p = some n ∧ n.dag = 1) ∧
      ∀ p ∈ g.nodes_, ∀ q, Reaches w.heap p q →
        q ∈ g.nodes_ ∧ ∃ m : Node, Heap.deref w.heap q = some m ∧ m.dag = 1 :=
  ⟨_, _, rfl, rfl, rfl,
    (single_graph_membership mixingDataflowsTest _ 1 _ rfl rfl).1,
    (single_graph_membership mixingDataflowsTest _ 1 _ rfl rfl).2.1⟩

end nwcpp

namespace nwcpp

/-! ## The Graphviz export -/

theorem variableLabel_eq (v : Variable) :
    variableLabel v = .ok (match v.value_ with
      | none => v.name
      | some value => v.name ++ "=" ++ toString value) := by
  unfold variableLabel Variable.HasValue Variable.Eval
  cases v.value_ <;> rfl

/-- On live nodes the loop never throws: it appends one block per node. -/
theorem dumpLoop_eq (showPtr : NodePtr → String) (heap : Heap) :
    ∀ (nodes : List NodePtr) (dot : String),
      (∀ p ∈ nodes, ∃ n : Node, Heap.deref heap p = some n) →
      dumpLoop showPtr heap nodes dot =
        some (.ok (dot ++ concatAll (nodes.map (dotBlock showPtr heap)))) := by
  intro nodes
  induction nodes with
  | nil =>
    intro dot _
    show some (Except.ok dot) = some (Except.ok (dot ++ ""))
    rw [String.append_empty]
  | cons p rest ih =>
    intro dot hlive
    obtain ⟨n, hn⟩ := hlive p (List.mem_cons_self _ _)
    have hrest : ∀ q ∈ rest, ∃ m : Node, Heap.deref heap q = some m :=
      fun q hq => hlive q (List.mem_cons_of_mem _ hq)
    rw [dumpLoop, hn]
    cases n with
    | ofVariable v =>
      simp only [Node.asVariable, variableLabel_eq]
      rw [ih _ hrest, List.map_cons, concatAll, String.append_assoc]
      simp only [dotBlock, hn]
    | ofBinaryOp b =>
      simp only [Node.asVariable, Node.asBinaryOp]
      rw [ih _ hrest, List.map_cons, concatAll, String.append_assoc]
      simp only [dotBlock, hn]

theorem dumpToGraphviz_eq (showPtr : NodePtr → String) (heap : Heap) (g : Dataflow)
    (hlive : ∀ p ∈ g.nodes_, ∃ n : Node, Heap.deref heap p = some n) :
    Dataflow.DumpToGraphviz showPtr heap g =
      some (.ok ("digraph dataflow \x7b\n" ++ "rankdir=TB\n"
        ++ concatAll (g.nodes_.map (dotBlock showPtr heap)) ++ "\x7d\n")) := by
  unfold Dataflow.DumpToGraphviz
  rw [dumpLoop_eq showPtr heap g.nodes_ _ hlive]

theorem DotNodeId_injective (showPtr : NodePtr → String) (hinj : Function.Injective showPtr)
    (p q : NodePtr) (h : DotNodeId showPtr p = DotNodeId showPtr q) : p = q := by
  apply hinj
  unfold DotNodeId at h
  have hdata := congrArg String.data h
  rw [String.data_append, String.data_append] at hdata
  exact String.ext (List.append_cancel_left hdata)

set_option maxRecDepth 100000 in
/-- C18: in every state reached from the empty state by any sequence of defined
steps, `DumpToGraphviz()` on any graph returns a text and raises no error,
whatever the values of the variables and whether or not the operators would
evaluate: neither `Unexpected node type` nor `UnassignedVariable` can occur.
The method is const: it returns a text and no new state.  For a graph holding
the unassigned variable a, the variable b = 0 and the node a/b, whose `Eval`
fails, the export is the five-line text below. -/
theorem dumpToGraphviz_total (calls : List WorldCall) (w : World) (d : DagPtr) (g : Dataflow)
    (showPtr : NodePtr → String)
    (hrun : World.run World.empty calls = some w) (hg : w.dags[d]? = some g) :
    (∃ out, Dataflow.DumpToGraphviz showPtr w.heap g = some (.ok out)) ∧
    (∀ e, Dataflow.DumpToGraphviz showPtr w.heap g ≠ some (.error e)) ∧
    Dataflow.DumpToGraphviz showPtr w.heap g ≠ none ∧
    Dataflow.DumpToGraphviz (fun p => toString p)
        [some (.ofVariable ⟨0, "a", none⟩), some (.ofVariable ⟨0, "b", some 0⟩),
          some (.ofBinaryOp ⟨0, '/', 0, 1⟩)]
        ⟨[("a", 0), ("b", 1)], [0, 1, 2]⟩ =
      some (.ok ("digraph dataflow \x7b\nrankdir=TB\n"
        ++ "Node_0 [label=\"a\", shape=rect, color=darkgreen, style=filled, fillcolor=palegreen]\n"
        ++ "Node_1 [label=\"b=0\", shape=rect, color=darkgreen, style=filled, fillcolor=palegreen]\n"
        ++ "Node_2 [label=\"<lhs>|/|<rhs>\", shape=Mrecord, color=blue, style=filled, fillcolor=lightblue]\n"
        ++ "Node_0->Node_2:lhs\nNode_1->Node_2:rhs\n\x7d\n")) ∧
    Node.Eval [some (.ofVariable ⟨0, "a", none⟩), some (.ofVariable ⟨0, "b", some 0⟩),
        some (.ofBinaryOp ⟨0, '/', 0, 1⟩)] 2 2 = some (.error (.UnassignedVariable "a")) := by
  have hw : World.WellFormed w :=
    World.WellFormed.wf_run calls _ w World.WellFormed.empty hrun
  have hlive : ∀ p ∈ g.nodes_, ∃ n : Node, Heap.deref w.heap p = some n := by
    intro p hp
    obtain ⟨n, hn, -⟩ := hw.owned d g hg p hp
    exact ⟨n, hn⟩
  have heq := dumpToGraphviz_eq showPtr w.heap g hlive
  refine ⟨⟨_, heq⟩, ?_, ?_, rfl, by decide⟩
  · intro e h
    rw [heq] at h
    cases h
  · intro h
    rw [heq] at h
    cases h

/-- Witness for C18: the export of the graph a, b, a/b with no value assigned. -/
theorem dumpToGraphviz_total_witness :
    ∃ w g, World.run World.empty
        [.Dataflow, .call 0 (.DeclareVariable "a"), .call 0 (.DeclareVariable "b"),
          .call 0 (.CreateBinaryOp '/' 0 1)] = some w ∧ w.dags[0]? = some g ∧
      ∃ out, Dataflow.DumpToGraphviz (fun p => toString p) w.heap g = some (.ok out) :=
  ⟨_, _, rfl, rfl,
    (dumpToGraphviz_total
      [.Dataflow, .call 0 (.DeclareVariable "a"), .call 0 (.DeclareVariable "b"),
        .call 0 (.CreateBinaryOp '/' 0 1)] _ 0 _ (fun p => toString p) rfl rfl).1⟩

end nwcpp

namespace nwcpp

theorem tallyPtr_injective : Function.Injective tallyPtr := by
  intro p q h
  have hdata := congrArg String.data h
  simp only [tallyPtr] at hdata
  have hlen := congrArg List.length hdata
  simpa using hlen

/-- C12: in every state reached from the empty state by any sequence of defined
steps, and for any injective printing of addresses, the export of a graph is
the header, then one block per node in the order of the node sequence, then the
closing brace.  The block of a variable is one box statement whose label is the
name when the variable is unassigned and `name=value` when it is assigned.  The
block of an operator node is one record statement with the label
`<lhs>|op|<rhs>` directly followed by the two edge lines, from the identifier
of the left operand to the port `:lhs` and from the identifier of the right
operand to the port `:rhs` of the operator; both operands are nodes at earlier
positions of the sequence, so their own statements come earlier in the text
under the same identifiers.  Distinct addresses have distinct identifiers and
the node sequence has no repetition. -/
theorem dumpToGraphviz_format (calls : List WorldCall) (w : World) (d : DagPtr)
    (g : Dataflow) (showPtr : NodePtr → String)
    (hrun : World.run World.empty calls = some w) (hg : w.dags[d]? = some g)
    (hinj : Function.Injective showPtr) :
    ∃ blocks : List String,
      Dataflow.DumpToGraphviz showPtr w.heap g =
        some (.ok ("digraph dataflow \x7b\n" ++ "rankdir=TB\n" ++ concatAll blocks ++ "\x7d\n")) ∧
      blocks.length = g.nodes_.length ∧
      (∀ (i : Nat) (p : NodePtr), g.nodes_[i]? = some p →
        (∀ v : Variable, Heap.deref w.heap p = some (.ofVariable v) → v.value_ = none →
          blocks[i]? = some (DotNodeId showPtr p ++ " [label=\"" ++ v.name ++ "\", "
            ++ "shape=rect, color=darkgreen, " ++ "style=filled, fillcolor=palegreen]\n")) ∧
        (∀ (v : Variable) (x : Int), Heap.deref w.heap p = some (.ofVariable v) →
          v.value_ = some x →
          blocks[i]? = some (DotNodeId showPtr p ++ " [label=\"" ++ (v.name ++ "=" ++ toString x)
            ++ "\", " ++ "shape=rect, color=darkgreen, "
            ++ "style=filled, fillcolor=palegreen]\n")) ∧
        (∀ b : BinaryOp, Heap.deref w.heap p = some (.ofBinaryOp b) →
          blocks[i]? = some
            ((DotNodeId showPtr p ++ " [label=\"<lhs>|" ++ String.singleton b.op_
                ++ "|<rhs>\", shape=Mrecord, color=blue, "
                ++ "style=filled, fillcolor=lightblue]\n")
              ++ (DotNodeId showPtr b.lhs_ ++ "->" ++ DotNodeId showPtr p ++ ":lhs\n")
              ++ (DotNodeId showPtr b.rhs_ ++ "->" ++ DotNodeId showPtr p ++ ":rhs\n")) ∧
          ∃ j k, j < i ∧ k < i ∧ g.nodes_[j]? = some b.lhs_ ∧ g.nodes_[k]? = some b.rhs_)) ∧
      (∀ p q, DotNodeId showPtr p = DotNodeId showPtr q → p = q) ∧
      g.nodes_.Nodup := by
  have hw : World.WellFormed w :=
    World.WellFormed.wf_run calls _ w World.WellFormed.empty hrun
  have hlive : ∀ p ∈ g.nodes_, ∃ n : Node, Heap.deref w.heap p = some n := by
    intro p hp
    obtain ⟨n, hn, -⟩ := hw.owned d g hg p hp
    exact ⟨n, hn⟩
  have hblock : ∀ (i : Nat) (p : NodePtr), g.nodes_[i]? = some p →
      (g.nodes_.map (dotBlock showPtr w.heap))[i]? = some (dotBlock showPtr w.heap p) := by
    intro i p hi
    rw [List.getElem?_map, hi]
    rfl
  refine ⟨g.nodes_.map (dotBlock showPtr w.heap), dumpToGraphviz_eq showPtr w.heap g hlive,
    List.length_map _ _, ?_, DotNodeId_injective showPtr hinj, (hw.ordered d g hg).nodup⟩
  intro i p hi
  refine ⟨?_, ?_, ?_⟩
  · intro v hv hval
    rw [hblock i p hi]
    simp only [dotBlock, hv, hval, variableStatement]
  · intro v x hv hval
    rw [hblock i p hi]
    simp only [dotBlock, hv, hval, variableStatement]
  · intro b hb
    refine ⟨?_, World.WellFormed.operands_earlier w hw d g hg i p b hi hb⟩
    rw [hblock i p hi]
    simp only [dotBlock, hb, binaryOpStatements]

/-- Witness for C12: the export of the graph a, b, a+b with a = 1. -/
theorem dumpToGraphviz_format_witness :
    ∃ w g, World.run World.empty
        [.Dataflow, .call 0 (.DeclareVariable "a"), .call 0 (.DeclareVariable "b"),
          .call 0 (.CreateBinaryOp '+' 0 1), .call 0 (.Assign 0 1)] = some w ∧
      w.dags[0]? = some g ∧
      ∃ blocks : List String,
        Dataflow.DumpToGraphviz tallyPtr w.heap g =
          some (.ok ("digraph dataflow \x7b\n" ++ "rankdir=TB\n" ++ concatAll blocks
            ++ "\x7d\n")) ∧
        blocks.length = g.nodes_.length :=
  ⟨_, _, rfl, rfl,
    (dumpToGraphviz_format
      [.Dataflow, .call 0 (.DeclareVariable "a"), .call 0 (.DeclareVariable "b"),
        .call 0 (.CreateBinaryOp '+' 0 1), .call 0 (.Assign 0 1)] _ 0 _ tallyPtr rfl rfl
      tallyPtr_injective).imp fun _ h => ⟨h.1, h.2.1⟩⟩

end nwcpp
